import Mathlib

set_option maxHeartbeats 1000000

namespace zksfs

/-- Error messages used by the library, collected as named constants. -/
def msgModulusZero : String := "Modulus cannot be zero."

def msgAddMod : String := "Moduli must be the same for addition."

def msgSubMod : String := "Moduli must be the same for subtraction."

def msgMulMod : String := "Moduli must be the same for multiplication."

def msgNoInverse : String := "Modular inverse does not exist."

/-- Error type of the library (src/errors.rs). The shipped errors.rs declares the
InvalidFieldElement and CircuitError variants; the PolynomialError variant is
constructed throughout polynomial.rs, qap.rs and snark.rs and is therefore part of
the error enum of the crate, so it is included here. -/
inductive ZKError where
  | InvalidFieldElement (msg : String)
  | CircuitError (msg : String)
  | PolynomialError (msg : String)
deriving DecidableEq

/-- A field element (src/field.rs): an unsigned value together with its modulus.
Rust u64 arithmetic is modelled with Nat; no reachable computation in the theorems
below exceeds 64 bits, and u64 overflow aborts (rather than wraps) in checked
builds, so no successful Rust result diverges from the Nat model. -/
structure FieldElement where
  value : Nat
  modulus : Nat
deriving DecidableEq

/-- FieldElement::new - fails only when the modulus is zero; the value is stored
without being reduced. -/
def FieldElement.new (value modulus : Nat) : Except ZKError FieldElement :=
  if modulus = 0 then .error (.InvalidFieldElement msgModulusZero)
  else .ok { value := value, modulus := modulus }

/-- FieldElement::add. -/
def FieldElement.add (a b : FieldElement) : Except ZKError FieldElement :=
  if a.modulus ≠ b.modulus then .error (.InvalidFieldElement msgAddMod)
  else FieldElement.new ((a.value + b.value) % a.modulus) a.modulus

/-- FieldElement::sub - adds the modulus before subtracting to avoid underflow.
Rust u64 subtraction aborts on underflow in checked builds; Nat subtraction
truncates at zero instead.  All theorems below that depend on the subtraction
result assume the subtrahend value is below the modulus, in which case no
underflow occurs and the two semantics agree. -/
def FieldElement.sub (a b : FieldElement) : Except ZKError FieldElement :=
  if a.modulus ≠ b.modulus then .error (.InvalidFieldElement msgSubMod)
  else FieldElement.new ((a.value + a.modulus - b.value) % a.modulus) a.modulus

/-- FieldElement::mul. -/
def FieldElement.mul (a b : FieldElement) : Except ZKError FieldElement :=
  if a.modulus ≠ b.modulus then .error (.InvalidFieldElement msgMulMod)
  else FieldElement.new ((a.value * b.value) % a.modulus) a.modulus

/-- Reference extended Euclid on naturals, with an explicit fuel argument
bounding the recursion depth.  Since b % a < a whenever a is non-zero, a fuel of
a + 1 is always sufficient (see eegcdNGo_fuel below), so the fuel never changes
the computed result.  FieldElement.eegcd below agrees with this reference
whenever both of its integer arguments are non-negative, because Rust truncated
division and remainder coincide with Nat division and remainder there. -/
def eegcdNGo : Nat → Nat → Nat → Int × Int × Int
  | 0, _, b => ((b : Int), 0, 1)
  | fuel + 1, a, b =>
    if a = 0 then ((b : Int), 0, 1)
    else
      let r := eegcdNGo fuel (b % a) a
      (r.1, r.2.2 - ((b / a : Nat) : Int) * r.2.1, r.2.1)

/-- Entry point of the reference extended Euclid on naturals: returns (g, x, y)
with x * a + y * b = g. -/
def eegcdN (a b : Nat) : Int × Int × Int := eegcdNGo (a + 1) a b

/-- Reinterpretation of a u64 bit pattern as an i64 (the Rust cast value as i64
at field.rs:56): two's complement, so a value of 2^63 or above comes out
negative. -/
def toI64 (v : Nat) : Int :=
  if v % 2 ^ 64 < 2 ^ 63 then ((v % 2 ^ 64 : Nat) : Int)
  else ((v % 2 ^ 64 : Nat) : Int) - 2 ^ 64

/-- Reinterpretation of an i64 value as a u64 bit pattern (the Rust cast
x_pos as u64 at field.rs:68): the representative modulo 2^64 in [0, 2^64). -/
def toU64 (x : Int) : Nat := (x % (2 ^ 64 : Int)).toNat

/-- FieldElement::eegcd on i64 arguments, which may be negative after the casts
performed by FieldElement::inv.  Rust % and / on i64 truncate toward zero,
modelled by Int.tmod and Int.tdiv; the intermediate arithmetic is carried out
exactly over Int.  The explicit fuel bounds the recursion depth: the absolute
value of b tmod a is below that of a whenever a is non-zero, so a fuel of
natAbs a + 1 is always sufficient and never changes the computed result. -/
def FieldElement.eegcdGo : Nat → Int → Int → Int × Int × Int
  | 0, _, b => (b, 0, 1)
  | fuel + 1, a, b =>
    if a = 0 then (b, 0, 1)
    else
      let r := FieldElement.eegcdGo fuel (Int.tmod b a) a
      (r.1, r.2.2 - Int.tdiv b a * r.2.1, r.2.1)

/-- FieldElement::eegcd entry point. -/
def FieldElement.eegcd (a b : Int) : Int × Int × Int :=
  FieldElement.eegcdGo (a.natAbs + 1) a b

/-- FieldElement::inv - extended Euclidean algorithm; fails when the computed g
is not 1.  The source first reinterprets the unsigned value and modulus as i64
(field.rs:56-57), so a value or modulus of 2^63 or above enters the algorithm
as a negative number; the result ((x % m) + m) % m is computed with truncated
remainders and reinterpreted back as a u64.  For a modulus of zero the source
hits a division by zero inside x % m on the single reachable input with value
congruent to 1; here that case surfaces as the modulus-zero failure of
FieldElement.new instead. -/
def FieldElement.inv (a : FieldElement) : Except ZKError FieldElement :=
  let v : Int := toI64 a.value
  let mi : Int := toI64 a.modulus
  let r := FieldElement.eegcd v mi
  if r.1 ≠ 1 then .error (.InvalidFieldElement msgNoInverse)
  else
    let xPos : Int := Int.tmod (Int.tmod r.2.1 mi + mi) mi
    FieldElement.new (toU64 xPos) a.modulus

/-- Loop body of FieldElement::exp (square and multiply).  The fuel bounds the
number of iterations; exponent + 1 is always sufficient since the exponent at
least halves each round. -/
def FieldElement.expGo : Nat → FieldElement → FieldElement → Nat → Except ZKError FieldElement
  | 0, result, _, _ => .ok result
  | fuel + 1, result, base, e =>
    if e = 0 then .ok result
    else do
      let result2 ← if e % 2 = 1 then result.mul base else pure result
      let base2 ← base.mul base
      FieldElement.expGo fuel result2 base2 (e / 2)

/-- FieldElement::exp. -/
def FieldElement.exp (a : FieldElement) (exponent : Nat) : Except ZKError FieldElement := do
  let result ← FieldElement.new 1 a.modulus
  FieldElement.expGo (exponent + 1) result a exponent

/-- Default FieldElement used to model Rust slice indexing.  Rust indexing out of
bounds aborts; the theorems below only use these defaults at in-bounds positions
(or, for the head of an empty coefficient list, in code paths where the modulus
mismatch check fails anyway, since no reachable modulus is 0). -/
def feZero : FieldElement := ⟨0, 0⟩

def msgPolyEmpty : String := "Polynomial must have at least one coefficient"

def msgPolyNewMod : String := "All coefficients must have the same modulus"

def msgEvalMod : String := "Moduli must be the same for evaluation"

def msgPolyAddMod : String := "Moduli must be the same for addition"

def msgPolySubMod : String := "Moduli must be the same for subtraction"

def msgPolyMulMod : String := "Moduli must be the same for multiplication"

def msgPolyDivMod : String := "Moduli must be the same for division"

def msgNotDivisible : String := "p(x) is not divisible by t(x)"

def msgNoConstraints : String := "No constraints available."

def msgNoTerms : String := "Constraint has no terms."

def msgNoPoints : String := "No points to interpolate"

def msgWitnessEmpty : String := "Witness vector is empty."

def msgWitnessOOB : String := "Witness index \x7b\x7d is out of bounds."

/-- A dense polynomial over a finite field (src/polynomial.rs): the coefficient at
index i scales x to the i. -/
structure Polynomial where
  coefficients : List FieldElement
deriving DecidableEq

/-- Polynomial::new - rejects an empty list (note: with a CircuitError, see
polynomial.rs line 13) and mixed moduli (with a PolynomialError). -/
def Polynomial.new (coefficients : List FieldElement) : Except ZKError Polynomial :=
  if coefficients.isEmpty then .error (.CircuitError msgPolyEmpty)
  else
    let modulus := (coefficients.headD feZero).modulus
    if coefficients.all (fun coeff => coeff.modulus = modulus) then
      .ok { coefficients := coefficients }
    else .error (.PolynomialError msgPolyNewMod)

/-- Loop of Polynomial::degree: starting from the top index, steps down while the
coefficient value is zero, stopping at index 0. -/
def degreeGo (coefficients : List FieldElement) : Nat → Nat
  | 0 => 0
  | d + 1 =>
    if (coefficients.getD (d + 1) feZero).value = 0 then degreeGo coefficients d
    else d + 1

/-- Polynomial::degree - the highest index with a non-zero stored value, floored
at 0. -/
def Polynomial.degree (p : Polynomial) : Nat :=
  degreeGo p.coefficients (p.coefficients.length - 1)

/-- Polynomial::evaluate - Horner evaluation from the highest coefficient down. -/
def Polynomial.evaluate (p : Polynomial) (fe : FieldElement) : Except ZKError FieldElement :=
  if (p.coefficients.headD feZero).modulus ≠ fe.modulus then
    .error (.PolynomialError msgEvalMod)
  else do
    let result ← FieldElement.new 0 fe.modulus
    p.coefficients.reverse.foldlM (fun result coeff => do
      let r1 ← result.mul fe
      r1.add coeff) result

/-- Polynomial::add - elementwise over the zero-padded union of lengths.  As in
the source, the zero pad element new(0, modulus) is created on every iteration
before the index lookup, so a zero modulus fails even at in-bounds indices. -/
def Polynomial.add (p other : Polynomial) : Except ZKError Polynomial :=
  if (p.coefficients.headD feZero).modulus ≠ (other.coefficients.headD feZero).modulus then
    .error (.PolynomialError msgPolyAddMod)
  else do
    let maxLen := max p.coefficients.length other.coefficients.length
    let modulus := (p.coefficients.headD feZero).modulus
    let sum ← (List.range maxLen).mapM (fun i => do
      let z ← FieldElement.new 0 modulus
      let a := (p.coefficients.get? i).getD z
      let b := (other.coefficients.get? i).getD z
      a.add b)
    Polynomial.new sum

/-- Polynomial::sub - elementwise like add. -/
def Polynomial.sub (p other : Polynomial) : Except ZKError Polynomial :=
  if (p.coefficients.headD feZero).modulus ≠ (other.coefficients.headD feZero).modulus then
    .error (.PolynomialError msgPolySubMod)
  else do
    let maxLen := max p.coefficients.length other.coefficients.length
    let modulus := (p.coefficients.headD feZero).modulus
    let diff ← (List.range maxLen).mapM (fun i => do
      let z ← FieldElement.new 0 modulus
      let a := (p.coefficients.get? i).getD z
      let b := (other.coefficients.get? i).getD z
      a.sub b)
    Polynomial.new diff

/-- Polynomial::mul - full convolution via the nested index loops of the source,
accumulating into a pre-sized zero vector.  Every write index i + j is below
n + m - 1, so the modelled List.set never falls out of bounds. -/
def Polynomial.mul (p other : Polynomial) : Except ZKError Polynomial :=
  if (p.coefficients.headD feZero).modulus ≠ (other.coefficients.headD feZero).modulus then
    .error (.PolynomialError msgPolyMulMod)
  else do
    let n := p.coefficients.length
    let m := other.coefficients.length
    let modulus := (p.coefficients.headD feZero).modulus
    let z ← FieldElement.new 0 modulus
    let init := List.replicate (n + m - 1) z
    let product ← (List.range n).foldlM (fun product i =>
      (List.range m).foldlM (fun product j => do
        let prod ← (p.coefficients.getD i feZero).mul (other.coefficients.getD j feZero)
        let s ← (product.getD (i + j) feZero).add prod
        pure (product.set (i + j) s)) product) init
    Polynomial.new product

/-- Loop of Polynomial::div.  The fuel bounds the iteration count: every
successful iteration zeroes the remainder at and above its previous true degree
(the leading terms cancel exactly because inv returns a genuine modular inverse
whenever it succeeds), so the true degree strictly decreases until the loop
condition fails; the initial degree of the dividend plus one therefore always
suffices, and with that fuel the returned state always has a false loop
condition or an all-zero remainder. -/
def divLoop (other : Polynomial) (modulus : Nat) :
    Nat → Polynomial → List FieldElement → Except ZKError (List FieldElement × Polynomial)
  | 0, remainder, quotient => .ok (quotient, remainder)
  | fuel + 1, remainder, quotient =>
    if remainder.degree ≥ other.degree ∧ remainder.coefficients.length > 0 ∧
        (remainder.coefficients.getD remainder.degree feZero).value ≠ 0 then do
      let degDiff := remainder.degree - other.degree
      let leadDividend := remainder.coefficients.getD remainder.degree feZero
      let leadDivisor := other.coefficients.getD other.degree feZero
      let linv ← leadDivisor.inv
      let factor ← leadDividend.mul linv
      let z ← FieldElement.new 0 modulus
      let factorPoly ← Polynomial.new (List.replicate degDiff z ++ [factor])
      let q0 ← (quotient.getD degDiff feZero).add factor
      let quotient2 := quotient.set degDiff q0
      let subtrahend ← factorPoly.mul other
      let remainder2 ← remainder.sub subtrahend
      divLoop other modulus fuel remainder2 quotient2
    else .ok (quotient, remainder)

/-- Polynomial::div - synthetic long division returning quotient and remainder.
The quotient write index degDiff stays below the pre-sized quotient length
because the remainder degree never grows, so the modelled List.set matches the
Rust index assignment. -/
def Polynomial.div (p other : Polynomial) : Except ZKError (Polynomial × Polynomial) :=
  let modulus := (p.coefficients.headD feZero).modulus
  if modulus ≠ (other.coefficients.headD feZero).modulus then
    .error (.PolynomialError msgPolyDivMod)
  else do
    let quotientSize := p.degree - other.degree + 1
    let z ← FieldElement.new 0 modulus
    let qr ← divLoop other modulus (p.degree + 1) p (List.replicate quotientSize z)
    let quotient ← Polynomial.new qr.1
    pure (quotient, qr.2)

/-- Polynomial::scale - multiplies every coefficient by the scalar.  The source
unwraps each multiplication, aborting on a modulus mismatch; the model propagates
the error instead, and the theorems below only rely on success paths, where the
two agree. -/
def Polynomial.scale (p : Polynomial) (scalar : FieldElement) : Except ZKError Polynomial := do
  let scaled ← p.coefficients.mapM (fun c => c.mul scalar)
  Polynomial.new scaled

/-- A term of a linear combination (src/circuit.rs). -/
structure Term where
  index : Nat
  coefficient : FieldElement
deriving DecidableEq

/-- A linear combination of terms (src/circuit.rs). -/
structure LinearCombination where
  terms : List Term
deriving DecidableEq

/-- LinearCombination::evaluate - weighted sum of witness entries. -/
def LinearCombination.evaluate (lc : LinearCombination) (witness : List FieldElement) :
    Except ZKError FieldElement :=
  if witness.isEmpty then .error (.CircuitError msgWitnessEmpty)
  else do
    let modulus := (witness.headD feZero).modulus
    let result ← FieldElement.new 0 modulus
    lc.terms.foldlM (fun result term =>
      if term.index ≥ witness.length then
        Except.error (.CircuitError msgWitnessOOB)
      else do
        let termValue ← term.coefficient.mul (witness.getD term.index feZero)
        result.add termValue) result

/-- An R1CS constraint a * b = c (src/circuit.rs). -/
structure R1CSConstraint where
  a : LinearCombination
  b : LinearCombination
  c : LinearCombination
deriving DecidableEq

/-- A constraint system (src/circuit.rs). -/
structure ConstraintSystem where
  constraints : List R1CSConstraint
  num_variables : Nat
deriving DecidableEq

/-- Replica of the derived Rust Debug formatting of a FieldElement, used in the
constraint violation message. -/
def reprFieldElement (fe : FieldElement) : String :=
  "FieldElement \x7b value: " ++ toString fe.value ++ ", modulus: " ++ toString fe.modulus
    ++ " \x7d"

/-- The message built by ConstraintSystem::evaluate for an unsatisfied constraint
at position i. -/
def constraintErrMsg (i : Nat) (aVal bVal cVal : FieldElement) : String :=
  "Constraint " ++ toString i ++ " not satisfied: " ++ reprFieldElement aVal ++ " x "
    ++ reprFieldElement bVal ++ " != " ++ reprFieldElement cVal

/-- Loop of ConstraintSystem::evaluate, carrying the enumeration index. -/
def evaluateConstraintsFrom (witness : List FieldElement) :
    List R1CSConstraint → Nat → Except ZKError Bool
  | [], _ => .ok true
  | constraint :: rest, i => do
    let aVal ← constraint.a.evaluate witness
    let bVal ← constraint.b.evaluate witness
    let cVal ← constraint.c.evaluate witness
    let product ← aVal.mul bVal
    if product ≠ cVal then
      Except.error (.CircuitError (constraintErrMsg i aVal bVal cVal))
    else evaluateConstraintsFrom witness rest (i + 1)

/-- ConstraintSystem::evaluate - checks a(w) * b(w) = c(w) for every constraint in
insertion order, failing fast at the first violation. -/
def ConstraintSystem.evaluate (cs : ConstraintSystem) (witness : List FieldElement) :
    Except ZKError Bool :=
  evaluateConstraintsFrom witness cs.constraints 0

/-- A constraint is satisfied on a witness: all three linear combinations
evaluate, the product a(w)*b(w) is computed, and it equals c(w). -/
def ConstraintHolds (witness : List FieldElement) (c : R1CSConstraint) : Prop :=
  ∃ av bv cv pv, c.a.evaluate witness = .ok av ∧ c.b.evaluate witness = .ok bv ∧
    c.c.evaluate witness = .ok cv ∧ av.mul bv = .ok pv ∧ pv = cv

/-- An interpolation point (src/qap.rs). -/
structure Point where
  x : FieldElement
  y : FieldElement
deriving DecidableEq

/-- Default point for modelled in-bounds indexing. -/
def ptZero : Point := ⟨feZero, feZero⟩

/-- The QAP of a constraint system (src/qap.rs). -/
structure QAP where
  a_polynomials : List Polynomial
  b_polynomials : List Polynomial
  c_polynomials : List Polynomial
  target_polynomial : Polynomial
deriving DecidableEq

/-- QAP::interpolate_points - Lagrange interpolation, iterating over point indices
exactly as the enumerated source loops do (the skip test compares indices, not
point values). -/
def QAP.interpolate_points (points : List Point) : Except ZKError Polynomial :=
  if points.isEmpty then .error (.PolynomialError msgNoPoints)
  else do
    let modulus := (points.headD ptZero).x.modulus
    let z ← FieldElement.new 0 modulus
    let result0 ← Polynomial.new [z]
    (List.range points.length).foldlM (fun result i => do
      let pointOuter := points.getD i ptZero
      let one ← FieldElement.new 1 modulus
      let numerator0 ← Polynomial.new [one]
      let denominator0 ← FieldElement.new 1 modulus
      let nd ← (List.range points.length).foldlM
        (fun (nd : Polynomial × FieldElement) j =>
          if i = j then pure nd
          else do
            let pointInner := points.getD j ptZero
            let c0 ← FieldElement.new ((modulus - pointInner.x.value % modulus) % modulus) modulus
            let c1 ← FieldElement.new 1 modulus
            let numeratorFactor ← Polynomial.new [c0, c1]
            let numerator2 ← nd.1.mul numeratorFactor
            let d ← pointOuter.x.sub pointInner.x
            let denominator2 ← nd.2.mul d
            pure (numerator2, denominator2)) (numerator0, denominator0)
      let denominatorInverse ← nd.2.inv
      let yc ← pointOuter.y.mul denominatorInverse
      let scalarPoly ← Polynomial.new [yc]
      let finalPolynomial ← nd.1.mul scalarPoly
      result.add finalPolynomial) result0

/-- Default constraint for modelled in-bounds indexing. -/
def defaultConstraint : R1CSConstraint := ⟨⟨[]⟩, ⟨[]⟩, ⟨[]⟩⟩

/-- The coefficient lookup performed inside the constraint loop of QAP::create:
the first term whose index equals i wins, and an absent variable defaults to
zero.  As in the source, the default new(0, modulus) is evaluated before the
lookup result is inspected. -/
def lookupCoefficient (lc : LinearCombination) (i : Nat) (modulus : Nat) :
    Except ZKError FieldElement := do
  let z ← FieldElement.new 0 modulus
  pure (((lc.terms.find? (fun term => term.index = i)).map
    (fun term => term.coefficient)).getD z)

/-- QAP::create - builds the target polynomial over the domain 1..m and the three
interpolated polynomial families. -/
def QAP.create (cs : ConstraintSystem) : Except ZKError QAP := do
  let numConstraints := cs.constraints.length
  if numConstraints = 0 then
    Except.error (.PolynomialError msgNoConstraints)
  else do
    let numVariables := cs.num_variables
    let firstTerm ← match (cs.constraints.headD defaultConstraint).a.terms.head? with
      | some t => pure t
      | none => Except.error (ZKError.PolynomialError msgNoTerms)
    let modulus := firstTerm.coefficient.modulus
    let evaluationPoints ← (List.range numConstraints).mapM
      (fun i => FieldElement.new (i + 1) modulus)
    let one ← FieldElement.new 1 modulus
    let target0 ← Polynomial.new [one]
    let targetPolynomial ← evaluationPoints.foldlM (fun target point => do
      let c0 ← FieldElement.new ((modulus - point.value % modulus) % modulus) modulus
      let c1 ← FieldElement.new 1 modulus
      let factor ← Polynomial.new [c0, c1]
      target.mul factor) target0
    let polys ← (List.range numVariables).mapM (fun i => do
      let points ← (List.range numConstraints).mapM (fun j => do
        let constraint := cs.constraints.getD j defaultConstraint
        let r := evaluationPoints.getD j feZero
        let aCoefficient ← lookupCoefficient constraint.a i modulus
        let bCoefficient ← lookupCoefficient constraint.b i modulus
        let cCoefficient ← lookupCoefficient constraint.c i modulus
        pure (Point.mk r aCoefficient, Point.mk r bCoefficient, Point.mk r cCoefficient))
      let aInterp ← QAP.interpolate_points (points.map (fun t => t.1))
      let bInterp ← QAP.interpolate_points (points.map (fun t => t.2.1))
      let cInterp ← QAP.interpolate_points (points.map (fun t => t.2.2))
      pure (aInterp, bInterp, cInterp))
    pure { a_polynomials := polys.map (fun t => t.1),
           b_polynomials := polys.map (fun t => t.2.1),
           c_polynomials := polys.map (fun t => t.2.2),
           target_polynomial := targetPolynomial }

/-- Monad for the witness-quotient path: an Option layer models Rust aborts
(out-of-bounds slice indexing), the Except layer carries the recoverable
ZKError results of the source.  A none result means the Rust code panics. -/
abbrev PanicM (α : Type) := ExceptT ZKError Option α

/-- Lift a recoverable library result into PanicM. -/
def liftZK {α : Type} (x : Except ZKError α) : PanicM α := ExceptT.mk (some x)

/-- Lift an indexing result into PanicM; a none argument is an out-of-bounds
access, which aborts in Rust. -/
def liftPanic {α : Type} : Option α → PanicM α
  | some a => ExceptT.mk (some (.ok a))
  | none => ExceptT.mk none

/-- The PanicM computation that returns a. -/
def pok {α : Type} (a : α) : PanicM α := ExceptT.mk (some (.ok a))

/-- The PanicM computation that fails with the recoverable error e. -/
def perr {α : Type} (e : ZKError) : PanicM α := ExceptT.mk (some (.error e))

/-- The aborting PanicM computation: models a Rust panic, such as an
out-of-bounds slice index. -/
def pnone {α : Type} : PanicM α := ExceptT.mk none

/-- QAP::aggregate_polynomials - weighted sum over the witness of the selected
polynomial family.  Mirrors the source exactly: the loop runs over the witness
length and indexes the polynomial family at each j, so a witness longer than the
family causes an out-of-bounds access (modelled as the none of PanicM), and an
empty witness aborts at witness[0]. -/
def QAP.aggregate_polynomials (qap : QAP) (witness : List FieldElement)
    (selector : QAP → Nat → Option Polynomial) : PanicM Polynomial := do
  let w0 ← liftPanic witness.head?
  let modulus := w0.modulus
  let z ← liftZK (FieldElement.new 0 modulus)
  let sum0 ← liftZK (Polynomial.new [z])
  (List.range witness.length).foldlM (fun sum j => do
    let polyJ ← liftPanic (selector qap j)
    let scaled ← liftZK (polyJ.scale (witness.getD j feZero))
    liftZK (sum.add scaled)) sum0

/-- QAP::calculate_witness_quotient - aggregates A, B, C, forms
p = A * B - C, divides by the target polynomial and demands a zero remainder.
The source walks the remainder coefficients and errors at the first non-zero
value; since the error does not depend on the position, the all-zero test used
here returns the identical result. -/
def QAP.calculate_witness_quotient (qap : QAP) (witness : List FieldElement) :
    PanicM Polynomial := do
  let aPolynomial ← qap.aggregate_polynomials witness (fun q j => q.a_polynomials.get? j)
  let bPolynomial ← qap.aggregate_polynomials witness (fun q j => q.b_polynomials.get? j)
  let cPolynomial ← qap.aggregate_polynomials witness (fun q j => q.c_polynomials.get? j)
  let ab ← liftZK (aPolynomial.mul bPolynomial)
  let pPolynomial ← liftZK (ab.sub cPolynomial)
  let qr ← liftZK (pPolynomial.div qap.target_polynomial)
  if qr.2.coefficients.all (fun coeff => coeff.value = 0) then
    pure qr.1
  else
    liftZK (Except.error (ZKError.PolynomialError msgNotDivisible))

/-- Stored coefficient value of a coefficient list at index k, 0 beyond the
list. -/
def listValueAt (l : List FieldElement) (k : Nat) : Nat :=
  ((l.get? k).map FieldElement.value).getD 0

/-- Stored coefficient value of p at index k, 0 beyond the list. -/
def valueAt (p : Polynomial) (k : Nat) : Nat := listValueAt p.coefficients k

/-- Coefficient of p at index k as an element of ZMod m. -/
def coeffZ (m : Nat) (p : Polynomial) (k : Nat) : ZMod m := (valueAt p k : ZMod m)

/-- Convolution coefficient at index k of a coefficient list against the
coefficients of q, over ZMod m. -/
def convSum (m : Nat) (ql : List FieldElement) (q : Polynomial) (k : Nat) : ZMod m :=
  ∑ i ∈ Finset.range (k + 1), (listValueAt ql i : ZMod m) * coeffZ m q (k - i)

/-- Convolution coefficient at index k of two polynomials over ZMod m: the
coefficient of the product polynomial. -/
def conv (m : Nat) (p q : Polynomial) (k : Nat) : ZMod m :=
  ∑ i ∈ Finset.range (k + 1), coeffZ m p i * coeffZ m q (k - i)

/-- Mathematical evaluation of a polynomial over ZMod m: the sum of coefficient
times power of the point.  Polynomial.evaluate computes exactly this value (see
pevaluate_ok below). -/
def evalSum (m : Nat) (p : Polynomial) (w : ZMod m) : ZMod m :=
  ∑ k ∈ Finset.range p.coefficients.length, coeffZ m p k * w ^ k

/-- Uniform-modulus predicate: the coefficient list is non-empty and every
coefficient carries modulus m. -/
def AllMod (m : Nat) (p : Polynomial) : Prop :=
  p.coefficients ≠ [] ∧ ∀ c ∈ p.coefficients, c.modulus = m

/-- Well-formedness of a polynomial over the working modulus m: non-empty, every
coefficient carries modulus m with a reduced value. -/
def Good (m : Nat) (p : Polynomial) : Prop :=
  p.coefficients ≠ [] ∧ ∀ c ∈ p.coefficients, c.modulus = m ∧ c.value < m

instance {m : Nat} {p : Polynomial} : Decidable (AllMod m p) := by
  unfold AllMod
  exact inferInstance

instance {m : Nat} {p : Polynomial} : Decidable (Good m p) := by
  unfold Good
  exact inferInstance

/-- A one-constraint, one-variable system over modulus 7: x * x = x with
witness value 1. -/
def csSmall : ConstraintSystem :=
  ⟨[⟨⟨[⟨0, ⟨1, 7⟩⟩]⟩, ⟨[⟨0, ⟨1, 7⟩⟩]⟩, ⟨[⟨0, ⟨1, 7⟩⟩]⟩⟩], 1⟩

/-- The QAP that QAP.create builds from csSmall: constant polynomials 1 for
each side and target x - 1 stored as [6, 1] over modulus 7. -/
def qapSmall : QAP :=
  ⟨[⟨[⟨1, 7⟩]⟩], [⟨[⟨1, 7⟩]⟩], [⟨[⟨1, 7⟩]⟩], ⟨[⟨6, 7⟩, ⟨1, 7⟩]⟩⟩

/-- A one-constraint, one-variable system over the degenerate modulus 1. -/
def csMod1 : ConstraintSystem :=
  ⟨[⟨⟨[⟨0, ⟨0, 1⟩⟩]⟩, ⟨[⟨0, ⟨0, 1⟩⟩]⟩, ⟨[⟨0, ⟨0, 1⟩⟩]⟩⟩], 1⟩

/-- The QAP that QAP.create builds from csMod1: over modulus 1 the target
polynomial collapses to [0, 0]. -/
def qapMod1 : QAP :=
  ⟨[⟨[⟨0, 1⟩]⟩], [⟨[⟨0, 1⟩]⟩], [⟨[⟨0, 1⟩]⟩], ⟨[⟨0, 1⟩, ⟨0, 1⟩]⟩⟩

/-- A two-constraint system over modulus 7 whose first constraint is satisfied
by witness [2] and whose second is violated by it. -/
def cs9 : ConstraintSystem :=
  ⟨[⟨⟨[⟨0, ⟨1, 7⟩⟩]⟩, ⟨[⟨0, ⟨1, 7⟩⟩]⟩, ⟨[⟨0, ⟨2, 7⟩⟩]⟩⟩,
    ⟨⟨[⟨0, ⟨1, 7⟩⟩]⟩, ⟨[⟨0, ⟨1, 7⟩⟩]⟩, ⟨[⟨0, ⟨1, 7⟩⟩]⟩⟩], 1⟩

theorem FieldElement.new_ok_iff {v m : Nat} {r : FieldElement} :
    FieldElement.new v m = .ok r ↔ m ≠ 0 ∧ r = ⟨v, m⟩ := by
  unfold FieldElement.new
  by_cases h : m = 0 <;> simp [h, eq_comm]

theorem FieldElement.add_ok_iff {a b r : FieldElement} :
    a.add b = .ok r ↔
      a.modulus = b.modulus ∧ a.modulus ≠ 0 ∧
        r = ⟨(a.value + b.value) % a.modulus, a.modulus⟩ := by
  unfold FieldElement.add
  by_cases h : a.modulus = b.modulus <;> simp [h, FieldElement.new_ok_iff]

theorem FieldElement.sub_ok_iff {a b r : FieldElement} :
    a.sub b = .ok r ↔
      a.modulus = b.modulus ∧ a.modulus ≠ 0 ∧
        r = ⟨(a.value + a.modulus - b.value) % a.modulus, a.modulus⟩ := by
  unfold FieldElement.sub
  by_cases h : a.modulus = b.modulus <;> simp [h, FieldElement.new_ok_iff]

theorem FieldElement.mul_ok_iff {a b r : FieldElement} :
    a.mul b = .ok r ↔
      a.modulus = b.modulus ∧ a.modulus ≠ 0 ∧
        r = ⟨(a.value * b.value) % a.modulus, a.modulus⟩ := by
  unfold FieldElement.mul
  by_cases h : a.modulus = b.modulus <;> simp [h, FieldElement.new_ok_iff]

theorem FieldElement.add_reduced {a b r : FieldElement} (h : a.add b = .ok r) :
    r.value < r.modulus := by
  rcases FieldElement.add_ok_iff.mp h with ⟨_, hm, rfl⟩
  exact Nat.mod_lt _ (Nat.pos_of_ne_zero hm)

theorem FieldElement.sub_reduced {a b r : FieldElement} (h : a.sub b = .ok r) :
    r.value < r.modulus := by
  rcases FieldElement.sub_ok_iff.mp h with ⟨_, hm, rfl⟩
  exact Nat.mod_lt _ (Nat.pos_of_ne_zero hm)

theorem FieldElement.mul_reduced {a b r : FieldElement} (h : a.mul b = .ok r) :
    r.value < r.modulus := by
  rcases FieldElement.mul_ok_iff.mp h with ⟨_, hm, rfl⟩
  exact Nat.mod_lt _ (Nat.pos_of_ne_zero hm)

theorem eegcdNGo_fuel : ∀ fuel fuel2 a b, a < fuel → a < fuel2 →
    eegcdNGo fuel a b = eegcdNGo fuel2 a b := by
  intro fuel
  induction fuel using Nat.strong_induction_on with
  | _ fuel ih =>
    intro fuel2 a b ha ha2
    match fuel, fuel2 with
    | f + 1, f2 + 1 =>
      simp only [eegcdNGo]
      by_cases h : a = 0
      · simp [h]
      · simp only [h, if_neg]
        have hlt : b % a < a := Nat.mod_lt _ (Nat.pos_of_ne_zero h)
        rw [ih f (Nat.lt_succ_self f) f2 (b % a) a
          (lt_of_lt_of_le hlt (Nat.lt_succ_iff.mp ha))
          (lt_of_lt_of_le hlt (Nat.lt_succ_iff.mp ha2))]

theorem eegcdN_zero (b : Nat) : eegcdN 0 b = ((b : Int), 0, 1) := rfl

theorem eegcdN_rec {a : Nat} (b : Nat) (h : a ≠ 0) :
    eegcdN a b =
      ((eegcdN (b % a) a).1,
       (eegcdN (b % a) a).2.2
         - ((b / a : Nat) : Int) * (eegcdN (b % a) a).2.1,
       (eegcdN (b % a) a).2.1) := by
  show eegcdNGo (a + 1) a b = _
  have hlt : b % a < a := Nat.mod_lt _ (Nat.pos_of_ne_zero h)
  simp only [eegcdNGo, h, if_neg, ite_false]
  rw [eegcdNGo_fuel a (b % a + 1) (b % a) a hlt (Nat.lt_succ_self _)]
  rfl

/-- The first component of the reference extended Euclid is the gcd, and the
other two components are Bezout coefficients for it. -/
theorem eegcdN_spec : ∀ a b : Nat,
    (eegcdN a b).1 = (Nat.gcd a b : Int) ∧
      (eegcdN a b).2.1 * a + (eegcdN a b).2.2 * b
        = (Nat.gcd a b : Int) := by
  intro a
  induction a using Nat.strong_induction_on with
  | _ a ih =>
    intro b
    by_cases h : a = 0
    · subst h
      simp [eegcdN_zero]
    · have hlt : b % a < a := Nat.mod_lt _ (Nat.pos_of_ne_zero h)
      obtain ⟨hg, hb⟩ := ih (b % a) hlt a
      rw [eegcdN_rec b h]
      have hgcd : Nat.gcd a b = Nat.gcd (b % a) a := Nat.gcd_rec a b ▸ rfl
      constructor
      · simpa [hgcd] using hg
      · have hmod : ((b % a : Nat) : Int) = (b : Int) - ((b / a : Nat) : Int) * (a : Int) := by
          have h0 : a * (b / a) + b % a = b := Nat.div_add_mod b a
          have h1 : ((a : Int)) * ((b / a : Nat) : Int) + ((b % a : Nat) : Int) = (b : Int) := by
            exact_mod_cast h0
          linarith
        rw [hgcd]
        rw [hmod] at hb
        ring_nf
        ring_nf at hb
        linarith

theorem tmod_ofNat (a b : Nat) :
    Int.tmod (a : Int) (b : Int) = ((a % b : Nat) : Int) := rfl

theorem tdiv_ofNat (a b : Nat) :
    Int.tdiv (a : Int) (b : Int) = ((a / b : Nat) : Int) := rfl

/-- On non-negative arguments the i64 extended Euclid agrees with the reference
extended Euclid on naturals, fuel for fuel. -/
theorem eegcdGo_ofNat : ∀ (fuel a b : Nat),
    FieldElement.eegcdGo fuel (a : Int) (b : Int) = eegcdNGo fuel a b := by
  intro fuel
  induction fuel with
  | zero => intro a b; rfl
  | succ fuel ih =>
    intro a b
    simp only [FieldElement.eegcdGo, eegcdNGo]
    by_cases h : a = 0
    · simp [h]
    · have hne : ((a : Nat) : Int) ≠ 0 := by exact_mod_cast h
      rw [if_neg hne, if_neg h, tmod_ofNat, tdiv_ofNat, ih (b % a) a]

theorem eegcd_ofNat (a b : Nat) :
    FieldElement.eegcd (a : Int) (b : Int) = eegcdN a b := by
  have hab : ((a : Int)).natAbs = a := Int.natAbs_ofNat a
  unfold FieldElement.eegcd eegcdN
  rw [hab]
  exact eegcdGo_ofNat (a + 1) a b

/-- Below 2^63 the i64 reinterpretation is the identity. -/
theorem toI64_small {v : Nat} (h : v < 2 ^ 63) : toI64 v = (v : Int) := by
  unfold toI64
  have h64 : v % 2 ^ 64 = v := Nat.mod_eq_of_lt (lt_of_lt_of_le h (by norm_num))
  rw [h64, if_pos h]

theorem tmod_lower (x : Int) {mi : Int} (hm : 0 < mi) : -mi < Int.tmod x mi := by
  cases x with
  | ofNat a =>
    have h0 : 0 ≤ Int.tmod (Int.ofNat a) mi := Int.tmod_nonneg mi (Int.ofNat_nonneg a)
    omega
  | negSucc a =>
    cases mi with
    | ofNat n =>
      have h0 : Int.ofNat n = (n : Int) := rfl
      rw [h0] at hm ⊢
      have hn : 0 < n := by exact_mod_cast hm
      have he : Int.tmod (Int.negSucc a) ((n : Nat) : Int)
          = -(((a + 1) % n : Nat) : Int) := rfl
      rw [he]
      have hlt : (a + 1) % n < n := Nat.mod_lt _ hn
      omega
    | negSucc n =>
      exact absurd hm (not_lt.mpr (le_of_lt (Int.negSucc_lt_zero n)))

/-- For a positive modulus the truncated-remainder chain ((x % m) + m) % m of
the source computes the canonical residue of x. -/
theorem tmod_chain_eq {x mi : Int} (hm : 0 < mi) :
    Int.tmod (Int.tmod x mi + mi) mi = x % mi := by
  have hl := tmod_lower x hm
  rw [Int.tmod_eq_emod (by omega) (le_of_lt hm)]
  have h2 : Int.tmod x mi % mi = x % mi := by
    rw [Int.tmod_def, Int.sub_eq_add_neg, ← Int.mul_neg, Int.add_mul_emod_self_left]
  calc (Int.tmod x mi + mi) % mi
      = (Int.tmod x mi + mi * 1) % mi := by rw [Int.mul_one]
    _ = Int.tmod x mi % mi := Int.add_mul_emod_self_left _ _ _
    _ = x % mi := h2

/-- When value and modulus are below 2^63 the i64 reinterpretations inside inv
are the identity and the truncated remainders compute canonical residues, so
inv reduces to the reference extended Euclid on naturals. -/
theorem FieldElement.inv_eq_of_small {a : FieldElement} (hv : a.value < 2 ^ 63)
    (hms : a.modulus < 2 ^ 63) :
    a.inv =
      if (eegcdN a.value a.modulus).1 ≠ 1 then
        .error (.InvalidFieldElement msgNoInverse)
      else
        FieldElement.new ((((eegcdN a.value a.modulus).2.1 % (a.modulus : Int))
          + (a.modulus : Int)) % (a.modulus : Int)).toNat a.modulus := by
  unfold FieldElement.inv
  simp only []
  rw [toI64_small hv, toI64_small hms, eegcd_ofNat]
  by_cases hg : (eegcdN a.value a.modulus).1 ≠ 1
  · rw [if_pos hg, if_pos hg]
  · rw [if_neg hg, if_neg hg]
    by_cases hm0 : a.modulus = 0
    · simp [FieldElement.new, hm0]
    · have hmpos : (0 : Int) < (a.modulus : Int) := by
        exact_mod_cast Nat.pos_of_ne_zero hm0
      set x := (eegcdN a.value a.modulus).2.1 with hx
      have hchain := tmod_chain_eq (x := x) hmpos
      have hemod : (x % (a.modulus : Int) + (a.modulus : Int)) % (a.modulus : Int)
          = x % (a.modulus : Int) := by
        calc (x % (a.modulus : Int) + (a.modulus : Int)) % (a.modulus : Int)
            = (x % (a.modulus : Int) + (a.modulus : Int) * 1) % (a.modulus : Int) := by
              rw [Int.mul_one]
          _ = x % (a.modulus : Int) % (a.modulus : Int) :=
              Int.add_mul_emod_self_left _ _ _
          _ = x % (a.modulus : Int) := Int.emod_emod_of_dvd x (dvd_refl _)
      rw [hchain, hemod]
      have hnn : 0 ≤ x % (a.modulus : Int) := Int.emod_nonneg x (by omega)
      have hup : x % (a.modulus : Int) < (2 ^ 64 : Int) := by
        have h1 : x % (a.modulus : Int) < (a.modulus : Int) :=
          Int.emod_lt_of_pos x hmpos
        have h2 : ((a.modulus : Nat) : Int) < (2 ^ 64 : Int) := by
          exact_mod_cast lt_of_lt_of_le hms (by norm_num)
        exact lt_trans h1 h2
      show FieldElement.new (toU64 (x % (a.modulus : Int))) a.modulus = _
      unfold toU64
      rw [Int.emod_eq_of_lt hnn hup]

theorem FieldElement.inv_err_of_gcd_ne {a : FieldElement} (hv : a.value < 2 ^ 63)
    (hms : a.modulus < 2 ^ 63) (hgcd : Nat.gcd a.value a.modulus ≠ 1) :
    a.inv = .error (.InvalidFieldElement msgNoInverse) := by
  rw [FieldElement.inv_eq_of_small hv hms]
  have hg := (eegcdN_spec a.value a.modulus).1
  have h : (eegcdN a.value a.modulus).1 ≠ 1 := by
    intro hc
    apply hgcd
    have h2 : ((Nat.gcd a.value a.modulus : Nat) : Int) = 1 := by rw [← hg, hc]
    exact_mod_cast h2
  simp [h]

/-- Unconditional facts about any successful inv: the modulus is non-zero and
is preserved onto the result. -/
theorem FieldElement.inv_ok_mod {a r : FieldElement} (h : a.inv = .ok r) :
    a.modulus ≠ 0 ∧ r.modulus = a.modulus := by
  unfold FieldElement.inv at h
  simp only [] at h
  by_cases hg : (FieldElement.eegcd (toI64 a.value) (toI64 a.modulus)).1 ≠ 1
  · rw [if_pos hg] at h
    exact absurd h (by simp)
  · rw [if_neg hg] at h
    obtain ⟨hm, hr⟩ := FieldElement.new_ok_iff.mp h
    exact ⟨hm, by rw [hr]⟩

/-- Success characterization of FieldElement::inv on i64-representable inputs
(value and modulus below 2^63): it succeeds exactly when the modulus is
non-zero and the value is coprime to it, and then the result is the canonical
representative of the Bezout coefficient, a genuine modular inverse. -/
theorem FieldElement.inv_ok {a r : FieldElement} (hv : a.value < 2 ^ 63)
    (hms : a.modulus < 2 ^ 63) (h : a.inv = .ok r) :
    a.modulus ≠ 0 ∧ Nat.gcd a.value a.modulus = 1 ∧
      r.modulus = a.modulus ∧ r.value < a.modulus ∧
      ((r.value * a.value : Nat) : ZMod a.modulus) = 1 := by
  rw [FieldElement.inv_eq_of_small hv hms] at h
  obtain ⟨hg, hbez⟩ := eegcdN_spec a.value a.modulus
  by_cases hone : (eegcdN a.value a.modulus).1 ≠ 1
  · simp [hone] at h
  · push_neg at hone
    simp only [hone, ne_eq, not_true_eq_false, if_false, ite_false] at h
    rcases FieldElement.new_ok_iff.mp h with ⟨hm, rfl⟩
    have hgcd : Nat.gcd a.value a.modulus = 1 := by
      have h2 : ((Nat.gcd a.value a.modulus : Nat) : Int) = 1 := by rw [← hg, hone]
      exact_mod_cast h2
    have hmpos : (0 : Int) < (a.modulus : Int) := by exact_mod_cast Nat.pos_of_ne_zero hm
    set x := (eegcdN a.value a.modulus).2.1 with hx
    set y := (eegcdN a.value a.modulus).2.2 with hy
    have hxpos : ((x % (a.modulus : Int)) + (a.modulus : Int)) % (a.modulus : Int)
        = x % (a.modulus : Int) := by
      have h1 : x % (a.modulus : Int) + (a.modulus : Int)
          = x % (a.modulus : Int) + (a.modulus : Int) * 1 := by ring
      rw [h1, Int.add_mul_emod_self_left, Int.emod_emod_of_dvd x (dvd_refl _)]
    refine ⟨hm, hgcd, rfl, ?_, ?_⟩
    · show (((x % (a.modulus : Int)) + (a.modulus : Int)) % (a.modulus : Int)).toNat < a.modulus
      rw [hxpos]
      have h1 : x % (a.modulus : Int) < (a.modulus : Int) := Int.emod_lt_of_pos x hmpos
      omega
    · show ((((((x % (a.modulus : Int)) + (a.modulus : Int)) % (a.modulus : Int)).toNat
          * a.value : Nat) : ZMod a.modulus)) = 1
      rw [hxpos]
      have hnn : 0 ≤ x % (a.modulus : Int) := Int.emod_nonneg x (by omega)
      have hcast : (((x % (a.modulus : Int)).toNat : Int)) = x % (a.modulus : Int) :=
        Int.toNat_of_nonneg hnn
      have hbez2 : x * (a.value : Int) + y * (a.modulus : Int) = 1 := by
        rw [hgcd] at hbez
        exact_mod_cast hbez
      have hmain : ((x * (a.value : Int) : Int) : ZMod a.modulus) = 1 := by
        have hcast2 : ((x * (a.value : Int) + y * (a.modulus : Int) : Int) : ZMod a.modulus)
            = ((1 : Int) : ZMod a.modulus) := by rw [hbez2]
        push_cast at hcast2
        rw [ZMod.natCast_self] at hcast2
        simpa using hcast2
      have hx2 : (((x % (a.modulus : Int)).toNat : ZMod a.modulus))
          = ((x : Int) : ZMod a.modulus) := by
        calc (((x % (a.modulus : Int)).toNat : ZMod a.modulus))
            = ((((x % (a.modulus : Int)).toNat : Int) : ZMod a.modulus)) := by push_cast; rfl
          _ = ((x % (a.modulus : Int) : Int) : ZMod a.modulus) := by rw [hcast]
          _ = ((x - (a.modulus : Int) * (x / (a.modulus : Int)) : Int) : ZMod a.modulus) := by
                rw [← Int.emod_def]
          _ = ((x : Int) : ZMod a.modulus) := by
                rw [Int.cast_sub, Int.cast_mul]
                have hz : (((a.modulus : Int) : ZMod a.modulus)) = 0 := by
                  push_cast
                  exact ZMod.natCast_self _
                rw [hz]
                ring
      push_cast
      push_cast at hx2
      rw [hx2]
      push_cast at hmain
      exact hmain

theorem exbind_ok {α β : Type} {x : Except ZKError α} {f : α → Except ZKError β} {r : β} :
    (x >>= f) = .ok r ↔ ∃ a, x = .ok a ∧ f a = .ok r := by
  cases x <;> simp [Bind.bind, Except.bind]

theorem expure_ok {α : Type} {a : α} {r : α} :
    (pure a : Except ZKError α) = .ok r ↔ a = r := by
  simp [pure, Except.pure]

theorem mapM_ok {α β : Type} {f : α → Except ZKError β} :
    ∀ {l : List α} {res : List β}, l.mapM f = .ok res →
      List.Forall₂ (fun a b => f a = .ok b) l res := by
  intro l
  induction l with
  | nil =>
    intro res h
    rw [List.mapM_nil] at h
    rw [expure_ok] at h
    subst h
    exact List.Forall₂.nil
  | cons a rest ih =>
    intro res h
    rw [List.mapM_cons] at h
    rw [exbind_ok] at h
    obtain ⟨b, hb, h⟩ := h
    rw [exbind_ok] at h
    obtain ⟨bs, hbs, h⟩ := h
    rw [expure_ok] at h
    subst h
    exact List.Forall₂.cons hb (ih hbs)

theorem mapM_ok_exists {α β : Type} {f : α → Except ZKError β} :
    ∀ {l : List α}, (∀ a ∈ l, ∃ b, f a = .ok b) → ∃ res, l.mapM f = .ok res := by
  intro l
  induction l with
  | nil => intro _; exact ⟨[], by rw [List.mapM_nil]; rfl⟩
  | cons a rest ih =>
    intro h
    obtain ⟨b, hb⟩ := h a (List.mem_cons_self a rest)
    obtain ⟨bs, hbs⟩ := ih (fun x hx => h x (List.mem_cons_of_mem a hx))
    exact ⟨b :: bs, by rw [List.mapM_cons, exbind_ok]; exact ⟨b, hb, by
      rw [exbind_ok]; exact ⟨bs, hbs, rfl⟩⟩⟩

theorem listValueAt_eq_getD (l : List FieldElement) (k : Nat) :
    listValueAt l k = (l.getD k feZero).value := by
  unfold listValueAt
  rw [List.getD_eq_get?]
  cases l.get? k <;> rfl

theorem valueAt_eq_getD (p : Polynomial) (k : Nat) :
    valueAt p k = (p.coefficients.getD k feZero).value :=
  listValueAt_eq_getD p.coefficients k

theorem listValueAt_eq_zero_of_le {l : List FieldElement} {k : Nat}
    (h : l.length ≤ k) : listValueAt l k = 0 := by
  unfold listValueAt
  rw [List.get?_eq_none.mpr h]
  rfl

theorem valueAt_eq_zero_of_le {p : Polynomial} {k : Nat}
    (h : p.coefficients.length ≤ k) : valueAt p k = 0 :=
  listValueAt_eq_zero_of_le h

theorem degreeGo_le (cs : List FieldElement) : ∀ d, degreeGo cs d ≤ d := by
  intro d
  induction d with
  | zero => simp [degreeGo]
  | succ d ih =>
    unfold degreeGo
    by_cases h : (cs.getD (d + 1) feZero).value = 0
    · rw [if_pos h]
      omega
    · rw [if_neg h]

theorem degreeGo_zero_above (cs : List FieldElement) :
    ∀ d k, degreeGo cs d < k → k ≤ d → (cs.getD k feZero).value = 0 := by
  intro d
  induction d with
  | zero =>
    intro k h1 h2
    simp [degreeGo] at h1
    omega
  | succ d ih =>
    intro k h1 h2
    unfold degreeGo at h1
    by_cases h : (cs.getD (d + 1) feZero).value = 0
    · simp only [h, if_true, ite_true] at h1
      by_cases hk : k = d + 1
      · rw [hk]; exact h
      · exact ih k h1 (by omega)
    · simp only [h, if_false, ite_false] at h1
      omega

theorem degreeGo_val_ne (cs : List FieldElement) :
    ∀ d, degreeGo cs d ≠ 0 → (cs.getD (degreeGo cs d) feZero).value ≠ 0 := by
  intro d
  induction d with
  | zero => intro h; simp [degreeGo] at h
  | succ d ih =>
    intro h1
    unfold degreeGo at h1 ⊢
    by_cases h : (cs.getD (d + 1) feZero).value = 0
    · rw [if_pos h] at h1 ⊢
      exact ih h1
    · rw [if_neg h] at h1 ⊢
      exact h

theorem degree_zero_above {p : Polynomial} {k : Nat} (h : p.degree < k) :
    valueAt p k = 0 := by
  rw [valueAt_eq_getD]
  by_cases hk : k < p.coefficients.length
  · exact degreeGo_zero_above p.coefficients (p.coefficients.length - 1) k h (by omega)
  · rw [List.getD_eq_get?, List.get?_eq_none.mpr (by omega)]
    rfl

theorem degree_val_ne {p : Polynomial} (h : p.degree ≠ 0) :
    valueAt p p.degree ≠ 0 := by
  rw [valueAt_eq_getD]
  exact degreeGo_val_ne p.coefficients (p.coefficients.length - 1) h

theorem degree_val_ne_of_exists {p : Polynomial} (h : ∃ k, valueAt p k ≠ 0) :
    valueAt p p.degree ≠ 0 := by
  obtain ⟨k, hk⟩ := h
  by_cases hd : p.degree = 0
  · have hk0 : k = 0 := by
      by_contra hne
      exact hk (degree_zero_above (by omega))
    rw [hd]
    rw [hk0] at hk
    exact hk
  · exact degree_val_ne hd

theorem degree_lt_length {p : Polynomial} (h : p.coefficients ≠ []) :
    p.degree < p.coefficients.length := by
  have h1 : p.degree ≤ p.coefficients.length - 1 := degreeGo_le _ _
  have h2 : 0 < p.coefficients.length := List.length_pos.mpr h
  omega

theorem degree_lt_of_zero_above {p : Polynomial} {d : Nat}
    (h : ∀ k, d ≤ k → valueAt p k = 0) (hnz : ∃ k, valueAt p k ≠ 0) :
    p.degree < d := by
  by_contra hge
  exact degree_val_ne_of_exists hnz (h p.degree (by omega))

theorem castSub {a b m : Nat} (hb : b < m) :
    (((a + m - b) % m : Nat) : ZMod m) = (a : ZMod m) - (b : ZMod m) := by
  rw [ZMod.natCast_mod]
  have hle : b ≤ a + m := by omega
  rw [Nat.cast_sub hle]
  push_cast
  rw [ZMod.natCast_self]
  ring

theorem val_eq_of_cast_eq {m v w : Nat} (hv : v < m) (hw : w < m)
    (h : (v : ZMod m) = (w : ZMod m)) : v = w := by
  haveI : NeZero m := ⟨by omega⟩
  have h1 : (v : ZMod m).val = (w : ZMod m).val := by rw [h]
  rwa [ZMod.val_cast_of_lt hv, ZMod.val_cast_of_lt hw] at h1

theorem val_eq_zero_of_cast_eq_zero {m v : Nat} (hv : v < m)
    (h : (v : ZMod m) = 0) : v = 0 := by
  haveI : NeZero m := ⟨by omega⟩
  have h0 : ((0 : Nat) : ZMod m) = 0 := by push_cast; rfl
  exact val_eq_of_cast_eq hv (by omega) (by rw [h, h0])

theorem FieldElement.inv_ok_of_gcd {a : FieldElement} (hv : a.value < 2 ^ 63)
    (hms : a.modulus < 2 ^ 63) (hm : a.modulus ≠ 0)
    (hg : Nat.gcd a.value a.modulus = 1) : ∃ r, a.inv = .ok r := by
  cases h : a.inv with
  | ok r => exact ⟨r, rfl⟩
  | error e =>
    rw [FieldElement.inv_eq_of_small hv hms] at h
    obtain ⟨hg1, _⟩ := eegcdN_spec a.value a.modulus
    have hone : (eegcdN a.value a.modulus).1 = 1 := by
      rw [hg1, hg]
      rfl
    simp only [hone, ne_eq, not_true_eq_false, if_false, ite_false] at h
    rw [FieldElement.new] at h
    simp [hm] at h

theorem forall₂_get? {α β : Type} {R : α → β → Prop} :
    ∀ {l₁ : List α} {l₂ : List β}, List.Forall₂ R l₁ l₂ →
      ∀ i a, l₁.get? i = some a → ∃ b, l₂.get? i = some b ∧ R a b := by
  intro l₁ l₂ h
  induction h with
  | nil => intro i a ha; simp at ha
  | @cons a b l₁ l₂ hab _ ih =>
    intro i x hx
    match i with
    | 0 =>
      simp at hx
      subst hx
      exact ⟨b, rfl, hab⟩
    | i + 1 => exact ih i x hx

theorem mapM_range_ok {β : Type} {f : Nat → Except ZKError β} {n : Nat} {res : List β}
    (h : (List.range n).mapM f = .ok res) :
    res.length = n ∧ ∀ i, i < n → ∃ b, f i = .ok b ∧ res.get? i = some b := by
  have h2 := mapM_ok h
  constructor
  · have := List.Forall₂.length_eq h2
    simpa using this.symm
  · intro i hi
    obtain ⟨b, hb, hfb⟩ := forall₂_get? h2 i i (List.get?_range hi)
    exact ⟨b, hfb, hb⟩

theorem pnew_ok_iff {l : List FieldElement} {c : Polynomial} :
    Polynomial.new l = .ok c ↔
      l ≠ [] ∧ (∀ x ∈ l, x.modulus = (l.headD feZero).modulus) ∧ c = ⟨l⟩ := by
  unfold Polynomial.new
  constructor
  · intro h
    by_cases he : l.isEmpty
    · rw [if_pos he] at h
      exact absurd h (by simp)
    · rw [if_neg he] at h
      by_cases hall : l.all (fun coeff => coeff.modulus = (l.headD feZero).modulus)
      · rw [if_pos hall] at h
        have hc : Polynomial.mk l = c := by injection h
        refine ⟨fun hc2 => he (by rw [hc2]; rfl),
          fun x hx => of_decide_eq_true (List.all_eq_true.mp hall x hx), hc.symm⟩
      · rw [if_neg hall] at h
        exact absurd h (by simp)
  · rintro ⟨hne, ha, rfl⟩
    have he : ¬ l.isEmpty = true := by
      intro hc
      exact hne (List.isEmpty_iff.mp hc)
    have hall : l.all (fun coeff => coeff.modulus = (l.headD feZero).modulus) = true :=
      List.all_eq_true.mpr (fun x hx => decide_eq_true (ha x hx))
    rw [if_neg he, if_pos hall]

theorem getD_value_eq_valueAt (p : Polynomial) (k : Nat) {z : FieldElement}
    (hz : z.value = 0) : ((p.coefficients.get? k).getD z).value = valueAt p k := by
  unfold valueAt listValueAt
  cases hpk : p.coefficients.get? k <;> simp [hpk, hz]

theorem getD_head_modulus {p : Polynomial} {m : Nat}
    (hm : (p.coefficients.headD feZero).modulus = m) {z : FieldElement}
    (hz : z.modulus = m) : ((p.coefficients.get? 0).getD z).modulus = m := by
  cases hl : p.coefficients with
  | nil => simp [hz]
  | cons x xs =>
    rw [hl] at hm
    simpa using hm

theorem padd_spec {p q c : Polynomial} {m : Nat}
    (hm : (p.coefficients.headD feZero).modulus = m)
    (h : p.add q = .ok c) :
    (q.coefficients.headD feZero).modulus = m ∧ m ≠ 0 ∧
      c.coefficients.length = max p.coefficients.length q.coefficients.length ∧
      (∀ x ∈ c.coefficients, x.modulus = m ∧ x.value < m) ∧
      (∀ k, valueAt c k = (valueAt p k + valueAt q k) % m) := by
  unfold Polynomial.add at h
  rw [hm] at h
  by_cases hq : (q.coefficients.headD feZero).modulus = m
  case neg =>
    rw [if_pos (fun hc => hq hc.symm)] at h
    exact absurd h (by simp)
  case pos =>
    rw [hq, if_neg (fun hc => hc rfl)] at h
    rw [show (do
      let sum ← (List.range (max p.coefficients.length q.coefficients.length)).mapM (fun i => do
        let z ← FieldElement.new 0 m
        let a := (p.coefficients.get? i).getD z
        let b := (q.coefficients.get? i).getD z
        a.add b)
      Polynomial.new sum : Except ZKError Polynomial) = _ from rfl] at h
    rw [exbind_ok] at h
    obtain ⟨sum, hsum, hnew⟩ := h
    obtain ⟨hsne, hsuni, hc⟩ := pnew_ok_iff.mp hnew
    obtain ⟨hslen, hsget⟩ := mapM_range_ok hsum
    have hmax : 0 < max p.coefficients.length q.coefficients.length := by
      rcases Nat.eq_zero_or_pos (max p.coefficients.length q.coefficients.length) with h0 | h0
      · rw [h0] at hslen
        exact absurd (List.length_eq_zero.mp hslen) hsne
      · exact h0
    obtain ⟨s0, hs0, hs0get⟩ := hsget 0 hmax
    rw [exbind_ok] at hs0
    obtain ⟨z, hz, hs0⟩ := hs0
    obtain ⟨hm0, hzval⟩ := FieldElement.new_ok_iff.mp hz
    subst hzval
    have hs0mod : s0.modulus = m := by
      obtain ⟨hmod, _, hs0v⟩ := FieldElement.add_ok_iff.mp hs0
      rw [hs0v]
      exact getD_head_modulus hm rfl
    have hheadm : (sum.headD feZero).modulus = m := by
      cases hsl : sum with
      | nil => exact absurd hsl hsne
      | cons x xs =>
        rw [hsl] at hs0get
        simp at hs0get
        subst hs0get
        simpa using hs0mod
    have huni : ∀ x ∈ sum, x.modulus = m := by
      intro x hx
      rw [← hheadm]
      exact hsuni x hx
    have hent : ∀ i, i < max p.coefficients.length q.coefficients.length →
        ∃ s, sum.get? i = some s ∧ s.modulus = m ∧
          s.value = (valueAt p i + valueAt q i) % m := by
      intro i hi
      obtain ⟨s, hstep, hsget2⟩ := hsget i hi
      rw [exbind_ok] at hstep
      obtain ⟨z2, hz2, hstep⟩ := hstep
      obtain ⟨_, hz2val⟩ := FieldElement.new_ok_iff.mp hz2
      subst hz2val
      have hsmod : s.modulus = m := huni s (List.get?_mem hsget2)
      obtain ⟨hmodeq, hane, hsval⟩ := FieldElement.add_ok_iff.mp hstep
      have hamod : ((p.coefficients.get? i).getD ⟨0, m⟩).modulus = m := by
        rw [hsval] at hsmod
        exact hsmod
      refine ⟨s, hsget2, hsmod, ?_⟩
      rw [hsval]
      simp only
      rw [getD_value_eq_valueAt p i rfl, getD_value_eq_valueAt q i rfl, hamod]
    subst hc
    refine ⟨hq, hm0, hslen, ?_, ?_⟩
    · intro x hx
      refine ⟨huni x hx, ?_⟩
      obtain ⟨i, hi⟩ := List.get_of_mem hx
      have hilt : i.1 < max p.coefficients.length q.coefficients.length := by
        rw [← hslen]; exact i.2
      obtain ⟨s, hsget2, _, hsval⟩ := hent i.1 hilt
      rw [List.get?_eq_get i.2] at hsget2
      rw [hi] at hsget2
      have hxs : x = s := by
        injection hsget2
      rw [hxs, hsval]
      exact Nat.mod_lt _ (Nat.pos_of_ne_zero hm0)
    · intro k
      by_cases hk : k < max p.coefficients.length q.coefficients.length
      · obtain ⟨s, hsget2, _, hsval⟩ := hent k hk
        show listValueAt sum k = _
        unfold listValueAt
        rw [hsget2]
        exact hsval
      · have h1 : valueAt ⟨sum⟩ k = 0 := valueAt_eq_zero_of_le (by rw [hslen]; omega)
        have h2 : valueAt p k = 0 := valueAt_eq_zero_of_le (by omega)
        have h3 : valueAt q k = 0 := valueAt_eq_zero_of_le (by omega)
        rw [h1, h2, h3]
        simp

theorem AllMod.headEq {p : Polynomial} {m : Nat} (h : AllMod m p) :
    (p.coefficients.headD feZero).modulus = m := by
  obtain ⟨hne, hmods⟩ := h
  cases hl : p.coefficients with
  | nil => exact absurd hl hne
  | cons x xs =>
    have := hmods x (by rw [hl]; exact List.mem_cons_self x xs)
    simpa using this

theorem Good.allMod {p : Polynomial} {m : Nat} (h : Good m p) : AllMod m p :=
  ⟨h.1, fun c hc => (h.2 c hc).1⟩

theorem getD_modulus_of_mods {p : Polynomial} {m : Nat}
    (hmods : ∀ c ∈ p.coefficients, c.modulus = m) (k : Nat) {z : FieldElement}
    (hz : z.modulus = m) : ((p.coefficients.get? k).getD z).modulus = m := by
  cases hk : p.coefficients.get? k with
  | none => simpa using hz
  | some c =>
    have := hmods c (List.get?_mem hk)
    simpa using this

theorem psub_spec {p q c : Polynomial} {m : Nat}
    (hm : (p.coefficients.headD feZero).modulus = m)
    (h : p.sub q = .ok c) :
    (q.coefficients.headD feZero).modulus = m ∧ m ≠ 0 ∧
      c.coefficients.length = max p.coefficients.length q.coefficients.length ∧
      (∀ x ∈ c.coefficients, x.modulus = m ∧ x.value < m) ∧
      (∀ k, valueAt c k = (valueAt p k + m - valueAt q k) % m) := by
  unfold Polynomial.sub at h
  rw [hm] at h
  by_cases hq : (q.coefficients.headD feZero).modulus = m
  case neg =>
    rw [if_pos (fun hc => hq hc.symm)] at h
    exact absurd h (by simp)
  case pos =>
    rw [hq, if_neg (fun hc => hc rfl)] at h
    rw [show (do
      let diff ← (List.range (max p.coefficients.length q.coefficients.length)).mapM (fun i => do
        let z ← FieldElement.new 0 m
        let a := (p.coefficients.get? i).getD z
        let b := (q.coefficients.get? i).getD z
        a.sub b)
      Polynomial.new diff : Except ZKError Polynomial) = _ from rfl] at h
    rw [exbind_ok] at h
    obtain ⟨diff, hdiff, hnew⟩ := h
    obtain ⟨hsne, hsuni, hc⟩ := pnew_ok_iff.mp hnew
    obtain ⟨hslen, hsget⟩ := mapM_range_ok hdiff
    have hmax : 0 < max p.coefficients.length q.coefficients.length := by
      rcases Nat.eq_zero_or_pos (max p.coefficients.length q.coefficients.length) with h0 | h0
      · rw [h0] at hslen
        exact absurd (List.length_eq_zero.mp hslen) hsne
      · exact h0
    obtain ⟨s0, hs0, hs0get⟩ := hsget 0 hmax
    rw [exbind_ok] at hs0
    obtain ⟨z, hz, hs0⟩ := hs0
    obtain ⟨hm0, hzval⟩ := FieldElement.new_ok_iff.mp hz
    subst hzval
    have hs0mod : s0.modulus = m := by
      obtain ⟨hmod, _, hs0v⟩ := FieldElement.sub_ok_iff.mp hs0
      rw [hs0v]
      exact getD_head_modulus hm rfl
    have hheadm : (diff.headD feZero).modulus = m := by
      cases hsl : diff with
      | nil => exact absurd hsl hsne
      | cons x xs =>
        rw [hsl] at hs0get
        simp at hs0get
        subst hs0get
        simpa using hs0mod
    have huni : ∀ x ∈ diff, x.modulus = m := by
      intro x hx
      rw [← hheadm]
      exact hsuni x hx
    have hent : ∀ i, i < max p.coefficients.length q.coefficients.length →
        ∃ s, diff.get? i = some s ∧ s.modulus = m ∧
          s.value = (valueAt p i + m - valueAt q i) % m := by
      intro i hi
      obtain ⟨s, hstep, hsget2⟩ := hsget i hi
      rw [exbind_ok] at hstep
      obtain ⟨z2, hz2, hstep⟩ := hstep
      obtain ⟨_, hz2val⟩ := FieldElement.new_ok_iff.mp hz2
      subst hz2val
      have hsmod : s.modulus = m := huni s (List.get?_mem hsget2)
      obtain ⟨hmodeq, hane, hsval⟩ := FieldElement.sub_ok_iff.mp hstep
      have hamod : ((p.coefficients.get? i).getD ⟨0, m⟩).modulus = m := by
        rw [hsval] at hsmod
        exact hsmod
      refine ⟨s, hsget2, hsmod, ?_⟩
      rw [hsval]
      simp only
      rw [getD_value_eq_valueAt p i rfl, getD_value_eq_valueAt q i rfl, hamod]
    subst hc
    refine ⟨hq, hm0, hslen, ?_, ?_⟩
    · intro x hx
      refine ⟨huni x hx, ?_⟩
      obtain ⟨i, hi⟩ := List.get_of_mem hx
      have hilt : i.1 < max p.coefficients.length q.coefficients.length := by
        rw [← hslen]; exact i.2
      obtain ⟨s, hsget2, _, hsval⟩ := hent i.1 hilt
      rw [List.get?_eq_get i.2] at hsget2
      rw [hi] at hsget2
      have hxs : x = s := by
        injection hsget2
      rw [hxs, hsval]
      exact Nat.mod_lt _ (Nat.pos_of_ne_zero hm0)
    · intro k
      by_cases hk : k < max p.coefficients.length q.coefficients.length
      · obtain ⟨s, hsget2, _, hsval⟩ := hent k hk
        show listValueAt diff k = _
        unfold listValueAt
        rw [hsget2]
        exact hsval
      · have h1 : valueAt ⟨diff⟩ k = 0 := valueAt_eq_zero_of_le (by rw [hslen]; omega)
        have h2 : valueAt p k = 0 := valueAt_eq_zero_of_le (by omega)
        have h3 : valueAt q k = 0 := valueAt_eq_zero_of_le (by omega)
        rw [h1, h2, h3]
        simp

theorem padd_ok {p q : Polynomial} {m : Nat} (hp : AllMod m p) (hq : AllMod m q)
    (hm : m ≠ 0) : ∃ c, p.add q = .ok c := by
  have hph := hp.headEq
  have hqh := hq.headEq
  unfold Polynomial.add
  rw [hph, hqh, if_neg (fun hc => hc rfl)]
  have hex : ∀ i ∈ List.range (max p.coefficients.length q.coefficients.length),
      ∃ s, (do
        let z ← FieldElement.new 0 m
        let a := (p.coefficients.get? i).getD z
        let b := (q.coefficients.get? i).getD z
        a.add b : Except ZKError FieldElement) = .ok s := by
    intro i _
    have hz : FieldElement.new 0 m = .ok ⟨0, m⟩ := by
      rw [FieldElement.new_ok_iff]
      exact ⟨hm, rfl⟩
    have ha : ((p.coefficients.get? i).getD (⟨0, m⟩ : FieldElement)).modulus = m :=
      getD_modulus_of_mods hp.2 i rfl
    have hb : ((q.coefficients.get? i).getD (⟨0, m⟩ : FieldElement)).modulus = m :=
      getD_modulus_of_mods hq.2 i rfl
    obtain ⟨s, hs⟩ : ∃ s, ((p.coefficients.get? i).getD (⟨0, m⟩ : FieldElement)).add
        ((q.coefficients.get? i).getD (⟨0, m⟩ : FieldElement)) = .ok s :=
      ⟨_, FieldElement.add_ok_iff.mpr ⟨by rw [ha, hb], by rw [ha]; exact hm, rfl⟩⟩
    refine ⟨s, ?_⟩
    rw [exbind_ok]
    exact ⟨⟨0, m⟩, hz, hs⟩
  obtain ⟨sum, hsum⟩ := mapM_ok_exists hex
  obtain ⟨hslen, hsget⟩ := mapM_range_ok hsum
  have hmaxpos : 0 < max p.coefficients.length q.coefficients.length := by
    have : p.coefficients.length ≠ 0 := fun hc => hp.1 (List.length_eq_zero.mp hc)
    omega
  have hmods : ∀ x ∈ sum, x.modulus = m := by
    intro x hx
    obtain ⟨i, hi⟩ := List.get_of_mem hx
    have hilt : i.1 < max p.coefficients.length q.coefficients.length := by
      rw [← hslen]; exact i.2
    obtain ⟨s, hstep, hsget2⟩ := hsget i.1 hilt
    rw [List.get?_eq_get i.2, hi] at hsget2
    have hxs : x = s := by injection hsget2
    rw [exbind_ok] at hstep
    obtain ⟨z2, hz2, hstep⟩ := hstep
    obtain ⟨_, hz2v⟩ := FieldElement.new_ok_iff.mp hz2
    subst hz2v
    obtain ⟨_, _, hsv⟩ := FieldElement.add_ok_iff.mp hstep
    rw [hxs, hsv]
    simp only
    exact getD_modulus_of_mods hp.2 i.1 rfl
  have hsne : sum ≠ [] := by
    intro hc
    rw [hc] at hslen
    simp at hslen
    omega
  refine ⟨⟨sum⟩, ?_⟩
  rw [show (do
    let sum ← (List.range (max p.coefficients.length q.coefficients.length)).mapM (fun i => do
      let z ← FieldElement.new 0 m
      let a := (p.coefficients.get? i).getD z
      let b := (q.coefficients.get? i).getD z
      a.add b)
    Polynomial.new sum : Except ZKError Polynomial) = _ from rfl]
  rw [exbind_ok]
  refine ⟨sum, hsum, ?_⟩
  rw [pnew_ok_iff]
  refine ⟨hsne, ?_, rfl⟩
  intro x hx
  rw [hmods x hx]
  cases hsl : sum with
  | nil => exact absurd hsl hsne
  | cons y ys =>
    have := hmods y (by rw [hsl]; exact List.mem_cons_self y ys)
    simpa using this.symm

theorem psub_ok {p q : Polynomial} {m : Nat} (hp : AllMod m p) (hq : AllMod m q)
    (hm : m ≠ 0) : ∃ c, p.sub q = .ok c := by
  have hph := hp.headEq
  have hqh := hq.headEq
  unfold Polynomial.sub
  rw [hph, hqh, if_neg (fun hc => hc rfl)]
  have hex : ∀ i ∈ List.range (max p.coefficients.length q.coefficients.length),
      ∃ s, (do
        let z ← FieldElement.new 0 m
        let a := (p.coefficients.get? i).getD z
        let b := (q.coefficients.get? i).getD z
        a.sub b : Except ZKError FieldElement) = .ok s := by
    intro i _
    have hz : FieldElement.new 0 m = .ok ⟨0, m⟩ := by
      rw [FieldElement.new_ok_iff]
      exact ⟨hm, rfl⟩
    have ha : ((p.coefficients.get? i).getD (⟨0, m⟩ : FieldElement)).modulus = m :=
      getD_modulus_of_mods hp.2 i rfl
    have hb : ((q.coefficients.get? i).getD (⟨0, m⟩ : FieldElement)).modulus = m :=
      getD_modulus_of_mods hq.2 i rfl
    obtain ⟨s, hs⟩ : ∃ s, ((p.coefficients.get? i).getD (⟨0, m⟩ : FieldElement)).sub
        ((q.coefficients.get? i).getD (⟨0, m⟩ : FieldElement)) = .ok s :=
      ⟨_, FieldElement.sub_ok_iff.mpr ⟨by rw [ha, hb], by rw [ha]; exact hm, rfl⟩⟩
    refine ⟨s, ?_⟩
    rw [exbind_ok]
    exact ⟨⟨0, m⟩, hz, hs⟩
  obtain ⟨diff, hdiff⟩ := mapM_ok_exists hex
  obtain ⟨hslen, hsget⟩ := mapM_range_ok hdiff
  have hmods : ∀ x ∈ diff, x.modulus = m := by
    intro x hx
    obtain ⟨i, hi⟩ := List.get_of_mem hx
    have hilt : i.1 < max p.coefficients.length q.coefficients.length := by
      rw [← hslen]; exact i.2
    obtain ⟨s, hstep, hsget2⟩ := hsget i.1 hilt
    rw [List.get?_eq_get i.2, hi] at hsget2
    have hxs : x = s := by injection hsget2
    rw [exbind_ok] at hstep
    obtain ⟨z2, hz2, hstep⟩ := hstep
    obtain ⟨_, hz2v⟩ := FieldElement.new_ok_iff.mp hz2
    subst hz2v
    obtain ⟨_, _, hsv⟩ := FieldElement.sub_ok_iff.mp hstep
    rw [hxs, hsv]
    simp only
    exact getD_modulus_of_mods hp.2 i.1 rfl
  have hsne : diff ≠ [] := by
    intro hc
    rw [hc] at hslen
    simp at hslen
    have : p.coefficients.length ≠ 0 := fun hc2 => hp.1 (List.length_eq_zero.mp hc2)
    omega
  refine ⟨⟨diff⟩, ?_⟩
  rw [show (do
    let diff ← (List.range (max p.coefficients.length q.coefficients.length)).mapM (fun i => do
      let z ← FieldElement.new 0 m
      let a := (p.coefficients.get? i).getD z
      let b := (q.coefficients.get? i).getD z
      a.sub b)
    Polynomial.new diff : Except ZKError Polynomial) = _ from rfl]
  rw [exbind_ok]
  refine ⟨diff, hdiff, ?_⟩
  rw [pnew_ok_iff]
  refine ⟨hsne, ?_, rfl⟩
  intro x hx
  rw [hmods x hx]
  cases hsl : diff with
  | nil => exact absurd hsl hsne
  | cons y ys =>
    have := hmods y (by rw [hsl]; exact List.mem_cons_self y ys)
    simpa using this.symm

theorem listValueAt_replicate {z : FieldElement} (hz : z.value = 0) (n k : Nat) :
    listValueAt (List.replicate n z) k = 0 := by
  unfold listValueAt
  cases h : (List.replicate n z).get? k with
  | none => rfl
  | some x =>
    have : x = z := by
      have := List.get?_mem h
      exact (List.eq_of_mem_replicate this)
    rw [this]
    simpa using hz

theorem mulInner_spec {pp qq : Polynomial} {m : Nat} {i : Nat} :
    ∀ (js : List Nat) (acc acc' : List FieldElement),
      (js.foldlM (fun product j => do
          let prod ← (pp.coefficients.getD i feZero).mul (qq.coefficients.getD j feZero)
          let s ← (product.getD (i + j) feZero).add prod
          pure (product.set (i + j) s)) acc = .ok acc') →
      (∀ x ∈ acc, x.modulus = m ∧ x.value < m) →
      (∀ j ∈ js, i + j < acc.length) →
      acc'.length = acc.length ∧ (∀ x ∈ acc', x.modulus = m ∧ x.value < m) ∧
      (∀ k, (listValueAt acc' k : ZMod m) = (listValueAt acc k : ZMod m) +
        (js.map (fun j => if i + j = k then
          (valueAt pp i : ZMod m) * (valueAt qq j : ZMod m) else 0)).sum) := by
  intro js
  induction js with
  | nil =>
    intro acc acc' h hwf _
    rw [List.foldlM_nil, expure_ok] at h
    subst h
    exact ⟨rfl, hwf, fun k => by simp⟩
  | cons j js ih =>
    intro acc acc' h hwf hbound
    rw [List.foldlM_cons] at h
    rw [exbind_ok] at h
    obtain ⟨acc1, hstep, hrest⟩ := h
    rw [exbind_ok] at hstep
    obtain ⟨prod, hprod, hstep⟩ := hstep
    rw [exbind_ok] at hstep
    obtain ⟨s, hs, hstep⟩ := hstep
    rw [expure_ok] at hstep
    subst hstep
    have hij : i + j < acc.length := hbound j (List.mem_cons_self j js)
    obtain ⟨e, he⟩ : ∃ e, acc.get? (i + j) = some e :=
      ⟨acc.get ⟨i + j, hij⟩, List.get?_eq_get hij⟩
    have hemem : e ∈ acc := List.get?_mem he
    obtain ⟨hemod, heval⟩ := hwf e hemem
    have hegetD : acc.getD (i + j) feZero = e := by
      rw [List.getD_eq_get?, he]
      rfl
    obtain ⟨hmodeq, hmne, hprodval⟩ := FieldElement.mul_ok_iff.mp hprod
    obtain ⟨haddmod, _, hsval⟩ := FieldElement.add_ok_iff.mp hs
    rw [hegetD] at hsval haddmod
    have hpi : (pp.coefficients.getD i feZero).modulus = m := by
      rw [hprodval] at haddmod
      simp only at haddmod
      rw [hemod] at haddmod
      exact haddmod.symm
    rw [hpi] at hprodval hmne
    rw [hemod] at hsval
    have hswf : s.modulus = m ∧ s.value < m := by
      rw [hsval]
      exact ⟨rfl, Nat.mod_lt _ (Nat.pos_of_ne_zero hmne)⟩
    have hwf1 : ∀ x ∈ acc.set (i + j) s, x.modulus = m ∧ x.value < m := by
      intro x hx
      rcases List.mem_or_eq_of_mem_set hx with hx2 | hx2
      · exact hwf x hx2
      · rw [hx2]; exact hswf
    have hb1 : ∀ j2 ∈ js, i + j2 < (acc.set (i + j) s).length := by
      intro j2 hj2
      rw [List.length_set]
      exact hbound j2 (List.mem_cons_of_mem j hj2)
    obtain ⟨hlen, hwf2, hval⟩ := ih (acc.set (i + j) s) acc' hrest hwf1 hb1
    rw [List.length_set] at hlen
    refine ⟨hlen, hwf2, ?_⟩
    intro k
    rw [hval k]
    have hsv2 : s.value = (e.value + (pp.coefficients.getD i feZero).value
        * (qq.coefficients.getD j feZero).value % m) % m := by
      rw [hsval, hprodval]
    have hstepval : (listValueAt (acc.set (i + j) s) k : ZMod m)
        = (listValueAt acc k : ZMod m) +
          (if i + j = k then (valueAt pp i : ZMod m) * (valueAt qq j : ZMod m) else 0) := by
      by_cases hk : i + j = k
      · rw [if_pos hk, ← hk]
        have hget : (acc.set (i + j) s).get? (i + j) = some s := by
          rw [List.get?_set_eq, he]
          rfl
        unfold listValueAt
        rw [hget, he]
        show (s.value : ZMod m) = (e.value : ZMod m) +
          (valueAt pp i : ZMod m) * (valueAt qq j : ZMod m)
        rw [hsv2, ZMod.natCast_mod]
        push_cast [ZMod.natCast_mod]
        rw [valueAt_eq_getD pp i, valueAt_eq_getD qq j]
      · rw [if_neg hk]
        unfold listValueAt
        rw [List.get?_set_ne s acc hk]
        rw [add_zero]
    rw [hstepval]
    simp only [List.map_cons, List.sum_cons]
    ring

theorem sum_range_indicator {R : Type} [AddCommMonoid R] (c : Nat → R) :
    ∀ (L k i : Nat), ((List.range L).map (fun j => if i + j = k then c j else 0)).sum
      = if i ≤ k ∧ k - i < L then c (k - i) else 0 := by
  intro L
  induction L with
  | zero => intro k i; simp
  | succ L ih =>
    intro k i
    rw [List.range_succ, List.map_append, List.sum_append]
    simp only [List.map_cons, List.map_nil, List.sum_cons, List.sum_nil, add_zero]
    rw [ih]
    by_cases h1 : i + L = k
    · have hki : k - i = L := by omega
      have h2 : ¬(i ≤ k ∧ k - i < L) := by omega
      have h3 : i ≤ k ∧ k - i < L + 1 := by omega
      rw [if_neg h2, if_pos h1, if_pos h3, hki, zero_add]
    · rw [if_neg h1, add_zero]
      by_cases h2 : i ≤ k ∧ k - i < L
      · rw [if_pos h2, if_pos (show i ≤ k ∧ k - i < L + 1 by omega)]
      · rw [if_neg h2, if_neg (show ¬(i ≤ k ∧ k - i < L + 1) by omega)]

theorem mulOuter_spec {pp qq : Polynomial} {m : Nat} :
    ∀ (is : List Nat) (acc acc' : List FieldElement),
      (is.foldlM (fun product i =>
        (List.range qq.coefficients.length).foldlM (fun product j => do
          let prod ← (pp.coefficients.getD i feZero).mul (qq.coefficients.getD j feZero)
          let s ← (product.getD (i + j) feZero).add prod
          pure (product.set (i + j) s)) product) acc = .ok acc') →
      (∀ x ∈ acc, x.modulus = m ∧ x.value < m) →
      (∀ i ∈ is, ∀ j, j < qq.coefficients.length → i + j < acc.length) →
      acc'.length = acc.length ∧ (∀ x ∈ acc', x.modulus = m ∧ x.value < m) ∧
      (∀ k, (listValueAt acc' k : ZMod m) = (listValueAt acc k : ZMod m) +
        (is.map (fun i => if i ≤ k ∧ k - i < qq.coefficients.length then
          (valueAt pp i : ZMod m) * (valueAt qq (k - i) : ZMod m) else 0)).sum) := by
  intro is
  induction is with
  | nil =>
    intro acc acc' h hwf _
    rw [List.foldlM_nil, expure_ok] at h
    subst h
    exact ⟨rfl, hwf, fun k => by simp⟩
  | cons i is ih =>
    intro acc acc' h hwf hbound
    rw [List.foldlM_cons] at h
    rw [exbind_ok] at h
    obtain ⟨acc1, hstep, hrest⟩ := h
    obtain ⟨hlen1, hwf1, hval1⟩ := mulInner_spec (List.range qq.coefficients.length)
      acc acc1 hstep hwf
      (fun j hj => hbound i (List.mem_cons_self i is) j (List.mem_range.mp hj))
    obtain ⟨hlen2, hwf2, hval2⟩ := ih acc1 acc' hrest hwf1
      (fun i2 hi2 j hj => hlen1 ▸ hbound i2 (List.mem_cons_of_mem i hi2) j hj)
    refine ⟨hlen2.trans hlen1, hwf2, ?_⟩
    intro k
    rw [hval2 k, hval1 k]
    rw [sum_range_indicator]
    simp only [List.map_cons, List.sum_cons]
    ring

theorem pmul_spec {p q c : Polynomial} {m : Nat}
    (hm : (p.coefficients.headD feZero).modulus = m)
    (h : p.mul q = .ok c) :
    (q.coefficients.headD feZero).modulus = m ∧ m ≠ 0 ∧
      c.coefficients.length = p.coefficients.length + q.coefficients.length - 1 ∧
      (∀ x ∈ c.coefficients, x.modulus = m ∧ x.value < m) ∧
      (∀ k, coeffZ m c k = conv m p q k) := by
  unfold Polynomial.mul at h
  rw [hm] at h
  by_cases hq : (q.coefficients.headD feZero).modulus = m
  case neg =>
    rw [if_pos (fun hc => hq hc.symm)] at h
    exact absurd h (by simp)
  case pos =>
    rw [hq, if_neg (fun hc => hc rfl)] at h
    rw [show (do
      let z ← FieldElement.new 0 m
      let init := List.replicate (p.coefficients.length + q.coefficients.length - 1) z
      let product ← (List.range p.coefficients.length).foldlM (fun product i =>
        (List.range q.coefficients.length).foldlM (fun product j => do
          let prod ← (p.coefficients.getD i feZero).mul (q.coefficients.getD j feZero)
          let s ← (product.getD (i + j) feZero).add prod
          pure (product.set (i + j) s)) product) init
      Polynomial.new product : Except ZKError Polynomial) = _ from rfl] at h
    rw [exbind_ok] at h
    obtain ⟨z, hz, h⟩ := h
    obtain ⟨hm0, hzv⟩ := FieldElement.new_ok_iff.mp hz
    subst hzv
    rw [exbind_ok] at h
    obtain ⟨product, hfold, hnew⟩ := h
    have hpne : p.coefficients ≠ [] := by
      intro hc
      rw [hc] at hm
      exact hm0 (by simpa using hm.symm)
    have hqne : q.coefficients ≠ [] := by
      intro hc
      rw [hc] at hq
      exact hm0 (by simpa using hq.symm)
    have hnpos : 0 < p.coefficients.length := List.length_pos.mpr hpne
    have hqpos : 0 < q.coefficients.length := List.length_pos.mpr hqne
    have hinitwf : ∀ x ∈ List.replicate (p.coefficients.length + q.coefficients.length - 1)
        (⟨0, m⟩ : FieldElement), x.modulus = m ∧ x.value < m := by
      intro x hx
      rw [List.eq_of_mem_replicate hx]
      exact ⟨rfl, Nat.pos_of_ne_zero hm0⟩
    have hboundf : ∀ i ∈ List.range p.coefficients.length, ∀ j,
        j < q.coefficients.length →
        i + j < (List.replicate (p.coefficients.length + q.coefficients.length - 1)
          (⟨0, m⟩ : FieldElement)).length := by
      intro i hi j hj
      rw [List.length_replicate]
      have := List.mem_range.mp hi
      omega
    obtain ⟨hplen, hpwf, hpval⟩ := mulOuter_spec (List.range p.coefficients.length)
      (List.replicate (p.coefficients.length + q.coefficients.length - 1) ⟨0, m⟩)
      product hfold hinitwf hboundf
    rw [List.length_replicate] at hplen
    obtain ⟨hprodne, _, hcstruct⟩ := pnew_ok_iff.mp hnew
    subst hcstruct
    refine ⟨hq, hm0, hplen, hpwf, ?_⟩
    intro k
    show (listValueAt product k : ZMod m) = conv m p q k
    rw [hpval k, listValueAt_replicate rfl]
    push_cast
    rw [zero_add]
    have hbridge : ((List.range p.coefficients.length).map
        (fun i => if i ≤ k ∧ k - i < q.coefficients.length then
          (valueAt p i : ZMod m) * (valueAt q (k - i) : ZMod m) else 0)).sum
        = ∑ i ∈ Finset.range p.coefficients.length,
          (if i ≤ k ∧ k - i < q.coefficients.length then
            (valueAt p i : ZMod m) * (valueAt q (k - i) : ZMod m) else 0) := rfl
    rw [hbridge]
    unfold conv coeffZ
    have hzero_p : ∀ i, p.coefficients.length ≤ i → (valueAt p i : ZMod m) = 0 := by
      intro i hi
      rw [valueAt_eq_zero_of_le hi]
      push_cast
      rfl
    have hzero_q : ∀ i, q.coefficients.length ≤ i → (valueAt q i : ZMod m) = 0 := by
      intro i hi
      rw [valueAt_eq_zero_of_le hi]
      push_cast
      rfl
    set N := max p.coefficients.length (k + 1) with hN
    have hA1 : ∑ i ∈ Finset.range p.coefficients.length,
        (if i ≤ k ∧ k - i < q.coefficients.length then
          (valueAt p i : ZMod m) * (valueAt q (k - i) : ZMod m) else 0)
        = ∑ i ∈ Finset.range p.coefficients.length,
          (if i ≤ k then (valueAt p i : ZMod m) * (valueAt q (k - i) : ZMod m) else 0) := by
      apply Finset.sum_congr rfl
      intro i _
      by_cases h1 : i ≤ k
      · by_cases h2 : k - i < q.coefficients.length
        · rw [if_pos ⟨h1, h2⟩, if_pos h1]
        · rw [if_neg (fun hc => h2 hc.2), if_pos h1]
          rw [hzero_q (k - i) (by omega)]
          simp
      · rw [if_neg (fun hc => h1 hc.1), if_neg h1]
    have hA2 : ∑ i ∈ Finset.range p.coefficients.length,
        (if i ≤ k then (valueAt p i : ZMod m) * (valueAt q (k - i) : ZMod m) else 0)
        = ∑ i ∈ Finset.range N,
          (if i ≤ k then (valueAt p i : ZMod m) * (valueAt q (k - i) : ZMod m) else 0) := by
      apply Finset.sum_subset
      · apply Finset.range_subset.mpr
        omega
      · intro i _ hni
        rw [Finset.mem_range, not_lt] at hni
        rw [hzero_p i hni]
        simp only [zero_mul, ite_self]
    have hB1 : ∑ i ∈ Finset.range (k + 1),
        (valueAt p i : ZMod m) * (valueAt q (k - i) : ZMod m)
        = ∑ i ∈ Finset.range (k + 1),
          (if i ≤ k then (valueAt p i : ZMod m) * (valueAt q (k - i) : ZMod m) else 0) := by
      apply Finset.sum_congr rfl
      intro i hi
      rw [Finset.mem_range] at hi
      rw [if_pos (by omega)]
    have hB2 : ∑ i ∈ Finset.range (k + 1),
        (if i ≤ k then (valueAt p i : ZMod m) * (valueAt q (k - i) : ZMod m) else 0)
        = ∑ i ∈ Finset.range N,
          (if i ≤ k then (valueAt p i : ZMod m) * (valueAt q (k - i) : ZMod m) else 0) := by
      apply Finset.sum_subset
      · apply Finset.range_subset.mpr
        omega
      · intro i _ hni
        rw [Finset.mem_range, not_lt] at hni
        rw [if_neg (by omega)]
    rw [hA1, hA2, hB1, hB2]

theorem getD_modulus_of_lt {p : Polynomial} {m : Nat}
    (hmods : ∀ c ∈ p.coefficients, c.modulus = m) {k : Nat}
    (hk : k < p.coefficients.length) :
    (p.coefficients.getD k feZero).modulus = m := by
  rw [List.getD_eq_get?, List.get?_eq_get hk]
  exact hmods _ (List.get_mem _ _ _)

theorem mulInner_ok {pp qq : Polynomial} {m i : Nat}
    (hpi : (pp.coefficients.getD i feZero).modulus = m)
    (hqmods : ∀ x ∈ qq.coefficients, x.modulus = m) (hm : m ≠ 0) :
    ∀ (js : List Nat) (acc : List FieldElement),
      (∀ x ∈ acc, x.modulus = m ∧ x.value < m) →
      (∀ j ∈ js, i + j < acc.length) →
      (∀ j ∈ js, j < qq.coefficients.length) →
      ∃ acc', js.foldlM (fun product j => do
          let prod ← (pp.coefficients.getD i feZero).mul (qq.coefficients.getD j feZero)
          let s ← (product.getD (i + j) feZero).add prod
          pure (product.set (i + j) s)) acc = .ok acc' := by
  intro js
  induction js with
  | nil =>
    intro acc _ _ _
    exact ⟨acc, by rw [List.foldlM_nil]; rfl⟩
  | cons j js ih =>
    intro acc hwf hbound hjlt
    have hij : i + j < acc.length := hbound j (List.mem_cons_self j js)
    obtain ⟨e, he⟩ : ∃ e, acc.get? (i + j) = some e :=
      ⟨acc.get ⟨i + j, hij⟩, List.get?_eq_get hij⟩
    obtain ⟨hemod, _⟩ := hwf e (List.get?_mem he)
    have hegetD : acc.getD (i + j) feZero = e := by
      rw [List.getD_eq_get?, he]
      rfl
    have hqj : (qq.coefficients.getD j feZero).modulus = m :=
      getD_modulus_of_lt hqmods (hjlt j (List.mem_cons_self j js))
    obtain ⟨prod, hprod⟩ : ∃ prod, (pp.coefficients.getD i feZero).mul
        (qq.coefficients.getD j feZero) = .ok prod :=
      ⟨_, FieldElement.mul_ok_iff.mpr ⟨by rw [hpi, hqj], by rw [hpi]; exact hm, rfl⟩⟩
    have hprodmod : prod.modulus = m := by
      obtain ⟨_, _, hv⟩ := FieldElement.mul_ok_iff.mp hprod
      rw [hv]
      exact hpi
    obtain ⟨s, hs⟩ : ∃ s, (acc.getD (i + j) feZero).add prod = .ok s := by
      rw [hegetD]
      exact ⟨_, FieldElement.add_ok_iff.mpr ⟨by rw [hemod, hprodmod], by
        rw [hemod]; exact hm, rfl⟩⟩
    have hswf : s.modulus = m ∧ s.value < m := by
      obtain ⟨_, _, hv⟩ := FieldElement.add_ok_iff.mp hs
      rw [hegetD] at hv
      constructor
      · rw [hv]; exact hemod
      · rw [hv]
        simp only
        rw [hemod]
        exact Nat.mod_lt _ (Nat.pos_of_ne_zero hm)
    have hwf1 : ∀ x ∈ acc.set (i + j) s, x.modulus = m ∧ x.value < m := by
      intro x hx
      rcases List.mem_or_eq_of_mem_set hx with hx2 | hx2
      · exact hwf x hx2
      · rw [hx2]; exact hswf
    obtain ⟨acc', hacc'⟩ := ih (acc.set (i + j) s) hwf1
      (fun j2 hj2 => by
        rw [List.length_set]
        exact hbound j2 (List.mem_cons_of_mem j hj2))
      (fun j2 hj2 => hjlt j2 (List.mem_cons_of_mem j hj2))
    refine ⟨acc', ?_⟩
    rw [List.foldlM_cons, exbind_ok]
    refine ⟨acc.set (i + j) s, ?_, hacc'⟩
    rw [exbind_ok]
    refine ⟨prod, hprod, ?_⟩
    rw [exbind_ok]
    exact ⟨s, hs, by rw [expure_ok]⟩

theorem mulOuter_ok {pp qq : Polynomial} {m : Nat}
    (hpmods : ∀ x ∈ pp.coefficients, x.modulus = m)
    (hqmods : ∀ x ∈ qq.coefficients, x.modulus = m) (hm : m ≠ 0) :
    ∀ (is : List Nat) (acc : List FieldElement),
      (∀ x ∈ acc, x.modulus = m ∧ x.value < m) →
      (∀ i ∈ is, i < pp.coefficients.length) →
      (∀ i ∈ is, ∀ j, j < qq.coefficients.length → i + j < acc.length) →
      ∃ acc', is.foldlM (fun product i =>
        (List.range qq.coefficients.length).foldlM (fun product j => do
          let prod ← (pp.coefficients.getD i feZero).mul (qq.coefficients.getD j feZero)
          let s ← (product.getD (i + j) feZero).add prod
          pure (product.set (i + j) s)) product) acc = .ok acc' := by
  intro is
  induction is with
  | nil =>
    intro acc _ _ _
    exact ⟨acc, by rw [List.foldlM_nil]; rfl⟩
  | cons i is ih =>
    intro acc hwf hilt hbound
    have hpi : (pp.coefficients.getD i feZero).modulus = m :=
      getD_modulus_of_lt hpmods (hilt i (List.mem_cons_self i is))
    obtain ⟨acc1, hacc1⟩ := mulInner_ok hpi hqmods hm (List.range qq.coefficients.length) acc
      hwf (fun j hj => hbound i (List.mem_cons_self i is) j (List.mem_range.mp hj))
      (fun j hj => List.mem_range.mp hj)
    obtain ⟨hlen1, hwf1, _⟩ := mulInner_spec (List.range qq.coefficients.length) acc acc1 hacc1
      hwf (fun j hj => hbound i (List.mem_cons_self i is) j (List.mem_range.mp hj))
    obtain ⟨acc', hacc'⟩ := ih acc1 hwf1 (fun i2 hi2 => hilt i2 (List.mem_cons_of_mem i hi2))
      (fun i2 hi2 j hj => hlen1 ▸ hbound i2 (List.mem_cons_of_mem i hi2) j hj)
    refine ⟨acc', ?_⟩
    rw [List.foldlM_cons, exbind_ok]
    exact ⟨acc1, hacc1, hacc'⟩

theorem pmul_ok {p q : Polynomial} {m : Nat} (hp : AllMod m p) (hq : AllMod m q)
    (hm : m ≠ 0) : ∃ c, p.mul q = .ok c := by
  have hph := hp.headEq
  have hqh := hq.headEq
  unfold Polynomial.mul
  rw [hph, hqh, if_neg (fun hc => hc rfl)]
  have hnpos : 0 < p.coefficients.length := List.length_pos.mpr hp.1
  have hqpos : 0 < q.coefficients.length := List.length_pos.mpr hq.1
  have hinitwf : ∀ x ∈ List.replicate (p.coefficients.length + q.coefficients.length - 1)
      (⟨0, m⟩ : FieldElement), x.modulus = m ∧ x.value < m := by
    intro x hx
    rw [List.eq_of_mem_replicate hx]
    exact ⟨rfl, Nat.pos_of_ne_zero hm⟩
  obtain ⟨product, hfold⟩ := mulOuter_ok hp.2 hq.2 hm (List.range p.coefficients.length)
    (List.replicate (p.coefficients.length + q.coefficients.length - 1) ⟨0, m⟩)
    hinitwf (fun i hi => List.mem_range.mp hi)
    (fun i hi j hj => by
      rw [List.length_replicate]
      have := List.mem_range.mp hi
      omega)
  obtain ⟨hplen, hpwf, _⟩ := mulOuter_spec (List.range p.coefficients.length)
    (List.replicate (p.coefficients.length + q.coefficients.length - 1) ⟨0, m⟩)
    product hfold hinitwf
    (fun i hi j hj => by
      rw [List.length_replicate]
      have := List.mem_range.mp hi
      omega)
  rw [List.length_replicate] at hplen
  have hpne : product ≠ [] := by
    intro hc
    rw [hc] at hplen
    simp at hplen
    omega
  refine ⟨⟨product⟩, ?_⟩
  rw [show (do
    let z ← FieldElement.new 0 m
    let init := List.replicate (p.coefficients.length + q.coefficients.length - 1) z
    let product ← (List.range p.coefficients.length).foldlM (fun product i =>
      (List.range q.coefficients.length).foldlM (fun product j => do
        let prod ← (p.coefficients.getD i feZero).mul (q.coefficients.getD j feZero)
        let s ← (product.getD (i + j) feZero).add prod
        pure (product.set (i + j) s)) product) init
    Polynomial.new product : Except ZKError Polynomial) = _ from rfl]
  rw [exbind_ok]
  refine ⟨⟨0, m⟩, FieldElement.new_ok_iff.mpr ⟨hm, rfl⟩, ?_⟩
  rw [exbind_ok]
  refine ⟨product, hfold, ?_⟩
  rw [pnew_ok_iff]
  refine ⟨hpne, ?_, rfl⟩
  intro x hx
  rw [(hpwf x hx).1]
  cases hsl : product with
  | nil => exact absurd hsl hpne
  | cons y ys =>
    have := (hpwf y (by rw [hsl]; exact List.mem_cons_self y ys)).1
    simpa using this.symm

theorem pscale_ok {p : Polynomial} {s : FieldElement} {m : Nat}
    (hp : AllMod m p) (hs : s.modulus = m) (hm : m ≠ 0) :
    ∃ c, p.scale s = .ok c ∧ c.coefficients.length = p.coefficients.length ∧
      (∀ x ∈ c.coefficients, x.modulus = m ∧ x.value < m) ∧
      ∀ k, (valueAt c k : ZMod m) = (valueAt p k : ZMod m) * (s.value : ZMod m) := by
  have hex : ∀ a ∈ p.coefficients, ∃ b, a.mul s = .ok b := by
    intro a ha
    exact ⟨_, FieldElement.mul_ok_iff.mpr ⟨by rw [hp.2 a ha, hs], by
      rw [hp.2 a ha]; exact hm, rfl⟩⟩
  obtain ⟨scaled, hscaled⟩ := mapM_ok_exists hex
  have hfa := mapM_ok hscaled
  have hlen : scaled.length = p.coefficients.length := (List.Forall₂.length_eq hfa).symm
  have hentry : ∀ k a, p.coefficients.get? k = some a →
      ∃ b, scaled.get? k = some b ∧ b = (⟨(a.value * s.value) % m, m⟩ : FieldElement) := by
    intro k a ha
    obtain ⟨b, hb, hab⟩ := forall₂_get? hfa k a ha
    obtain ⟨_, _, hv⟩ := FieldElement.mul_ok_iff.mp hab
    refine ⟨b, hb, ?_⟩
    rw [hv, hp.2 a (List.get?_mem ha)]
  have hmods : ∀ x ∈ scaled, x.modulus = m ∧ x.value < m := by
    intro x hx
    obtain ⟨i, hi⟩ := List.get_of_mem hx
    have hilt : i.1 < p.coefficients.length := by rw [← hlen]; exact i.2
    obtain ⟨a, ha⟩ : ∃ a, p.coefficients.get? i.1 = some a :=
      ⟨p.coefficients.get ⟨i.1, hilt⟩, List.get?_eq_get hilt⟩
    obtain ⟨b, hb, hbv⟩ := hentry i.1 a ha
    rw [List.get?_eq_get i.2, hi] at hb
    have hxb : x = b := by injection hb
    rw [hxb, hbv]
    exact ⟨rfl, Nat.mod_lt _ (Nat.pos_of_ne_zero hm)⟩
  have hsne : scaled ≠ [] := by
    intro hc
    rw [hc] at hlen
    exact hp.1 (List.length_eq_zero.mp hlen.symm)
  refine ⟨⟨scaled⟩, ?_, hlen, hmods, ?_⟩
  · unfold Polynomial.scale
    rw [show (do
      let scaled ← p.coefficients.mapM (fun c => c.mul s)
      Polynomial.new scaled : Except ZKError Polynomial) = _ from rfl]
    rw [exbind_ok]
    refine ⟨scaled, hscaled, ?_⟩
    rw [pnew_ok_iff]
    refine ⟨hsne, ?_, rfl⟩
    intro x hx
    rw [(hmods x hx).1]
    cases hsl : scaled with
    | nil => exact absurd hsl hsne
    | cons y ys =>
      have := (hmods y (by rw [hsl]; exact List.mem_cons_self y ys)).1
      simpa using this.symm
  · intro k
    by_cases hk : k < p.coefficients.length
    · obtain ⟨a, ha⟩ : ∃ a, p.coefficients.get? k = some a :=
        ⟨p.coefficients.get ⟨k, hk⟩, List.get?_eq_get hk⟩
      obtain ⟨b, hb, hbv⟩ := hentry k a ha
      show (listValueAt scaled k : ZMod m) = (listValueAt p.coefficients k : ZMod m) * _
      unfold listValueAt
      rw [hb, ha, hbv]
      show (((a.value * s.value) % m : Nat) : ZMod m) = (a.value : ZMod m) * (s.value : ZMod m)
      rw [ZMod.natCast_mod]
      push_cast
      ring
    · have hlen2 : (Polynomial.mk scaled).coefficients.length = p.coefficients.length := hlen
      have h1 : valueAt ⟨scaled⟩ k = 0 := valueAt_eq_zero_of_le (by rw [hlen2]; omega)
      have h2 : valueAt p k = 0 := valueAt_eq_zero_of_le (by omega)
      show (valueAt ⟨scaled⟩ k : ZMod m) = (valueAt p k : ZMod m) * _
      rw [h1, h2]
      push_cast
      ring

theorem hornerGo_ok {x : FieldElement} {m : Nat} (hx : x.modulus = m) (hm : m ≠ 0) :
    ∀ (l : List FieldElement), (∀ c ∈ l, c.modulus = m) →
      ∀ (acc : FieldElement), acc.modulus = m →
      ∃ r, l.foldlM (fun result coeff => do
          let r1 ← result.mul x
          r1.add coeff) acc = .ok r ∧ r.modulus = m ∧
        (l = [] → r = acc) ∧ (l ≠ [] → r.value < m) ∧
        (r.value : ZMod m) = (acc.value : ZMod m) * (x.value : ZMod m) ^ l.length +
          ∑ k ∈ Finset.range l.length,
            (listValueAt l k : ZMod m) * (x.value : ZMod m) ^ (l.length - 1 - k) := by
  intro l
  induction l with
  | nil =>
    intro _ acc hacc
    refine ⟨acc, by rw [List.foldlM_nil]; rfl, hacc, fun _ => rfl, fun hc => absurd rfl hc, ?_⟩
    simp
  | cons c rest ih =>
    intro hmods acc hacc
    obtain ⟨r1, hr1⟩ : ∃ r1, acc.mul x = .ok r1 :=
      ⟨_, FieldElement.mul_ok_iff.mpr ⟨by rw [hacc, hx], by rw [hacc]; exact hm, rfl⟩⟩
    obtain ⟨_, _, hr1v⟩ := FieldElement.mul_ok_iff.mp hr1
    have hr1mod : r1.modulus = m := by rw [hr1v]; exact hacc
    obtain ⟨acc2, hacc2⟩ : ∃ acc2, r1.add c = .ok acc2 :=
      ⟨_, FieldElement.add_ok_iff.mpr ⟨by
        rw [hr1mod, hmods c (List.mem_cons_self c rest)], by
        rw [hr1mod]; exact hm, rfl⟩⟩
    obtain ⟨_, _, hacc2v⟩ := FieldElement.add_ok_iff.mp hacc2
    have hacc2mod : acc2.modulus = m := by rw [hacc2v]; exact hr1mod
    have hacc2red : acc2.value < m := by
      rw [hacc2v]
      simp only
      rw [hr1mod]
      exact Nat.mod_lt _ (Nat.pos_of_ne_zero hm)
    have hacc2z : (acc2.value : ZMod m) = (acc.value : ZMod m) * (x.value : ZMod m)
        + (c.value : ZMod m) := by
      rw [hacc2v]
      simp only
      rw [hr1mod, ZMod.natCast_mod]
      push_cast
      rw [hr1v]
      simp only
      rw [hacc, ZMod.natCast_mod]
      push_cast
      ring
    obtain ⟨r, hfold, hrmod, hrnil, _, hrz⟩ :=
      ih (fun c2 hc2 => hmods c2 (List.mem_cons_of_mem c hc2)) acc2 hacc2mod
    refine ⟨r, ?_, hrmod, fun hc => absurd hc (by simp), fun _ => ?_, ?_⟩
    · rw [List.foldlM_cons, exbind_ok]
      refine ⟨acc2, ?_, hfold⟩
      rw [exbind_ok]
      exact ⟨r1, hr1, hacc2⟩
    · by_cases hrest : rest = []
      · rw [hrnil hrest]
        exact hacc2red
      · exact ‹rest ≠ [] → r.value < m› hrest
    · rw [hrz, hacc2z]
      have hL : (c :: rest).length = rest.length + 1 := rfl
      rw [hL]
      rw [Finset.sum_range_succ']
      have hterm0 : (listValueAt (c :: rest) 0 : ZMod m)
          * (x.value : ZMod m) ^ (rest.length + 1 - 1 - 0) =
          (c.value : ZMod m) * (x.value : ZMod m) ^ rest.length := by
        show ((c.value : ZMod m)) * _ = _
        congr 1
      have htermk : ∀ k ∈ Finset.range rest.length,
          (listValueAt (c :: rest) (k + 1) : ZMod m)
            * (x.value : ZMod m) ^ (rest.length + 1 - 1 - (k + 1)) =
          (listValueAt rest k : ZMod m) * (x.value : ZMod m) ^ (rest.length - 1 - k) := by
        intro k _
        have h1 : listValueAt (c :: rest) (k + 1) = listValueAt rest k := rfl
        have h2 : rest.length + 1 - 1 - (k + 1) = rest.length - 1 - k := by omega
        rw [h1, h2]
      rw [Finset.sum_congr rfl htermk, hterm0]
      ring

theorem pevaluate_ok {p : Polynomial} {x : FieldElement} {m : Nat}
    (hp : AllMod m p) (hx : x.modulus = m) (hm : m ≠ 0) :
    ∃ r, p.evaluate x = .ok r ∧ r.modulus = m ∧ r.value < m ∧
      (r.value : ZMod m) = ∑ k ∈ Finset.range p.coefficients.length,
        coeffZ m p k * (x.value : ZMod m) ^ k := by
  have hph := hp.headEq
  have hrevmods : ∀ c ∈ p.coefficients.reverse, c.modulus = m := by
    intro c hc
    exact hp.2 c (List.mem_reverse.mp hc)
  obtain ⟨r, hfold, hrmod, hrnil, hrred, hrz⟩ :=
    hornerGo_ok hx hm p.coefficients.reverse hrevmods ⟨0, m⟩ rfl
  have hrevne : p.coefficients.reverse ≠ [] := by
    intro hc
    exact hp.1 (by simpa using hc)
  refine ⟨r, ?_, hrmod, hrred hrevne, ?_⟩
  · unfold Polynomial.evaluate
    rw [hph, hx, if_neg (fun hc => hc rfl)]
    rw [exbind_ok]
    exact ⟨⟨0, m⟩, FieldElement.new_ok_iff.mpr ⟨hm, rfl⟩, hfold⟩
  · rw [hrz]
    have hz0 : ((FieldElement.mk 0 m).value : ZMod m) = 0 := by push_cast; rfl
    rw [hz0, zero_mul, zero_add, List.length_reverse]
    set n := p.coefficients.length with hn
    have hterm : ∀ k ∈ Finset.range n,
        (listValueAt p.coefficients.reverse k : ZMod m)
          * (x.value : ZMod m) ^ (n - 1 - k) =
        coeffZ m p (n - 1 - k) * (x.value : ZMod m) ^ (n - 1 - k) := by
      intro k hk
      rw [Finset.mem_range] at hk
      have hrev : p.coefficients.reverse.get? k = p.coefficients.get? (n - 1 - k) := by
        apply List.get?_reverse
        rw [List.length_reverse] at *
        omega
      unfold listValueAt coeffZ valueAt listValueAt
      rw [hrev]
    rw [Finset.sum_congr rfl hterm]
    have hreflect : ∑ k ∈ Finset.range n,
        coeffZ m p (n - 1 - k) * (x.value : ZMod m) ^ (n - 1 - k) =
        ∑ k ∈ Finset.range n, coeffZ m p k * (x.value : ZMod m) ^ k :=
      Finset.sum_range_reflect (fun k => coeffZ m p k * (x.value : ZMod m) ^ k) n
    rw [hreflect]

theorem valueAt_factorPoly {dd : Nat} {z factor : FieldElement} (hz : z.value = 0) :
    ∀ i, listValueAt (List.replicate dd z ++ [factor]) i
      = if i = dd then factor.value else 0 := by
  intro i
  unfold listValueAt
  by_cases hi : i < dd
  · rw [List.get?_append (by rw [List.length_replicate]; exact hi)]
    rw [if_neg (by omega)]
    cases hg : (List.replicate dd z).get? i with
    | none => rfl
    | some x =>
      rw [List.eq_of_mem_replicate (List.get?_mem hg)]
      simpa using hz
  · by_cases he : i = dd
    · subst he
      rw [if_pos rfl]
      rw [List.get?_append_right (by rw [List.length_replicate])]
      rw [List.length_replicate]
      simp
    · rw [if_neg he]
      rw [List.get?_eq_none.mpr (by simp [List.length_replicate]; omega)]
      rfl

theorem conv_single {m dd : Nat} {fp other : Polynomial} {fv : ZMod m}
    (hfp : ∀ i, (valueAt fp i : ZMod m) = if i = dd then fv else 0) :
    ∀ k, conv m fp other k
      = if dd ≤ k then fv * coeffZ m other (k - dd) else 0 := by
  intro k
  unfold conv coeffZ
  by_cases hk : dd ≤ k
  · rw [if_pos hk]
    rw [Finset.sum_eq_single dd]
    · rw [hfp dd, if_pos rfl]
    · intro b _ hb
      rw [hfp b, if_neg hb, zero_mul]
    · intro hdd
      exfalso
      exact hdd (Finset.mem_range.mpr (by omega))
  · rw [if_neg hk]
    apply Finset.sum_eq_zero
    intro i hi
    rw [Finset.mem_range] at hi
    rw [hfp i, if_neg (by omega), zero_mul]

theorem divLoop_exit {other : Polynomial} {m : Nat} {rem : Polynomial}
    {quot : List FieldElement}
    (h : ¬(other.degree ≤ rem.degree ∧ 0 < rem.coefficients.length ∧
      (rem.coefficients.getD rem.degree feZero).value ≠ 0)) :
    ∀ fuel, divLoop other m fuel rem quot = .ok (quot, rem) := by
  intro fuel
  cases fuel with
  | zero => rfl
  | succ fuel =>
    unfold divLoop
    rw [if_neg (by
      intro hc
      exact h ⟨hc.1, hc.2.1, hc.2.2⟩)]

theorem divStep_spec {other rem sub rem2 factorPoly : Polynomial} {m : Nat}
    {quot : List FieldElement} {linv factor z q0 : FieldElement}
    (hhead : (rem.coefficients.headD feZero).modulus = m)
    (hremne : rem.coefficients ≠ [])
    (hdeg : other.degree ≤ rem.degree)
    (hddlt : rem.degree - other.degree < quot.length)
    (hquotmods : ∀ x ∈ quot, x.modulus = m)
    (hinv : (other.coefficients.getD other.degree feZero).inv = .ok linv)
    (hfac : (rem.coefficients.getD rem.degree feZero).mul linv = .ok factor)
    (hz : FieldElement.new 0 m = .ok z)
    (hfp : Polynomial.new (List.replicate (rem.degree - other.degree) z ++ [factor])
      = .ok factorPoly)
    (hq0 : (quot.getD (rem.degree - other.degree) feZero).add factor = .ok q0)
    (hsub : factorPoly.mul other = .ok sub)
    (hrem2 : rem.sub sub = .ok rem2) :
    m ≠ 0 ∧
    rem2.coefficients ≠ [] ∧
    (∀ x ∈ rem2.coefficients, x.modulus = m ∧ x.value < m) ∧
    (∀ k, rem.degree < k → valueAt rem2 k = 0) ∧
    (((linv.value * (other.coefficients.getD other.degree feZero).value : Nat)
        : ZMod m) = 1 →
      ∀ k, rem.degree ≤ k → valueAt rem2 k = 0) ∧
    q0.modulus = m ∧ q0.value < m ∧
    (∀ k, convSum m (quot.set (rem.degree - other.degree) q0) other k
        + coeffZ m rem2 k = convSum m quot other k + coeffZ m rem k) := by
  obtain ⟨hm0, hzval⟩ := FieldElement.new_ok_iff.mp hz
  subst hzval
  have hqe : quot.getD (rem.degree - other.degree) feZero ∈ quot := by
    rw [List.getD_eq_get?, List.get?_eq_get hddlt]
    exact List.get_mem _ _ _
  have hqemod : (quot.getD (rem.degree - other.degree) feZero).modulus = m :=
    hquotmods _ hqe
  obtain ⟨hq0modeq, _, hq0val⟩ := FieldElement.add_ok_iff.mp hq0
  rw [hqemod] at hq0val hq0modeq
  have hfacmod : factor.modulus = m := hq0modeq.symm
  obtain ⟨hfmodeq, _, hfval⟩ := FieldElement.mul_ok_iff.mp hfac
  have hleadmod : (rem.coefficients.getD rem.degree feZero).modulus = m := by
    rw [hfval] at hfacmod
    exact hfacmod
  have hlinvmod : linv.modulus = m := by rw [← hfmodeq]; exact hleadmod
  have hlinvmod2 : linv.modulus
      = (other.coefficients.getD other.degree feZero).modulus :=
    (FieldElement.inv_ok_mod hinv).2
  have hqleadmod : (other.coefficients.getD other.degree feZero).modulus = m := by
    rw [← hlinvmod2]; exact hlinvmod
  obtain ⟨hfpne, hfpuni, hfpstruct⟩ := pnew_ok_iff.mp hfp
  have hfphead : (factorPoly.coefficients.headD feZero).modulus = m := by
    rw [hfpstruct]
    cases hdd : rem.degree - other.degree with
    | zero => simpa [hdd] using hfacmod
    | succ n =>
      show ((List.replicate (n + 1) (⟨0, m⟩ : FieldElement)
        ++ [factor]).headD feZero).modulus = m
      rw [List.replicate_succ]
      rfl
  obtain ⟨hotherhead, _, hsublen, hsubwf, hsubconv⟩ := pmul_spec hfphead hsub
  have hfpvals : ∀ i, (valueAt factorPoly i : ZMod m)
      = if i = rem.degree - other.degree then (factor.value : ZMod m) else 0 := by
    intro i
    rw [hfpstruct]
    show ((listValueAt (List.replicate (rem.degree - other.degree) ⟨0, m⟩ ++ [factor]) i : Nat)
      : ZMod m) = _
    rw [valueAt_factorPoly rfl i]
    by_cases hi : i = rem.degree - other.degree
    · rw [if_pos hi, if_pos hi]
    · rw [if_neg hi, if_neg hi]
      push_cast
      rfl
  have hsubZ : ∀ k, coeffZ m sub k = if rem.degree - other.degree ≤ k then
      (factor.value : ZMod m) * coeffZ m other (k - (rem.degree - other.degree)) else 0 := by
    intro k
    rw [hsubconv k]
    exact conv_single hfpvals k
  obtain ⟨_, _, hrem2len, hrem2wf, hrem2val⟩ := psub_spec hhead hrem2
  have hsubred : ∀ k, valueAt sub k < m := by
    intro k
    by_cases hk : k < sub.coefficients.length
    · rw [valueAt_eq_getD]
      rw [List.getD_eq_get?, List.get?_eq_get hk]
      exact (hsubwf _ (List.get_mem _ _ _)).2
    · rw [valueAt_eq_zero_of_le (by omega)]
      exact Nat.pos_of_ne_zero hm0
  have hrem2Z : ∀ k, coeffZ m rem2 k = coeffZ m rem k - coeffZ m sub k := by
    intro k
    unfold coeffZ
    rw [hrem2val k]
    exact castSub (hsubred k)
  have hsz_lead : ((linv.value * (other.coefficients.getD other.degree feZero).value
        : Nat) : ZMod m) = 1 →
      (valueAt sub rem.degree : ZMod m) = (valueAt rem rem.degree : ZMod m) := by
    intro hlinvZ
    have h1 := hsubZ rem.degree
    rw [if_pos (by omega)] at h1
    have harg : rem.degree - (rem.degree - other.degree) = other.degree := by omega
    rw [harg] at h1
    unfold coeffZ at h1
    rw [h1]
    have hfz : (factor.value : ZMod m) = ((rem.coefficients.getD rem.degree feZero).value
        : ZMod m) * (linv.value : ZMod m) := by
      rw [hfval]
      simp only
      rw [hleadmod, ZMod.natCast_mod]
      push_cast
      ring
    rw [hfz]
    have hql : (valueAt other other.degree : ZMod m)
        = ((other.coefficients.getD other.degree feZero).value : ZMod m) := by
      rw [valueAt_eq_getD]
    rw [hql]
    have hlinv2 : (linv.value : ZMod m)
        * ((other.coefficients.getD other.degree feZero).value : ZMod m) = 1 := by
      push_cast at hlinvZ
      exact hlinvZ
    rw [valueAt_eq_getD rem rem.degree]
    calc ((rem.coefficients.getD rem.degree feZero).value : ZMod m)
        * (linv.value : ZMod m)
        * ((other.coefficients.getD other.degree feZero).value : ZMod m)
        = ((rem.coefficients.getD rem.degree feZero).value : ZMod m)
        * ((linv.value : ZMod m)
        * ((other.coefficients.getD other.degree feZero).value : ZMod m)) := by ring
      _ = _ := by rw [hlinv2, mul_one]
  have hzero_strict : ∀ k, rem.degree < k → valueAt rem2 k = 0 := by
    intro k hklt
    have hremz : valueAt rem k = 0 := degree_zero_above hklt
    have hsz : valueAt sub k = 0 := by
      have h1 := hsubZ k
      unfold coeffZ at h1
      rw [if_pos (by omega)] at h1
      have hod : other.degree < k - (rem.degree - other.degree) := by omega
      rw [degree_zero_above hod] at h1
      push_cast at h1
      rw [mul_zero] at h1
      exact val_eq_zero_of_cast_eq_zero (hsubred k) h1
    rw [hrem2val k, hremz, hsz, Nat.zero_add, Nat.sub_zero, Nat.mod_self]
  have hzero_above : ((linv.value
        * (other.coefficients.getD other.degree feZero).value : Nat) : ZMod m) = 1 →
      ∀ k, rem.degree ≤ k → valueAt rem2 k = 0 := by
    intro hlinvZ k hk
    by_cases hke : k = rem.degree
    · rw [hke, hrem2val rem.degree]
      apply val_eq_zero_of_cast_eq_zero (Nat.mod_lt _ (Nat.pos_of_ne_zero hm0))
      rw [castSub (hsubred rem.degree), hsz_lead hlinvZ]
      ring
    · exact hzero_strict k (by omega)
  have hrem2ne : rem2.coefficients ≠ [] := by
    intro hc
    have h0 : rem2.coefficients.length = 0 := by rw [hc]; rfl
    rw [hrem2len] at h0
    have : rem.coefficients.length = 0 := by omega
    exact hremne (List.length_eq_zero.mp this)
  have hq0m : q0.modulus = m := by rw [hq0val]
  have hq0r : q0.value < m := by
    rw [hq0val]
    exact Nat.mod_lt _ (Nat.pos_of_ne_zero hm0)
  have hq0z : (q0.value : ZMod m) = (listValueAt quot (rem.degree - other.degree) : ZMod m)
      + (factor.value : ZMod m) := by
    rw [hq0val]
    simp only
    rw [ZMod.natCast_mod]
    push_cast
    rw [listValueAt_eq_getD]
  have hconvset : ∀ k, convSum m (quot.set (rem.degree - other.degree) q0) other k
      = convSum m quot other k + coeffZ m sub k := by
    intro k
    rw [hsubZ k]
    unfold convSum
    by_cases hddk : rem.degree - other.degree ≤ k
    · rw [if_pos hddk]
      have hterm : ∀ i ∈ Finset.range (k + 1),
          (listValueAt (quot.set (rem.degree - other.degree) q0) i : ZMod m)
            * coeffZ m other (k - i)
          = (listValueAt quot i : ZMod m) * coeffZ m other (k - i)
            + (if i = rem.degree - other.degree then
              (factor.value : ZMod m) * coeffZ m other (k - i) else 0) := by
        intro i _
        by_cases hid : i = rem.degree - other.degree
        · rw [hid, if_pos rfl]
          have hget : (quot.set (rem.degree - other.degree) q0).get?
              (rem.degree - other.degree) = some q0 := by
            rw [List.get?_set_eq, List.get?_eq_get hddlt]
            rfl
          have hlv : listValueAt (quot.set (rem.degree - other.degree) q0)
              (rem.degree - other.degree) = q0.value := by
            unfold listValueAt
            rw [hget]
            rfl
          rw [hlv, hq0z]
          ring
        · rw [if_neg hid]
          have hget : (quot.set (rem.degree - other.degree) q0).get? i = quot.get? i :=
            List.get?_set_ne q0 quot (fun hc => hid hc.symm)
          have hlv : listValueAt (quot.set (rem.degree - other.degree) q0) i
              = listValueAt quot i := by
            unfold listValueAt
            rw [hget]
          rw [hlv, add_zero]
      rw [Finset.sum_congr rfl hterm, Finset.sum_add_distrib]
      congr 1
      rw [Finset.sum_eq_single (rem.degree - other.degree)]
      · rw [if_pos rfl]
      · intro b _ hb
        rw [if_neg hb]
      · intro hdd2
        rw [Finset.mem_range] at hdd2
        omega
    · rw [if_neg hddk, add_zero]
      apply Finset.sum_congr rfl
      intro i hi
      rw [Finset.mem_range] at hi
      have hid : i ≠ rem.degree - other.degree := by omega
      have hget : (quot.set (rem.degree - other.degree) q0).get? i = quot.get? i :=
        List.get?_set_ne q0 quot (fun hc => hid hc.symm)
      have hlv : listValueAt (quot.set (rem.degree - other.degree) q0) i
          = listValueAt quot i := by
        unfold listValueAt
        rw [hget]
      rw [hlv]
  refine ⟨hm0, hrem2ne, hrem2wf, hzero_strict, hzero_above, hq0m, hq0r, ?_⟩
  intro k
  rw [hconvset k, hrem2Z k]
  ring

theorem degree_le_of_zero_above {p : Polynomial} {d : Nat}
    (h : ∀ k, d < k → valueAt p k = 0) : p.degree ≤ d := by
  by_contra hgt
  rw [not_le] at hgt
  have hne : p.degree ≠ 0 := by omega
  exact degree_val_ne hne (h p.degree hgt)

theorem entries_head_modulus {p : Polynomial} {m : Nat} (hne : p.coefficients ≠ [])
    (hmods : ∀ x ∈ p.coefficients, x.modulus = m ∧ x.value < m) :
    (p.coefficients.headD feZero).modulus = m :=
  AllMod.headEq ⟨hne, fun c hc => (hmods c hc).1⟩

theorem exok_bind {α β : Type} (a : α) (f : α → Except ZKError β) :
    (Except.ok a : Except ZKError α) >>= f = f a := rfl

theorem expure_bind {α β : Type} (a : α) (f : α → Except ZKError β) :
    (pure a : Except ZKError α) >>= f = f a := rfl

theorem divLoop_sound {other : Polynomial} {m : Nat} :
    ∀ (fuel : Nat) (rem : Polynomial) (quot quot2 : List FieldElement) (rem2 : Polynomial),
      divLoop other m fuel rem quot = .ok (quot2, rem2) →
      (rem.coefficients ≠ [] → (rem.coefficients.headD feZero).modulus = m) →
      (∀ x ∈ quot, x.modulus = m) →
      rem.degree - other.degree < quot.length →
      quot2.length = quot.length ∧ (∀ x ∈ quot2, x.modulus = m) ∧
      ∀ k, convSum m quot2 other k + coeffZ m rem2 k
        = convSum m quot other k + coeffZ m rem k := by
  intro fuel
  induction fuel with
  | zero =>
    intro rem quot quot2 rem2 h _ hq _
    unfold divLoop at h
    simp at h
    obtain ⟨h1, h2⟩ := h
    subst h1
    subst h2
    exact ⟨rfl, hq, fun k => rfl⟩
  | succ fuel ih =>
    intro rem quot quot2 rem2 h hhead hquot hddlt
    unfold divLoop at h
    by_cases hcond : other.degree ≤ rem.degree ∧ 0 < rem.coefficients.length ∧
        (rem.coefficients.getD rem.degree feZero).value ≠ 0
    · rw [if_pos (by exact ⟨hcond.1, hcond.2.1, hcond.2.2⟩)] at h
      rw [exbind_ok] at h
      obtain ⟨linv, hinv, h⟩ := h
      rw [exbind_ok] at h
      obtain ⟨factor, hfac, h⟩ := h
      rw [exbind_ok] at h
      obtain ⟨z, hz, h⟩ := h
      rw [exbind_ok] at h
      obtain ⟨factorPoly, hfp, h⟩ := h
      rw [exbind_ok] at h
      obtain ⟨q0, hq0, h⟩ := h
      rw [exbind_ok] at h
      obtain ⟨subtrahend, hsub, h⟩ := h
      rw [exbind_ok] at h
      obtain ⟨remainder2, hrem2, h⟩ := h
      have hremne : rem.coefficients ≠ [] := by
        intro hc
        rw [hc] at hcond
        simp at hcond
      obtain ⟨hm0, hr2ne, hr2wf, hr2zero, -, hq0m, hq0r, hstepinv⟩ :=
        divStep_spec (hhead hremne) hremne hcond.1 hddlt hquot hinv hfac hz hfp hq0 hsub hrem2
      have hr2deg : remainder2.degree ≤ rem.degree := degree_le_of_zero_above hr2zero
      have hquot2mods : ∀ x ∈ quot.set (rem.degree - other.degree) q0, x.modulus = m := by
        intro x hx
        rcases List.mem_or_eq_of_mem_set hx with hx2 | hx2
        · exact hquot x hx2
        · rw [hx2]; exact hq0m
      obtain ⟨hlen2, hmods2, hinv2⟩ := ih remainder2 (quot.set (rem.degree - other.degree) q0)
        quot2 rem2 h (fun _ => entries_head_modulus hr2ne hr2wf) hquot2mods
        (by rw [List.length_set]; omega)
      rw [List.length_set] at hlen2
      refine ⟨hlen2, hmods2, ?_⟩
      intro k
      rw [hinv2 k, hstepinv k]
    · rw [if_neg (by
        intro hc
        exact hcond ⟨hc.1, hc.2.1, hc.2.2⟩)] at h
      simp at h
      obtain ⟨h1, h2⟩ := h
      subst h1
      subst h2
      exact ⟨rfl, hquot, fun k => rfl⟩

theorem divLoop_run {other : Polynomial} {m : Nat} (hother : Good m other)
    (hgcd : Nat.gcd ((other.coefficients.getD other.degree feZero).value) m = 1)
    (hm : m ≠ 0) (hm63 : m < 2 ^ 63) :
    ∀ (fuel : Nat) (rem : Polynomial) (quot : List FieldElement),
      Good m rem →
      (∀ x ∈ quot, x.modulus = m ∧ x.value < m) →
      rem.degree - other.degree < quot.length →
      rem.degree + 1 ≤ fuel →
      ∃ quot2 rem2, divLoop other m fuel rem quot = .ok (quot2, rem2) ∧
        Good m rem2 ∧ (∀ x ∈ quot2, x.modulus = m ∧ x.value < m) ∧
        quot2.length = quot.length ∧
        ¬(other.degree ≤ rem2.degree ∧ 0 < rem2.coefficients.length ∧
          (rem2.coefficients.getD rem2.degree feZero).value ≠ 0) := by
  intro fuel
  induction fuel with
  | zero =>
    intro rem quot _ _ _ hfuel
    omega
  | succ fuel ih =>
    intro rem quot hrem hquot hddlt hfuel
    by_cases hcond : other.degree ≤ rem.degree ∧ 0 < rem.coefficients.length ∧
        (rem.coefficients.getD rem.degree feZero).value ≠ 0
    case neg =>
      refine ⟨quot, rem, ?_, hrem, hquot, rfl, hcond⟩
      unfold divLoop
      rw [if_neg (by
        intro hc
        exact hcond ⟨hc.1, hc.2.1, hc.2.2⟩)]
    case pos =>
      have hqleadmod : (other.coefficients.getD other.degree feZero).modulus = m :=
        getD_modulus_of_lt (fun c hc => (hother.2 c hc).1) (degree_lt_length hother.1)
      have hqleadmem : other.coefficients.getD other.degree feZero
          ∈ other.coefficients := by
        rw [List.getD_eq_get?, List.get?_eq_get (degree_lt_length hother.1)]
        exact List.get_mem _ _ _
      have hqleadval : (other.coefficients.getD other.degree feZero).value < 2 ^ 63 :=
        lt_trans (hother.2 _ hqleadmem).2 hm63
      obtain ⟨linv, hinv⟩ := FieldElement.inv_ok_of_gcd hqleadval
        (by rw [hqleadmod]; exact hm63)
        (by rw [hqleadmod]; exact hm) (by rw [hqleadmod]; exact hgcd)
      obtain ⟨_, _, hlinvmod, _, hlinvinv⟩ := FieldElement.inv_ok hqleadval
        (by rw [hqleadmod]; exact hm63) hinv
      rw [hqleadmod] at hlinvinv
      have hleadmod : (rem.coefficients.getD rem.degree feZero).modulus = m :=
        getD_modulus_of_lt (fun c hc => (hrem.2 c hc).1) (degree_lt_length hrem.1)
      obtain ⟨factor, hfac⟩ : ∃ factor, (rem.coefficients.getD rem.degree feZero).mul linv
          = .ok factor :=
        ⟨_, FieldElement.mul_ok_iff.mpr ⟨by rw [hleadmod, hlinvmod, hqleadmod], by
          rw [hleadmod]; exact hm, rfl⟩⟩
      have hfacmod : factor.modulus = m := by
        obtain ⟨_, _, hv⟩ := FieldElement.mul_ok_iff.mp hfac
        rw [hv]
        exact hleadmod
      have hz : FieldElement.new 0 m = .ok ⟨0, m⟩ := FieldElement.new_ok_iff.mpr ⟨hm, rfl⟩
      obtain ⟨factorPoly, hfp⟩ : ∃ fp, Polynomial.new
          (List.replicate (rem.degree - other.degree) (⟨0, m⟩ : FieldElement) ++ [factor])
          = .ok fp := by
        refine ⟨_, pnew_ok_iff.mpr ⟨by simp, ?_, rfl⟩⟩
        have hhead : ((List.replicate (rem.degree - other.degree) (⟨0, m⟩ : FieldElement)
            ++ [factor]).headD feZero).modulus = m := by
          cases hdd : rem.degree - other.degree with
          | zero => simpa using hfacmod
          | succ n =>
            rw [List.replicate_succ]
            rfl
        intro x hx
        rw [hhead]
        rcases List.mem_append.mp hx with hx2 | hx2
        · rw [List.eq_of_mem_replicate hx2]
        · rw [List.mem_singleton.mp hx2]
          exact hfacmod
      have hfpAllMod : AllMod m factorPoly := by
        obtain ⟨hne, huni, hstruct⟩ := pnew_ok_iff.mp hfp
        constructor
        · rw [hstruct]
          simp
        · intro c hc
          rw [hstruct] at hc
          rcases List.mem_append.mp hc with hc2 | hc2
          · rw [List.eq_of_mem_replicate hc2]
          · rw [List.mem_singleton.mp hc2]
            exact hfacmod
      obtain ⟨q0, hq0⟩ : ∃ q0, (quot.getD (rem.degree - other.degree) feZero).add factor
          = .ok q0 := by
        have hqmod : (quot.getD (rem.degree - other.degree) feZero).modulus = m := by
          rw [List.getD_eq_get?, List.get?_eq_get hddlt]
          exact (hquot _ (List.get_mem _ _ _)).1
        exact ⟨_, FieldElement.add_ok_iff.mpr ⟨by rw [hqmod, hfacmod], by
          rw [hqmod]; exact hm, rfl⟩⟩
      obtain ⟨subtrahend, hsub⟩ := pmul_ok hfpAllMod hother.allMod hm
      have hsubAllMod : AllMod m subtrahend := by
        obtain ⟨_, _, hlen, hwf, _⟩ := pmul_spec hfpAllMod.headEq hsub
        constructor
        · intro hc
          have h0 : subtrahend.coefficients.length = 0 := by rw [hc]; rfl
          rw [hlen] at h0
          have hfpl : factorPoly.coefficients.length ≠ 0 := by
            intro hc2
            exact hfpAllMod.1 (List.length_eq_zero.mp hc2)
          have hol : other.coefficients.length ≠ 0 := by
            intro hc2
            exact hother.1 (List.length_eq_zero.mp hc2)
          omega
        · exact fun c hc => (hwf c hc).1
      obtain ⟨remainder2, hrem2⟩ := psub_ok hrem.allMod hsubAllMod hm
      obtain ⟨hm0, hr2ne, hr2wf, -, hr2cond, hq0m, hq0r, hstepinv⟩ :=
        divStep_spec hrem.allMod.headEq hrem.1 hcond.1 hddlt
          (fun x hx => (hquot x hx).1) hinv hfac hz hfp hq0 hsub hrem2
      have hr2zero : ∀ k, rem.degree ≤ k → valueAt remainder2 k = 0 :=
        hr2cond hlinvinv
      have hquot2wf : ∀ x ∈ quot.set (rem.degree - other.degree) q0,
          x.modulus = m ∧ x.value < m := by
        intro x hx
        rcases List.mem_or_eq_of_mem_set hx with hx2 | hx2
        · exact hquot x hx2
        · rw [hx2]; exact ⟨hq0m, hq0r⟩
      have hassemble : ∀ res, divLoop other m fuel remainder2
            (quot.set (rem.degree - other.degree) q0) = res →
          divLoop other m (fuel + 1) rem quot = res := by
        intro res hres
        unfold divLoop
        rw [if_pos (by exact ⟨hcond.1, hcond.2.1, hcond.2.2⟩)]
        simp only [hinv, hfac, hz, hfp, hq0, hsub, hrem2, exok_bind]
        exact hres
      by_cases hallz : ∀ k, valueAt remainder2 k = 0
      · have hncond : ¬(other.degree ≤ remainder2.degree ∧
            0 < remainder2.coefficients.length ∧
            (remainder2.coefficients.getD remainder2.degree feZero).value ≠ 0) := by
          intro hc
          apply hc.2.2
          rw [← valueAt_eq_getD]
          exact hallz remainder2.degree
        refine ⟨quot.set (rem.degree - other.degree) q0, remainder2,
          hassemble _ (divLoop_exit hncond fuel), ⟨hr2ne, hr2wf⟩, hquot2wf, ?_, hncond⟩
        rw [List.length_set]
      · push_neg at hallz
        obtain ⟨k0, hk0⟩ := hallz
        have hr2deglt : remainder2.degree < rem.degree := by
          apply degree_lt_of_zero_above hr2zero
          exact ⟨k0, hk0⟩
        obtain ⟨quot3, rem3, hrun, hg3, hq3, hl3, hnc3⟩ := ih remainder2
          (quot.set (rem.degree - other.degree) q0) ⟨hr2ne, hr2wf⟩ hquot2wf
          (by rw [List.length_set]; omega) (by omega)
        rw [List.length_set] at hl3
        exact ⟨quot3, rem3, hassemble _ hrun, hg3, hq3, hl3, hnc3⟩

theorem convSum_zeros {m : Nat} {other : Polynomial} (n k : Nat) :
    convSum m (List.replicate n (⟨0, m⟩ : FieldElement)) other k = 0 := by
  unfold convSum
  apply Finset.sum_eq_zero
  intro i _
  rw [listValueAt_replicate rfl]
  push_cast
  ring

theorem div_sound {p other quo rem : Polynomial} {m : Nat}
    (hm : (p.coefficients.headD feZero).modulus = m)
    (h : p.div other = .ok (quo, rem)) :
    m ≠ 0 ∧ (other.coefficients.headD feZero).modulus = m ∧
      quo.coefficients ≠ [] ∧ (∀ x ∈ quo.coefficients, x.modulus = m) ∧
      ∀ k, coeffZ m p k = conv m quo other k + coeffZ m rem k := by
  unfold Polynomial.div at h
  rw [hm] at h
  by_cases hq : (other.coefficients.headD feZero).modulus = m
  case neg =>
    rw [if_pos (fun hc => hq hc.symm)] at h
    exact absurd h (by simp)
  case pos =>
    rw [hq, if_neg (fun hc => hc rfl)] at h
    rw [exbind_ok] at h
    obtain ⟨z, hz, h⟩ := h
    obtain ⟨hm0, hzv⟩ := FieldElement.new_ok_iff.mp hz
    subst hzv
    rw [exbind_ok] at h
    obtain ⟨qr, hqr, h⟩ := h
    rw [exbind_ok] at h
    obtain ⟨quotient, hquotient, h⟩ := h
    rw [expure_ok] at h
    have hquo : quo = quotient := (congrArg Prod.fst h).symm
    have hrem : rem = qr.2 := (congrArg Prod.snd h).symm
    subst hquo
    subst hrem
    have hpne : p.coefficients ≠ [] := by
      intro hc
      rw [hc] at hm
      exact hm0 (by simpa using hm.symm)
    obtain ⟨hlen, hmods, hinv⟩ := divLoop_sound (p.degree + 1) p
      (List.replicate (p.degree - other.degree + 1) ⟨0, m⟩) qr.1 qr.2 hqr
      (fun _ => hm)
      (fun x hx => by rw [List.eq_of_mem_replicate hx])
      (by rw [List.length_replicate]; omega)
    obtain ⟨hqne, _, hqstruct⟩ := pnew_ok_iff.mp hquotient
    refine ⟨hm0, hq, by rw [hqstruct]; exact hqne, ?_, ?_⟩
    · intro x hx
      rw [hqstruct] at hx
      exact hmods x hx
    · intro k
      have h1 := hinv k
      rw [convSum_zeros] at h1
      rw [zero_add] at h1
      have h2 : conv m quo other k = convSum m qr.1 other k := by
        subst hqstruct
        rfl
      rw [h2, ← h1]

theorem div_run {p other : Polynomial} {m : Nat} (hp : Good m p) (hother : Good m other)
    (hgcd : Nat.gcd ((other.coefficients.getD other.degree feZero).value) m = 1)
    (hm : m ≠ 0) (hm63 : m < 2 ^ 63) :
    ∃ quo rem, p.div other = .ok (quo, rem) ∧ Good m quo ∧
      (∀ x ∈ rem.coefficients, x.modulus = m ∧ x.value < m) ∧ rem.coefficients ≠ [] ∧
      ¬(other.degree ≤ rem.degree ∧ 0 < rem.coefficients.length ∧
        (rem.coefficients.getD rem.degree feZero).value ≠ 0) := by
  obtain ⟨quot2, rem2, hrun, hgood2, hq2, hl2, hnc⟩ := divLoop_run hother hgcd hm hm63
    (p.degree + 1) p (List.replicate (p.degree - other.degree + 1) ⟨0, m⟩) hp
    (fun x hx => by rw [List.eq_of_mem_replicate hx]; exact ⟨rfl, Nat.pos_of_ne_zero hm⟩)
    (by rw [List.length_replicate]; omega) (by omega)
  rw [List.length_replicate] at hl2
  have hq2ne : quot2 ≠ [] := by
    intro hc
    rw [hc] at hl2
    simp at hl2
  obtain ⟨quo, hquo⟩ : ∃ quo, Polynomial.new quot2 = .ok quo := by
    refine ⟨_, pnew_ok_iff.mpr ⟨hq2ne, ?_, rfl⟩⟩
    intro x hx
    rw [(hq2 x hx).1]
    cases hsl : quot2 with
    | nil => exact absurd hsl hq2ne
    | cons y ys =>
      have := (hq2 y (by rw [hsl]; exact List.mem_cons_self y ys)).1
      simpa using this.symm
  refine ⟨quo, rem2, ?_, ?_, fun x hx => hgood2.2 x hx, hgood2.1, hnc⟩
  · unfold Polynomial.div
    rw [hp.allMod.headEq, hother.allMod.headEq, if_neg (fun hc => hc rfl)]
    rw [exbind_ok]
    refine ⟨⟨0, m⟩, FieldElement.new_ok_iff.mpr ⟨hm, rfl⟩, ?_⟩
    rw [exbind_ok]
    refine ⟨(quot2, rem2), hrun, ?_⟩
    rw [exbind_ok]
    exact ⟨quo, hquo, by rw [expure_ok]⟩
  · obtain ⟨_, _, hstruct⟩ := pnew_ok_iff.mp hquo
    constructor
    · rw [hstruct]
      exact hq2ne
    · intro c hc
      rw [hstruct] at hc
      exact hq2 c hc

theorem evalSum_ext {m : Nat} {p : Polynomial} {n : Nat}
    (h : p.coefficients.length ≤ n) (w : ZMod m) :
    evalSum m p w = ∑ k ∈ Finset.range n, coeffZ m p k * w ^ k := by
  unfold evalSum
  apply Finset.sum_subset
  · exact Finset.range_subset.mpr h
  · intro k _ hk
    rw [Finset.mem_range, not_lt] at hk
    unfold coeffZ
    rw [valueAt_eq_zero_of_le (by omega)]
    push_cast
    ring

theorem coeffZ_pair {m : Nat} {b : Polynomial} {b0 b1 : FieldElement}
    (hb : b.coefficients = [b0, b1]) :
    ∀ j, coeffZ m b j = if j = 0 then (b0.value : ZMod m)
      else if j = 1 then (b1.value : ZMod m) else 0 := by
  intro j
  unfold coeffZ valueAt listValueAt
  rw [hb]
  match j with
  | 0 => rfl
  | 1 => rfl
  | j + 2 =>
    rw [if_neg (by omega), if_neg (by omega)]
    rw [List.get?_eq_none.mpr (by simp only [List.length_cons, List.length_nil]; omega)]
    exact Nat.cast_zero

theorem coeffZ_single {m : Nat} {b : Polynomial} {b0 : FieldElement}
    (hb : b.coefficients = [b0]) :
    ∀ j, coeffZ m b j = if j = 0 then (b0.value : ZMod m) else 0 := by
  intro j
  unfold coeffZ valueAt listValueAt
  rw [hb]
  match j with
  | 0 => rfl
  | j + 1 =>
    rw [if_neg (by omega)]
    rw [List.get?_eq_none.mpr (by simp only [List.length_cons, List.length_nil]; omega)]
    exact Nat.cast_zero

theorem conv_pair {m : Nat} {a b : Polynomial} {b0 b1 : FieldElement}
    (hb : b.coefficients = [b0, b1]) :
    ∀ k, conv m a b k = coeffZ m a k * (b0.value : ZMod m)
      + (if 1 ≤ k then coeffZ m a (k - 1) * (b1.value : ZMod m) else 0) := by
  intro k
  unfold conv
  match k with
  | 0 =>
    rw [if_neg (by omega)]
    rw [Finset.sum_range_one]
    rw [coeffZ_pair hb 0, if_pos rfl, add_zero]
  | j + 1 =>
    rw [if_pos (by omega)]
    rw [Finset.sum_range_succ, Finset.sum_range_succ]
    have hzero : ∑ d ∈ Finset.range j, coeffZ m a d * coeffZ m b (j + 1 - d) = 0 := by
      apply Finset.sum_eq_zero
      intro d hd
      rw [Finset.mem_range] at hd
      rw [coeffZ_pair hb (j + 1 - d), if_neg (by omega), if_neg (by omega), mul_zero]
    rw [hzero, zero_add]
    have h1 : j + 1 - j = 1 := by omega
    have h2 : j + 1 - (j + 1) = 0 := by omega
    rw [h1, h2]
    rw [coeffZ_pair hb 0, coeffZ_pair hb 1]
    rw [if_pos rfl, if_neg (by omega), if_pos rfl]
    have h3 : j + 1 - 1 = j := by omega
    rw [h3]
    ring

theorem conv_single_right {m : Nat} {a b : Polynomial} {b0 : FieldElement}
    (hb : b.coefficients = [b0]) :
    ∀ k, conv m a b k = coeffZ m a k * (b0.value : ZMod m) := by
  intro k
  unfold conv
  rw [Finset.sum_eq_single k]
  · rw [show k - k = 0 from by omega, coeffZ_single hb 0, if_pos rfl]
  · intro d hdmem hd
    rw [Finset.mem_range] at hdmem
    rw [coeffZ_single hb (k - d)]
    rw [if_neg (by omega), mul_zero]
  · intro hk
    exfalso
    exact hk (Finset.mem_range.mpr (by omega))

theorem evalSum_mul_pair {m : Nat} {a b c : Polynomial} {b0 b1 : FieldElement}
    (hb : b.coefficients = [b0, b1])
    (hclen : c.coefficients.length = a.coefficients.length + 1)
    (hc : ∀ k, coeffZ m c k = conv m a b k) (w : ZMod m) :
    evalSum m c w = evalSum m a w * ((b0.value : ZMod m) + (b1.value : ZMod m) * w) := by
  unfold evalSum
  rw [hclen]
  have hterm : ∀ k ∈ Finset.range (a.coefficients.length + 1), coeffZ m c k * w ^ k
      = coeffZ m a k * (b0.value : ZMod m) * w ^ k
        + (if 1 ≤ k then coeffZ m a (k - 1) * (b1.value : ZMod m) else 0) * w ^ k := by
    intro k _
    rw [hc k, conv_pair hb k]
    ring
  rw [Finset.sum_congr rfl hterm, Finset.sum_add_distrib]
  have hpart1 : ∑ k ∈ Finset.range (a.coefficients.length + 1),
      coeffZ m a k * (b0.value : ZMod m) * w ^ k
      = (∑ k ∈ Finset.range a.coefficients.length, coeffZ m a k * w ^ k)
        * (b0.value : ZMod m) := by
    rw [Finset.sum_range_succ]
    have htop : coeffZ m a a.coefficients.length = 0 := by
      unfold coeffZ
      rw [valueAt_eq_zero_of_le (le_refl _)]
      push_cast
      rfl
    rw [htop]
    rw [Finset.sum_mul]
    simp only [zero_mul, add_zero]
    apply Finset.sum_congr rfl
    intro k _
    ring
  have hpart2 : ∑ k ∈ Finset.range (a.coefficients.length + 1),
      (if 1 ≤ k then coeffZ m a (k - 1) * (b1.value : ZMod m) else 0) * w ^ k
      = (∑ k ∈ Finset.range a.coefficients.length, coeffZ m a k * w ^ k)
        * ((b1.value : ZMod m) * w) := by
    rw [Finset.sum_range_succ']
    have hz : (if 1 ≤ 0 then coeffZ m a (0 - 1) * (b1.value : ZMod m) else 0) * w ^ 0
        = 0 := by
      rw [if_neg (by omega), zero_mul]
    rw [hz, add_zero]
    rw [Finset.sum_mul]
    apply Finset.sum_congr rfl
    intro k _
    rw [if_pos (by omega)]
    have h1 : k + 1 - 1 = k := by omega
    rw [h1]
    rw [pow_succ]
    ring
  rw [hpart1, hpart2]
  ring

theorem evalSum_mul_single {m : Nat} {a b c : Polynomial} {b0 : FieldElement}
    (hb : b.coefficients = [b0])
    (hclen : c.coefficients.length = a.coefficients.length)
    (hc : ∀ k, coeffZ m c k = conv m a b k) (w : ZMod m) :
    evalSum m c w = evalSum m a w * (b0.value : ZMod m) := by
  unfold evalSum
  rw [hclen, Finset.sum_mul]
  apply Finset.sum_congr rfl
  intro k _
  rw [hc k, conv_single_right hb k]
  ring

theorem evalSum_add {m : Nat} {a b c : Polynomial}
    (hm : m ≠ 0)
    (hclen : c.coefficients.length = max a.coefficients.length b.coefficients.length)
    (hc : ∀ k, valueAt c k = (valueAt a k + valueAt b k) % m) (w : ZMod m) :
    evalSum m c w = evalSum m a w + evalSum m b w := by
  rw [evalSum_ext (le_max_left a.coefficients.length b.coefficients.length) w,
    evalSum_ext (le_max_right a.coefficients.length b.coefficients.length) w]
  unfold evalSum
  rw [hclen]
  rw [← Finset.sum_add_distrib]
  apply Finset.sum_congr rfl
  intro k _
  unfold coeffZ
  rw [hc k, ZMod.natCast_mod]
  push_cast
  ring

theorem cast_neg_mod {m v : Nat} (hm : m ≠ 0) :
    (((m - v % m) % m : Nat) : ZMod m) = -(v : ZMod m) := by
  rw [ZMod.natCast_mod]
  have hle : v % m ≤ m := le_of_lt (Nat.mod_lt _ (Nat.pos_of_ne_zero hm))
  rw [Nat.cast_sub hle]
  rw [ZMod.natCast_self, ZMod.natCast_mod]
  ring

theorem interpInner_spec {points : List Point} {m : Nat} {i : Nat}
    (hwf : ∀ pt ∈ points, pt.x.modulus = m ∧ pt.x.value < m ∧ pt.y.modulus = m
      ∧ pt.y.value < m)
    (hm : m ≠ 0) (hi : i < points.length) :
    ∀ (js : List Nat) (nd : Polynomial × FieldElement),
      AllMod m nd.1 → nd.2.modulus = m →
      (∀ j ∈ js, j < points.length) →
      ∃ nd2, (js.foldlM (fun (nd : Polynomial × FieldElement) j =>
          if i = j then pure nd
          else do
            let c0 ← FieldElement.new ((m - (points.getD j ptZero).x.value % m) % m) m
            let c1 ← FieldElement.new 1 m
            let numeratorFactor ← Polynomial.new [c0, c1]
            let numerator2 ← nd.1.mul numeratorFactor
            let d ← (points.getD i ptZero).x.sub (points.getD j ptZero).x
            let denominator2 ← nd.2.mul d
            pure (numerator2, denominator2)) nd = .ok nd2) ∧
        AllMod m nd2.1 ∧ nd2.2.modulus = m ∧
        (nd2.2.value < m ∨ nd2.2.value = nd.2.value) ∧
        (∀ w : ZMod m, evalSum m nd2.1 w = evalSum m nd.1 w *
          (js.map (fun j => if i = j then 1
            else w - ((points.getD j ptZero).x.value : ZMod m))).prod) ∧
        ((nd2.2.value : ZMod m) = (nd.2.value : ZMod m) *
          (js.map (fun j => if i = j then 1
            else ((points.getD i ptZero).x.value : ZMod m)
              - ((points.getD j ptZero).x.value : ZMod m))).prod) := by
  intro js
  induction js with
  | nil =>
    intro nd hgood hdmod _
    refine ⟨nd, by rw [List.foldlM_nil]; rfl, hgood, hdmod, Or.inr rfl, ?_, ?_⟩
    · intro w
      simp
    · simp
  | cons j js ih =>
    intro nd hgood hdmod hjlt
    by_cases hij : i = j
    · obtain ⟨nd2, hfold, hg2, hd2, hvb2, hev2, hden2⟩ := ih nd hgood hdmod
        (fun j2 hj2 => hjlt j2 (List.mem_cons_of_mem j hj2))
      refine ⟨nd2, ?_, hg2, hd2, hvb2, ?_, ?_⟩
      · rw [List.foldlM_cons, if_pos hij]
        exact hfold
      · intro w
        rw [hev2 w]
        simp only [List.map_cons, List.prod_cons, if_pos hij]
        ring
      · rw [hden2]
        simp only [List.map_cons, List.prod_cons, if_pos hij]
        ring
    · have hjlt2 : j < points.length := hjlt j (List.mem_cons_self j js)
      have hxwf := hwf (points.getD j ptZero) (by
        rw [List.getD_eq_get?, List.get?_eq_get hjlt2]
        exact List.get_mem _ _ _)
      have hc0 : FieldElement.new ((m - (points.getD j ptZero).x.value % m) % m) m
          = .ok ⟨(m - (points.getD j ptZero).x.value % m) % m, m⟩ :=
        FieldElement.new_ok_iff.mpr ⟨hm, rfl⟩
      have hc1 : FieldElement.new 1 m = .ok ⟨1, m⟩ :=
        FieldElement.new_ok_iff.mpr ⟨hm, rfl⟩
      obtain ⟨nf, hnf⟩ : ∃ nf, Polynomial.new
          [(⟨(m - (points.getD j ptZero).x.value % m) % m, m⟩ : FieldElement), ⟨1, m⟩]
          = .ok nf := by
        refine ⟨_, pnew_ok_iff.mpr ⟨by simp, ?_, rfl⟩⟩
        intro x hx
        rcases List.mem_cons.mp hx with hx2 | hx2
        · rw [hx2]
          rfl
        · rw [List.mem_singleton.mp hx2]
          rfl
      obtain ⟨hnfne, _, hnfstruct⟩ := pnew_ok_iff.mp hnf
      have hnfAllMod : AllMod m nf := by
        rw [hnfstruct]
        refine ⟨by simp, ?_⟩
        intro c hc
        rcases List.mem_cons.mp hc with hc2 | hc2
        · rw [hc2]
        · rw [List.mem_singleton.mp hc2]
      obtain ⟨num2, hnum2⟩ := pmul_ok hgood hnfAllMod hm
      obtain ⟨_, _, hn2len, hn2wf, hn2conv⟩ := pmul_spec hgood.headEq hnum2
      have hn2good : AllMod m num2 := by
        refine ⟨?_, fun c hc => (hn2wf c hc).1⟩
        intro hc
        have h0 : num2.coefficients.length = 0 := by rw [hc]; rfl
        rw [hn2len, hnfstruct] at h0
        simp at h0
      have hixwf := hwf (points.getD i ptZero) (by
        rw [List.getD_eq_get?, List.get?_eq_get hi]
        exact List.get_mem _ _ _)
      have hd : (points.getD i ptZero).x.sub (points.getD j ptZero).x
          = .ok ⟨((points.getD i ptZero).x.value + m
            - (points.getD j ptZero).x.value) % m, m⟩ := by
        refine FieldElement.sub_ok_iff.mpr ⟨by rw [hixwf.1, hxwf.1], by
          rw [hixwf.1]; exact hm, ?_⟩
        rw [hixwf.1]
      have hmul2 : nd.2.mul ⟨((points.getD i ptZero).x.value + m
            - (points.getD j ptZero).x.value) % m, m⟩
          = .ok ⟨(nd.2.value * (((points.getD i ptZero).x.value + m
            - (points.getD j ptZero).x.value) % m)) % m, m⟩ := by
        refine FieldElement.mul_ok_iff.mpr ⟨by rw [hdmod], by
          rw [hdmod]; exact hm, ?_⟩
        rw [hdmod]
      obtain ⟨nd2, hfold, hg2, hd2, hvb2, hev2, hden2⟩ := ih (num2, ⟨(nd.2.value
          * (((points.getD i ptZero).x.value + m
            - (points.getD j ptZero).x.value) % m)) % m, m⟩) hn2good rfl
        (fun j2 hj2 => hjlt j2 (List.mem_cons_of_mem j hj2))
      have hvb : nd2.2.value < m ∨ nd2.2.value = nd.2.value := by
        rcases hvb2 with h | h
        · exact Or.inl h
        · refine Or.inl ?_
          rw [h]
          exact Nat.mod_lt _ (Nat.pos_of_ne_zero hm)
      refine ⟨nd2, ?_, hg2, hd2, hvb, ?_, ?_⟩
      · rw [List.foldlM_cons, if_neg hij]
        have hstep : (do
            let c0 ← FieldElement.new ((m - (points.getD j ptZero).x.value % m) % m) m
            let c1 ← FieldElement.new 1 m
            let numeratorFactor ← Polynomial.new [c0, c1]
            let numerator2 ← nd.1.mul numeratorFactor
            let d ← (points.getD i ptZero).x.sub (points.getD j ptZero).x
            let denominator2 ← nd.2.mul d
            pure (numerator2, denominator2)
            : Except ZKError (Polynomial × FieldElement))
            = .ok (num2, ⟨(nd.2.value * (((points.getD i ptZero).x.value + m
              - (points.getD j ptZero).x.value) % m)) % m, m⟩) := by
          rw [hc0, exok_bind, hc1, exok_bind, hnf, exok_bind, hnum2, exok_bind,
            hd, exok_bind, hmul2, exok_bind]
          rfl
        rw [hstep, exok_bind]
        exact hfold
      · intro w
        rw [hev2 w]
        have hmulf : evalSum m num2 w = evalSum m nd.1 w
            * (w - ((points.getD j ptZero).x.value : ZMod m)) := by
          have hlenp : 0 < nd.1.coefficients.length :=
            List.length_pos.mpr hgood.1
          have hlen2 : num2.coefficients.length
              = nd.1.coefficients.length + 1 := by
            rw [hn2len, hnfstruct]
            simp only [List.length_cons, List.length_nil]
            omega
          have hnfco : nf.coefficients
              = [(⟨(m - (points.getD j ptZero).x.value % m) % m, m⟩ : FieldElement),
                ⟨1, m⟩] := by
            rw [hnfstruct]
          rw [evalSum_mul_pair hnfco hlen2 hn2conv w]
          show _ = evalSum m nd.1 w
            * (w - ((points.getD j ptZero).x.value : ZMod m))
          rw [cast_neg_mod hm, Nat.cast_one]
          ring
        rw [hmulf]
        simp only [List.map_cons, List.prod_cons, if_neg hij]
        ring
      · rw [hden2]
        show ((((nd.2.value * (((points.getD i ptZero).x.value + m
          - (points.getD j ptZero).x.value) % m)) % m : Nat)) : ZMod m) * _ = _
        rw [ZMod.natCast_mod, Nat.cast_mul, castSub hxwf.2.1]
        simp only [List.map_cons, List.prod_cons, if_neg hij]
        ring

theorem exbind_eq {α β : Type} {x : Except ZKError α} {a : α}
    (h : x = .ok a) (f : α → Except ZKError β) : x >>= f = f a := by
  rw [h]
  rfl

theorem evalSum_single_poly {m : Nat} (a : FieldElement) (w : ZMod m) :
    evalSum m ⟨[a]⟩ w = (a.value : ZMod m) := by
  unfold evalSum
  rw [show (Polynomial.mk [a]).coefficients.length = 1 from rfl, Finset.sum_range_one]
  show coeffZ m ⟨[a]⟩ 0 * w ^ 0 = _
  unfold coeffZ valueAt listValueAt
  simp

theorem listMapRangeSum {M : Type} [AddCommMonoid M] (n : Nat) (f : Nat → M) :
    ((List.range n).map f).sum = ∑ i ∈ Finset.range n, f i := by
  induction n with
  | zero => simp
  | succ n ih =>
    rw [List.range_succ, List.map_append, List.sum_append, Finset.sum_range_succ, ih]
    simp

theorem FieldElement.inv_okZ {a r : FieldElement} {m : Nat} (hv : a.value < 2 ^ 63)
    (hm63 : m < 2 ^ 63) (hmod : a.modulus = m) (h : a.inv = .ok r) :
    r.modulus = m ∧ r.value < m ∧ ((r.value * a.value : Nat) : ZMod m) = 1 := by
  subst hmod
  obtain ⟨_, _, h3, h4, h5⟩ := FieldElement.inv_ok hv hm63 h
  exact ⟨h3, h4, h5⟩

theorem interpOuter_spec {points : List Point} {m : Nat}
    (hwf : ∀ pt ∈ points, pt.x.modulus = m ∧ pt.x.value < m ∧ pt.y.modulus = m
      ∧ pt.y.value < m)
    (hm : m ≠ 0) (hm63 : m < 2 ^ 63)
    (hinv : ∀ k l, k < points.length → l < points.length → k ≠ l →
      IsUnit (((points.getD k ptZero).x.value : ZMod m)
        - ((points.getD l ptZero).x.value : ZMod m))) :
    ∀ (is : List Nat) (result : Polynomial),
      AllMod m result → is.Nodup →
      (∀ i ∈ is, i < points.length) →
      ∃ result2, (is.foldlM (fun result i => do
          let pointOuter := points.getD i ptZero
          let one ← FieldElement.new 1 m
          let numerator0 ← Polynomial.new [one]
          let denominator0 ← FieldElement.new 1 m
          let nd ← (List.range points.length).foldlM
            (fun (nd : Polynomial × FieldElement) j =>
              if i = j then pure nd
              else do
                let pointInner := points.getD j ptZero
                let c0 ← FieldElement.new ((m - pointInner.x.value % m) % m) m
                let c1 ← FieldElement.new 1 m
                let numeratorFactor ← Polynomial.new [c0, c1]
                let numerator2 ← nd.1.mul numeratorFactor
                let d ← pointOuter.x.sub pointInner.x
                let denominator2 ← nd.2.mul d
                pure (numerator2, denominator2)) (numerator0, denominator0)
          let denominatorInverse ← nd.2.inv
          let yc ← pointOuter.y.mul denominatorInverse
          let scalarPoly ← Polynomial.new [yc]
          let finalPolynomial ← nd.1.mul scalarPoly
          result.add finalPolynomial) result = .ok result2) ∧
        AllMod m result2 ∧
        ∃ c : Nat → ZMod m,
          (∀ w : ZMod m, evalSum m result2 w = evalSum m result w
            + (is.map (fun i => c i * ((List.range points.length).map
                (fun j => if i = j then 1
                  else w - ((points.getD j ptZero).x.value : ZMod m))).prod)).sum) ∧
          (∀ i ∈ is, c i * ((List.range points.length).map
              (fun j => if i = j then 1
                else ((points.getD i ptZero).x.value : ZMod m)
                  - ((points.getD j ptZero).x.value : ZMod m))).prod
            = ((points.getD i ptZero).y.value : ZMod m)) := by
  intro is
  induction is with
  | nil =>
    intro result hres _ _
    refine ⟨result, by rw [List.foldlM_nil]; rfl, hres, ⟨fun _ => 0, ?_, ?_⟩⟩
    · intro w
      simp
    · intro i hi
      exact absurd hi (List.not_mem_nil i)
  | cons i is2 ih =>
    intro result hres hnd hlt
    have hi : i < points.length := hlt i (List.mem_cons_self i is2)
    have hinotmem : i ∉ is2 := (List.nodup_cons.mp hnd).1
    have hiwf := hwf (points.getD i ptZero) (by
      rw [List.getD_eq_get?, List.get?_eq_get hi]
      exact List.get_mem _ _ _)
    have hone : FieldElement.new 1 m = .ok ⟨1, m⟩ :=
      FieldElement.new_ok_iff.mpr ⟨hm, rfl⟩
    have hnum0 : Polynomial.new [(⟨1, m⟩ : FieldElement)] = .ok ⟨[⟨1, m⟩]⟩ := by
      refine pnew_ok_iff.mpr ⟨by simp, ?_, rfl⟩
      intro x hx
      rw [List.mem_singleton.mp hx]
      rfl
    have hn0all : AllMod m ⟨[(⟨1, m⟩ : FieldElement)]⟩ := by
      refine ⟨by simp, ?_⟩
      intro c hc
      rw [List.mem_singleton.mp hc]
    obtain ⟨nd, hndfold, hndall, hndmod, hndvb, hndev, hndden⟩ :=
      interpInner_spec hwf hm hi (List.range points.length)
        (⟨[⟨1, m⟩]⟩, ⟨1, m⟩) hn0all rfl (fun j hj => List.mem_range.mp hj)
    have hndval : nd.2.value < 2 ^ 63 := by
      rcases hndvb with h | h
      · exact lt_trans h hm63
      · rw [h]
        show (1 : Nat) < 2 ^ 63
        norm_num
    have h1cast : (((⟨1, m⟩ : FieldElement).value : Nat) : ZMod m) = 1 := by
      show ((1 : Nat) : ZMod m) = 1
      exact Nat.cast_one
    have hQ : ((List.range points.length).map
        (fun j => if i = j then 1
          else ((points.getD i ptZero).x.value : ZMod m)
            - ((points.getD j ptZero).x.value : ZMod m))).prod
        = ((nd.2.value : Nat) : ZMod m) := by
      rw [hndden, h1cast, one_mul]
    have hdenunit : IsUnit ((nd.2.value : Nat) : ZMod m) := by
      rw [← hQ]
      apply List.prod_isUnit
      intro a ha
      obtain ⟨j, hj, rfl⟩ := List.mem_map.mp ha
      by_cases hij : i = j
      · rw [if_pos hij]
        exact isUnit_one
      · rw [if_neg hij]
        exact hinv i j hi (List.mem_range.mp hj) hij
    have hgcd : Nat.gcd nd.2.value nd.2.modulus = 1 := by
      rw [hndmod]
      exact (ZMod.isUnit_iff_coprime nd.2.value m).mp hdenunit
    obtain ⟨dinv, hdinv⟩ := FieldElement.inv_ok_of_gcd hndval
      (by rw [hndmod]; exact hm63) (by rw [hndmod]; exact hm) hgcd
    obtain ⟨hdm, hdred, hdinveq⟩ := FieldElement.inv_okZ hndval hm63 hndmod hdinv
    have hyc : (points.getD i ptZero).y.mul dinv
        = .ok ⟨((points.getD i ptZero).y.value * dinv.value) % m, m⟩ := by
      refine FieldElement.mul_ok_iff.mpr ⟨by rw [hiwf.2.2.1, hdm], by
        rw [hiwf.2.2.1]; exact hm, ?_⟩
      rw [hiwf.2.2.1]
    have hscalar : Polynomial.new
        [(⟨((points.getD i ptZero).y.value * dinv.value) % m, m⟩ : FieldElement)]
        = .ok ⟨[⟨((points.getD i ptZero).y.value * dinv.value) % m, m⟩]⟩ := by
      refine pnew_ok_iff.mpr ⟨by simp, ?_, rfl⟩
      intro x hx
      rw [List.mem_singleton.mp hx]
      rfl
    have hscall : AllMod m ⟨[(⟨((points.getD i ptZero).y.value * dinv.value) % m, m⟩
        : FieldElement)]⟩ := by
      refine ⟨by simp, ?_⟩
      intro c hc
      rw [List.mem_singleton.mp hc]
    obtain ⟨finalP, hfinalP⟩ := pmul_ok hndall hscall hm
    obtain ⟨_, _, hfplen, hfpwf, hfpconv⟩ := pmul_spec hndall.headEq hfinalP
    have hndpos : 0 < nd.1.coefficients.length := List.length_pos.mpr hndall.1
    have hfplen2 : finalP.coefficients.length = nd.1.coefficients.length := by
      rw [hfplen]
      simp only [List.length_cons, List.length_nil]
      omega
    have hfpall : AllMod m finalP := by
      refine ⟨?_, fun c hc => (hfpwf c hc).1⟩
      intro hc
      have h0 : finalP.coefficients.length = 0 := by rw [hc]; rfl
      rw [hfplen2] at h0
      omega
    obtain ⟨added, hadded⟩ := padd_ok hres hfpall hm
    obtain ⟨_, _, halen, hawf, havals⟩ := padd_spec hres.headEq hadded
    have haall : AllMod m added := by
      refine ⟨?_, fun c hc => (hawf c hc).1⟩
      intro hc
      have h0 : added.coefficients.length = 0 := by rw [hc]; rfl
      rw [halen, Nat.max_eq_zero_iff] at h0
      have hpos := List.length_pos.mpr hres.1
      omega
    obtain ⟨result2, hfold2, hall2, c', hev2, hc2⟩ :=
      ih added haall (List.Nodup.of_cons hnd)
        (fun t ht => hlt t (List.mem_cons_of_mem i ht))
    have hfinev : ∀ w : ZMod m, evalSum m finalP w
        = ((List.range points.length).map
            (fun j => if i = j then 1
              else w - ((points.getD j ptZero).x.value : ZMod m))).prod
          * ((((points.getD i ptZero).y.value * dinv.value) % m : Nat) : ZMod m) := by
      intro w
      have hsing : (Polynomial.mk
          [(⟨((points.getD i ptZero).y.value * dinv.value) % m, m⟩
            : FieldElement)]).coefficients
          = [⟨((points.getD i ptZero).y.value * dinv.value) % m, m⟩] := rfl
      rw [evalSum_mul_single hsing hfplen2 hfpconv w, hndev w,
        evalSum_single_poly, h1cast, one_mul]
    refine ⟨result2, ?_, hall2, ⟨fun t => if t = i then
        ((((points.getD i ptZero).y.value * dinv.value) % m : Nat) : ZMod m)
        else c' t, ?_, ?_⟩⟩
    · rw [List.foldlM_cons]
      have hstep := (exbind_eq hone (fun one => do
          let numerator0 ← Polynomial.new [one]
          let denominator0 ← FieldElement.new 1 m
          let nd ← (List.range points.length).foldlM
            (fun (nd : Polynomial × FieldElement) j =>
              if i = j then pure nd
              else do
                let c0 ← FieldElement.new
                  ((m - (points.getD j ptZero).x.value % m) % m) m
                let c1 ← FieldElement.new 1 m
                let numeratorFactor ← Polynomial.new [c0, c1]
                let numerator2 ← nd.1.mul numeratorFactor
                let d ← (points.getD i ptZero).x.sub (points.getD j ptZero).x
                let denominator2 ← nd.2.mul d
                pure (numerator2, denominator2)) (numerator0, denominator0)
          let denominatorInverse ← nd.2.inv
          let yc ← (points.getD i ptZero).y.mul denominatorInverse
          let scalarPoly ← Polynomial.new [yc]
          let finalPolynomial ← nd.1.mul scalarPoly
          result.add finalPolynomial)).trans
        ((exbind_eq hnum0 _).trans ((exbind_eq hone _).trans
          ((exbind_eq hndfold _).trans ((exbind_eq hdinv _).trans
            ((exbind_eq hyc _).trans ((exbind_eq hscalar _).trans
              ((exbind_eq hfinalP _).trans hadded)))))))
      exact (exbind_eq hstep _).trans hfold2
    · intro w
      rw [hev2 w, evalSum_add hm halen havals w, hfinev w]
      have hmapeq : (is2.map (fun t => (if t = i then
            ((((points.getD i ptZero).y.value * dinv.value) % m : Nat) : ZMod m)
            else c' t) * ((List.range points.length).map
              (fun j => if t = j then 1
                else w - ((points.getD j ptZero).x.value : ZMod m))).prod))
          = is2.map (fun t => c' t * ((List.range points.length).map
              (fun j => if t = j then 1
                else w - ((points.getD j ptZero).x.value : ZMod m))).prod) := by
        apply List.map_congr_left
        intro t ht
        have htne : ¬t = i := by
          intro hti
          rw [hti] at ht
          exact hinotmem ht
        rw [if_neg htne]
      rw [List.map_cons, List.sum_cons, hmapeq]
      beta_reduce
      rw [if_pos rfl]
      ring
    · intro t ht
      beta_reduce
      rcases List.mem_cons.mp ht with ht2 | ht2
      · rw [ht2, if_pos rfl, ZMod.natCast_mod, Nat.cast_mul, hQ]
        have hinv2 : ((dinv.value : Nat) : ZMod m) * ((nd.2.value : Nat) : ZMod m)
            = 1 := by
          rw [← Nat.cast_mul]
          exact hdinveq
        rw [mul_assoc, hinv2, mul_one]
      · have htne : ¬t = i := by
          intro hti
          rw [hti] at ht2
          exact hinotmem ht2
        rw [if_neg htne]
        exact hc2 t ht2

theorem FieldElement.eqOf {a b : FieldElement} (hv : a.value = b.value)
    (hmo : a.modulus = b.modulus) : a = b := by
  cases a
  cases b
  simp_all

/-- C3: On a non-empty point list over one modulus below 2^63 (so that the i64
reinterpretation inside inv is the identity) whose x-coordinates have pairwise
invertible differences, Lagrange interpolation succeeds and the resulting
polynomial evaluates at each x-coordinate exactly to the matching
y-coordinate. -/
theorem claim3_interpolation {points : List Point} {m : Nat}
    (hne : points ≠ [])
    (hwf : ∀ pt ∈ points, pt.x.modulus = m ∧ pt.x.value < m ∧ pt.y.modulus = m
      ∧ pt.y.value < m)
    (hm : m ≠ 0) (hm63 : m < 2 ^ 63)
    (hinv : ∀ k l, k < points.length → l < points.length → k ≠ l →
      IsUnit (((points.getD k ptZero).x.value : ZMod m)
        - ((points.getD l ptZero).x.value : ZMod m))) :
    ∃ result, QAP.interpolate_points points = .ok result ∧
      ∀ k, k < points.length →
        result.evaluate (points.getD k ptZero).x = .ok (points.getD k ptZero).y := by
  have hmod : (points.headD ptZero).x.modulus = m := by
    cases points with
    | nil => exact absurd rfl hne
    | cons p ps => exact (hwf p (List.mem_cons_self p ps)).1
  have hie : points.isEmpty = false := by
    cases points with
    | nil => exact absurd rfl hne
    | cons p ps => rfl
  obtain ⟨result2, hfold, hall2, c, hev, hcnd⟩ :=
    interpOuter_spec hwf hm hm63 hinv (List.range points.length) ⟨[⟨0, m⟩]⟩
      (by
        refine ⟨by simp, ?_⟩
        intro c2 hc2
        rw [List.mem_singleton.mp hc2])
      (List.nodup_range points.length)
      (fun t ht => List.mem_range.mp ht)
  refine ⟨result2, ?_, ?_⟩
  · have hz : FieldElement.new 0 m = .ok ⟨0, m⟩ :=
      FieldElement.new_ok_iff.mpr ⟨hm, rfl⟩
    have hp0 : Polynomial.new [(⟨0, m⟩ : FieldElement)] = .ok ⟨[⟨0, m⟩]⟩ := by
      refine pnew_ok_iff.mpr ⟨by simp, ?_, rfl⟩
      intro x hx
      rw [List.mem_singleton.mp hx]
      rfl
    unfold QAP.interpolate_points
    rw [hie, if_neg (by simp), hmod]
    exact (exbind_eq hz _).trans ((exbind_eq hp0 _).trans hfold)
  · intro k hk
    have hkwf := hwf (points.getD k ptZero) (by
      rw [List.getD_eq_get?, List.get?_eq_get hk]
      exact List.get_mem _ _ _)
    obtain ⟨r, hevalok, hrmod, hrred, hrz⟩ := pevaluate_ok hall2 hkwf.1 hm
    have hrzz : (r.value : ZMod m) = ((points.getD k ptZero).y.value : ZMod m) := by
      rw [hrz]
      have hsum : (∑ t ∈ Finset.range result2.coefficients.length,
          coeffZ m result2 t * (((points.getD k ptZero).x.value : Nat) : ZMod m) ^ t)
          = evalSum m result2 (((points.getD k ptZero).x.value : Nat) : ZMod m) := rfl
      rw [hsum, hev _, evalSum_single_poly]
      rw [show (((0 : Nat) : Nat) : ZMod m) = 0 from Nat.cast_zero, zero_add]
      rw [listMapRangeSum]
      rw [Finset.sum_eq_single k ?h0 ?h1]
      · exact hcnd k (List.mem_range.mpr hk)
      case h0 =>
        intro i _ hik
        have hzmem : (0 : ZMod m) ∈ (List.range points.length).map
            (fun j => if i = j then 1
              else (((points.getD k ptZero).x.value : Nat) : ZMod m)
                - ((points.getD j ptZero).x.value : ZMod m)) := by
          have hmem := List.mem_map_of_mem (fun j => if i = j then (1 : ZMod m)
              else (((points.getD k ptZero).x.value : Nat) : ZMod m)
                - ((points.getD j ptZero).x.value : ZMod m))
            (List.mem_range.mpr hk)
          have hval : (if i = k then (1 : ZMod m)
              else (((points.getD k ptZero).x.value : Nat) : ZMod m)
                - ((points.getD k ptZero).x.value : ZMod m)) = 0 := by
            rw [if_neg hik, sub_self]
          beta_reduce at hmem
          rw [hval] at hmem
          exact hmem
        rw [List.prod_eq_zero hzmem, mul_zero]
      case h1 =>
        intro hnk
        exact absurd (Finset.mem_range.mpr hk) hnk
    have hreq : r = (points.getD k ptZero).y := by
      apply FieldElement.eqOf
      · exact val_eq_of_cast_eq hrred hkwf.2.2.2 hrzz
      · rw [hrmod, hkwf.2.2.1]
    rw [hreq] at hevalok
    exact hevalok

theorem FieldElement.expGo_reduced : ∀ (fuel : Nat) (result base : FieldElement)
    (e : Nat) (r : FieldElement), result.value < result.modulus →
    FieldElement.expGo fuel result base e = .ok r → r.value < r.modulus := by
  intro fuel
  induction fuel with
  | zero =>
    intro result base e r hred h
    unfold FieldElement.expGo at h
    injection h with h2
    rw [← h2]
    exact hred
  | succ fuel ih =>
    intro result base e r hred h
    unfold FieldElement.expGo at h
    by_cases he : e = 0
    · rw [if_pos he] at h
      injection h with h2
      rw [← h2]
      exact hred
    · rw [if_neg he] at h
      simp only [] at h
      by_cases hpar : e % 2 = 1
      · rw [if_pos hpar] at h
        obtain ⟨result2, hr2, h3⟩ := exbind_ok.mp h
        obtain ⟨base2, hb2, h4⟩ := exbind_ok.mp h3
        exact ih result2 base2 (e / 2) r (FieldElement.mul_reduced hr2) h4
      · rw [if_neg hpar] at h
        obtain ⟨result2, hr2, h3⟩ := exbind_ok.mp h
        obtain ⟨base2, hb2, h4⟩ := exbind_ok.mp h3
        have hred2 : result2.value < result2.modulus := by
          rw [← expure_ok.mp hr2]
          exact hred
        exact ih result2 base2 (e / 2) r hred2 h4

theorem FieldElement.exp_reduced {a : FieldElement} {e : Nat} {r : FieldElement}
    (hm : 1 < a.modulus) (h : a.exp e = .ok r) : r.value < r.modulus := by
  unfold FieldElement.exp at h
  obtain ⟨r1, hr1, h2⟩ := exbind_ok.mp h
  rcases FieldElement.new_ok_iff.mp hr1 with ⟨hm0, rfl⟩
  exact FieldElement.expGo_reduced _ _ _ _ _ hm h2

theorem coeffZ_zero_of_le {m : Nat} {p : Polynomial} {k : Nat}
    (h : p.coefficients.length ≤ k) : coeffZ m p k = 0 := by
  unfold coeffZ
  rw [valueAt_eq_zero_of_le h]
  exact Nat.cast_zero

theorem targetFold_spec {m : Nat} :
    ∀ (eps : List FieldElement) (target target2 : Polynomial),
      AllMod m target →
      (eps.foldlM (fun target point => do
        let c0 ← FieldElement.new ((m - point.value % m) % m) m
        let c1 ← FieldElement.new 1 m
        let factor ← Polynomial.new [c0, c1]
        target.mul factor) target = .ok target2) →
      AllMod m target2 ∧
      target2.coefficients.length = target.coefficients.length + eps.length ∧
      ((∀ x ∈ target2.coefficients, x.modulus = m ∧ x.value < m) ∨ target2 = target) ∧
      coeffZ m target2 (target2.coefficients.length - 1)
        = coeffZ m target (target.coefficients.length - 1) ∧
      (∀ w : ZMod m, evalSum m target2 w = evalSum m target w *
        (eps.map (fun p => w - (p.value : ZMod m))).prod) := by
  intro eps
  induction eps with
  | nil =>
    intro target target2 hall h
    rw [List.foldlM_nil] at h
    have h2 := expure_ok.mp h
    subst h2
    refine ⟨hall, by simp, Or.inr rfl, rfl, ?_⟩
    intro w
    simp
  | cons p rest ih =>
    intro target target2 hall h
    rw [List.foldlM_cons] at h
    obtain ⟨t1, ht1, h2⟩ := exbind_ok.mp h
    obtain ⟨c0, hc0, ht1b⟩ := exbind_ok.mp ht1
    obtain ⟨c1, hc1, ht1c⟩ := exbind_ok.mp ht1b
    obtain ⟨factor, hfac, hmul⟩ := exbind_ok.mp ht1c
    rcases FieldElement.new_ok_iff.mp hc0 with ⟨hm0, rfl⟩
    rcases FieldElement.new_ok_iff.mp hc1 with ⟨_, rfl⟩
    obtain ⟨_, _, hfstruct⟩ := pnew_ok_iff.mp hfac
    have hfco : factor.coefficients
        = [(⟨(m - p.value % m) % m, m⟩ : FieldElement), ⟨1, m⟩] := by
      rw [hfstruct]
    obtain ⟨_, _, ht1len, ht1wf, ht1conv⟩ := pmul_spec hall.headEq hmul
    have hlenpos : 0 < target.coefficients.length := List.length_pos.mpr hall.1
    have ht1len2 : t1.coefficients.length = target.coefficients.length + 1 := by
      rw [ht1len, hfco]
      simp only [List.length_cons, List.length_nil]
      omega
    have ht1all : AllMod m t1 := by
      refine ⟨?_, fun x hx => (ht1wf x hx).1⟩
      intro hcnil
      have h0 : t1.coefficients.length = 0 := by rw [hcnil]; rfl
      omega
    obtain ⟨hall2, hlen2, hred2, htop2, hev2⟩ := ih t1 target2 ht1all h2
    have htop1 : coeffZ m t1 (t1.coefficients.length - 1)
        = coeffZ m target (target.coefficients.length - 1) := by
      rw [ht1len2, Nat.add_sub_cancel, ht1conv, conv_pair hfco,
        if_pos (by omega : 1 ≤ target.coefficients.length),
        coeffZ_zero_of_le (le_refl target.coefficients.length), zero_mul, zero_add]
      rw [show ((((⟨1, m⟩ : FieldElement)).value : Nat) : ZMod m) = 1 from Nat.cast_one,
        mul_one]
    refine ⟨hall2, by rw [hlen2, ht1len2, List.length_cons]; omega, ?_, ?_, ?_⟩
    · rcases hred2 with hred2 | hred2
      · exact Or.inl hred2
      · exact Or.inl (by rw [hred2]; exact ht1wf)
    · rw [htop2, htop1]
    · intro w
      have hevt1 : evalSum m t1 w = evalSum m target w
          * (w - (p.value : ZMod m)) := by
        rw [evalSum_mul_pair hfco (by omega) ht1conv w]
        rw [show ((((⟨(m - p.value % m) % m, m⟩ : FieldElement)).value : Nat) : ZMod m)
          = (((m - p.value % m) % m : Nat) : ZMod m) from rfl]
        rw [cast_neg_mod hm0]
        rw [show ((((⟨1, m⟩ : FieldElement)).value : Nat) : ZMod m) = 1 from Nat.cast_one]
        ring
      rw [hev2 w, hevt1, List.map_cons, List.prod_cons]
      ring

theorem interpFold_extract {points : List Point} {M : Nat} :
    ∀ (is : List Nat) (acc res : Polynomial),
      acc.coefficients ≠ [] → (acc.coefficients.headD feZero).modulus = M →
      (is.foldlM (fun result i => do
          let pointOuter := points.getD i ptZero
          let one ← FieldElement.new 1 M
          let numerator0 ← Polynomial.new [one]
          let denominator0 ← FieldElement.new 1 M
          let nd ← (List.range points.length).foldlM
            (fun (nd : Polynomial × FieldElement) j =>
              if i = j then pure nd
              else do
                let pointInner := points.getD j ptZero
                let c0 ← FieldElement.new ((M - pointInner.x.value % M) % M) M
                let c1 ← FieldElement.new 1 M
                let numeratorFactor ← Polynomial.new [c0, c1]
                let numerator2 ← nd.1.mul numeratorFactor
                let d ← pointOuter.x.sub pointInner.x
                let denominator2 ← nd.2.mul d
                pure (numerator2, denominator2)) (numerator0, denominator0)
          let denominatorInverse ← nd.2.inv
          let yc ← pointOuter.y.mul denominatorInverse
          let scalarPoly ← Polynomial.new [yc]
          let finalPolynomial ← nd.1.mul scalarPoly
          result.add finalPolynomial) acc = .ok res) →
      ((∀ x ∈ res.coefficients, x.modulus = M ∧ x.value < M) ∨ res = acc) ∧
      res.coefficients ≠ [] ∧ (res.coefficients.headD feZero).modulus = M := by
  intro is
  induction is with
  | nil =>
    intro acc res hne hhead h
    rw [List.foldlM_nil] at h
    have h2 := expure_ok.mp h
    subst h2
    exact ⟨Or.inr rfl, hne, hhead⟩
  | cons i is2 ih =>
    intro acc res hne hhead h
    rw [List.foldlM_cons] at h
    obtain ⟨acc1, h1, h2⟩ := exbind_ok.mp h
    obtain ⟨one, hone, g2⟩ := exbind_ok.mp h1
    obtain ⟨n0, hn0, g3⟩ := exbind_ok.mp g2
    obtain ⟨d0, hd0, g4⟩ := exbind_ok.mp g3
    obtain ⟨nd, hnd, g5⟩ := exbind_ok.mp g4
    obtain ⟨dinv, hdinv, g6⟩ := exbind_ok.mp g5
    obtain ⟨yc, hyc, g7⟩ := exbind_ok.mp g6
    obtain ⟨sp, hsp, g8⟩ := exbind_ok.mp g7
    obtain ⟨fp, hfp, g9⟩ := exbind_ok.mp g8
    obtain ⟨-, -, hlen, hwf, -⟩ := padd_spec hhead g9
    have hpos : 0 < acc.coefficients.length := List.length_pos.mpr hne
    have hne1 : acc1.coefficients ≠ [] := by
      intro hc
      have h0 : acc1.coefficients.length = 0 := by rw [hc]; rfl
      rw [hlen] at h0
      omega
    have hhead1 : (acc1.coefficients.headD feZero).modulus = M :=
      entries_head_modulus hne1 hwf
    obtain ⟨hres, hresne, hreshead⟩ := ih acc1 res hne1 hhead1 h2
    refine ⟨?_, hresne, hreshead⟩
    rcases hres with hres | hres
    · exact Or.inl hres
    · exact Or.inl (by rw [hres]; exact hwf)

theorem interpolate_points_extract {pts : List Point} {res : Polynomial}
    (h : QAP.interpolate_points pts = .ok res) :
    pts ≠ [] ∧ (pts.headD ptZero).x.modulus ≠ 0 ∧
    AllMod ((pts.headD ptZero).x.modulus) res ∧
    (∀ x ∈ res.coefficients, x.value < (pts.headD ptZero).x.modulus) := by
  have hne : pts ≠ [] := by
    intro hc
    subst hc
    unfold QAP.interpolate_points at h
    exact Except.noConfusion h
  have hie : pts.isEmpty = false := by
    cases pts with
    | nil => exact absurd rfl hne
    | cons p ps => rfl
  unfold QAP.interpolate_points at h
  rw [hie, if_neg (by simp)] at h
  simp only [] at h
  obtain ⟨z, hz, h2⟩ := exbind_ok.mp h
  rcases FieldElement.new_ok_iff.mp hz with ⟨hM0, rfl⟩
  obtain ⟨r0, hr0, h3⟩ := exbind_ok.mp h2
  obtain ⟨-, -, hr0s⟩ := pnew_ok_iff.mp hr0
  subst hr0s
  obtain ⟨hres, hresne, hreshead⟩ := interpFold_extract (List.range pts.length)
    ⟨[⟨0, (pts.headD ptZero).x.modulus⟩]⟩ res (by simp) rfl h3
  have hwf : ∀ x ∈ res.coefficients, x.modulus = (pts.headD ptZero).x.modulus
      ∧ x.value < (pts.headD ptZero).x.modulus := by
    rcases hres with hres | hres
    · exact hres
    · rw [hres]
      intro x hx
      rw [List.mem_singleton.mp hx]
      exact ⟨rfl, Nat.pos_of_ne_zero hM0⟩
  exact ⟨hne, hM0, ⟨hresne, fun x hx => (hwf x hx).1⟩, fun x hx => (hwf x hx).2⟩

theorem degree_eq_top {p : Polynomial}
    (h : valueAt p (p.coefficients.length - 1) ≠ 0) :
    p.degree = p.coefficients.length - 1 := by
  have hle : p.degree ≤ p.coefficients.length - 1 := degreeGo_le _ _
  by_contra hne
  exact h (degree_zero_above (by omega))

theorem create_spec {cs : ConstraintSystem} {qap : QAP} {t0 : Term} {m : Nat}
    (hterm : (cs.constraints.headD defaultConstraint).a.terms.head? = some t0)
    (hmod : t0.coefficient.modulus = m)
    (h : QAP.create cs = .ok qap) :
    m ≠ 0 ∧ cs.constraints.length ≠ 0 ∧
    qap.a_polynomials.length = cs.num_variables ∧
    qap.b_polynomials.length = cs.num_variables ∧
    qap.c_polynomials.length = cs.num_variables ∧
    AllMod m qap.target_polynomial ∧
    qap.target_polynomial.coefficients.length = cs.constraints.length + 1 ∧
    (∀ x ∈ qap.target_polynomial.coefficients, x.modulus = m ∧ x.value < m) ∧
    coeffZ m qap.target_polynomial cs.constraints.length = 1 ∧
    (∀ w : ZMod m, evalSum m qap.target_polynomial w
      = ((List.range cs.constraints.length).map
          (fun i => w - ((i + 1 : Nat) : ZMod m))).prod) ∧
    (∀ j, j < cs.num_variables →
      (AllMod m (qap.a_polynomials.getD j ⟨[]⟩)
        ∧ ∀ x ∈ (qap.a_polynomials.getD j ⟨[]⟩).coefficients, x.value < m) ∧
      (AllMod m (qap.b_polynomials.getD j ⟨[]⟩)
        ∧ ∀ x ∈ (qap.b_polynomials.getD j ⟨[]⟩).coefficients, x.value < m) ∧
      (AllMod m (qap.c_polynomials.getD j ⟨[]⟩)
        ∧ ∀ x ∈ (qap.c_polynomials.getD j ⟨[]⟩).coefficients, x.value < m)) := by
  subst hmod
  have hn0 : cs.constraints.length ≠ 0 := by
    intro hc
    have h2 := h
    unfold QAP.create at h2
    simp only [] at h2
    rw [if_pos hc] at h2
    exact Except.noConfusion h2
  unfold QAP.create at h
  simp only [] at h
  rw [if_neg hn0, hterm] at h
  obtain ⟨t, ht, h2⟩ := exbind_ok.mp h
  have htt : t0 = t := expure_ok.mp ht
  subst htt
  obtain ⟨eps, heps, h3⟩ := exbind_ok.mp h2
  have hepi := mapM_range_ok heps
  have hm0 : t0.coefficient.modulus ≠ 0 := by
    obtain ⟨b, hb, _⟩ := hepi.2 0 (by omega)
    exact (FieldElement.new_ok_iff.mp hb).1
  have hepsL : eps = (List.range cs.constraints.length).map
      (fun i => (⟨i + 1, t0.coefficient.modulus⟩ : FieldElement)) := by
    apply List.ext_get?
    intro i
    by_cases hi : i < cs.constraints.length
    · obtain ⟨b, hb, hgb⟩ := hepi.2 i hi
      rcases FieldElement.new_ok_iff.mp hb with ⟨-, rfl⟩
      rw [hgb, List.get?_map, List.get?_range hi]
      rfl
    · rw [List.get?_eq_none.mpr (by rw [hepi.1]; omega),
        List.get?_eq_none.mpr (by rw [List.length_map, List.length_range]; omega)]
  obtain ⟨one, hone, h4⟩ := exbind_ok.mp h3
  rcases FieldElement.new_ok_iff.mp hone with ⟨-, rfl⟩
  obtain ⟨target0, ht0, h5⟩ := exbind_ok.mp h4
  obtain ⟨-, -, h0s⟩ := pnew_ok_iff.mp ht0
  subst h0s
  obtain ⟨tp, htp, h6⟩ := exbind_ok.mp h5
  obtain ⟨htall, htlen, htred, httop, htev⟩ := targetFold_spec eps
    ⟨[⟨1, t0.coefficient.modulus⟩]⟩ tp
    ⟨by simp, by
      intro c hc
      rw [List.mem_singleton.mp hc]⟩ htp
  obtain ⟨polys, hpolys, h7⟩ := exbind_ok.mp h6
  have hqs := expure_ok.mp h7
  subst hqs
  have hple := (mapM_range_ok hpolys).1
  have htplen : tp.coefficients.length = cs.constraints.length + 1 := by
    rw [htlen, hepi.1]
    simp only [List.length_cons, List.length_nil]
    omega
  have htpred : ∀ x ∈ tp.coefficients, x.modulus = t0.coefficient.modulus
      ∧ x.value < t0.coefficient.modulus := by
    rcases htred with htred | htred
    · exact htred
    · exfalso
      rw [htred] at htplen
      simp only [List.length_cons, List.length_nil] at htplen
      omega
  have hnum := mapM_range_ok hpolys
  have hn0lt : 0 < cs.constraints.length := Nat.pos_of_ne_zero hn0
  have hr0 : eps.getD 0 feZero
      = (⟨0 + 1, t0.coefficient.modulus⟩ : FieldElement) := by
    rw [hepsL, List.getD_eq_get?, List.get?_map, List.get?_range hn0lt]
    rfl
  have hfam : ∀ j, j < cs.num_variables →
      (AllMod t0.coefficient.modulus ((polys.map
          (fun t : Polynomial × Polynomial × Polynomial => t.1)).getD j ⟨[]⟩)
        ∧ ∀ x ∈ ((polys.map
            (fun t : Polynomial × Polynomial × Polynomial => t.1)).getD
              j ⟨[]⟩).coefficients,
            x.value < t0.coefficient.modulus) ∧
      (AllMod t0.coefficient.modulus ((polys.map
          (fun t : Polynomial × Polynomial × Polynomial => t.2.1)).getD j ⟨[]⟩)
        ∧ ∀ x ∈ ((polys.map
            (fun t : Polynomial × Polynomial × Polynomial => t.2.1)).getD
              j ⟨[]⟩).coefficients,
            x.value < t0.coefficient.modulus) ∧
      (AllMod t0.coefficient.modulus ((polys.map
          (fun t : Polynomial × Polynomial × Polynomial => t.2.2)).getD j ⟨[]⟩)
        ∧ ∀ x ∈ ((polys.map
            (fun t : Polynomial × Polynomial × Polynomial => t.2.2)).getD
              j ⟨[]⟩).coefficients,
            x.value < t0.coefficient.modulus) := by
    intro j hj
    obtain ⟨tj, htj, hgtj⟩ := hnum.2 j hj
    obtain ⟨ptsj, hptsj, k2⟩ := exbind_ok.mp htj
    obtain ⟨aj, haj, k3⟩ := exbind_ok.mp k2
    obtain ⟨bj, hbj, k4⟩ := exbind_ok.mp k3
    obtain ⟨cj, hcj, k5⟩ := exbind_ok.mp k4
    have ktj := expure_ok.mp k5
    subst ktj
    have hpts := mapM_range_ok hptsj
    obtain ⟨b0, hb0, hg0⟩ := hpts.2 0 hn0lt
    obtain ⟨ac, hac, l2⟩ := exbind_ok.mp hb0
    obtain ⟨bc, hbc, l3⟩ := exbind_ok.mp l2
    obtain ⟨cc, hcc, l4⟩ := exbind_ok.mp l3
    have hb0v := expure_ok.mp l4
    subst hb0v
    cases hpl : ptsj with
    | nil =>
      rw [hpl] at hg0
      exact absurd hg0 (by simp)
    | cons hd tl =>
      rw [hpl] at hg0 haj hbj hcj
      have hhd : hd = (Point.mk (eps.getD 0 feZero) ac,
          Point.mk (eps.getD 0 feZero) bc, Point.mk (eps.getD 0 feZero) cc) := by
        have : some hd = some (Point.mk (eps.getD 0 feZero) ac,
            Point.mk (eps.getD 0 feZero) bc, Point.mk (eps.getD 0 feZero) cc) := hg0
        injection this
      have hga : (polys.map
          (fun t : Polynomial × Polynomial × Polynomial => t.1)).getD j ⟨[]⟩
          = aj := by
        rw [List.getD_eq_get?, List.get?_map, hgtj]
        rfl
      have hgb : (polys.map
          (fun t : Polynomial × Polynomial × Polynomial => t.2.1)).getD j ⟨[]⟩
          = bj := by
        rw [List.getD_eq_get?, List.get?_map, hgtj]
        rfl
      have hgc : (polys.map
          (fun t : Polynomial × Polynomial × Polynomial => t.2.2)).getD j ⟨[]⟩
          = cj := by
        rw [List.getD_eq_get?, List.get?_map, hgtj]
        rfl
      have hexa := interpolate_points_extract haj
      have hexb := interpolate_points_extract hbj
      have hexc := interpolate_points_extract hcj
      have hhma : (((hd :: tl).map (fun t => t.1)).headD ptZero).x.modulus
          = t0.coefficient.modulus := by
        rw [List.map_cons]
        show (hd.1).x.modulus = _
        rw [hhd]
        show (eps.getD 0 feZero).modulus = _
        rw [hr0]
      have hhmb : (((hd :: tl).map (fun t => t.2.1)).headD ptZero).x.modulus
          = t0.coefficient.modulus := by
        rw [List.map_cons]
        show (hd.2.1).x.modulus = _
        rw [hhd]
        show (eps.getD 0 feZero).modulus = _
        rw [hr0]
      have hhmc : (((hd :: tl).map (fun t => t.2.2)).headD ptZero).x.modulus
          = t0.coefficient.modulus := by
        rw [List.map_cons]
        show (hd.2.2).x.modulus = _
        rw [hhd]
        show (eps.getD 0 feZero).modulus = _
        rw [hr0]
      rw [hhma] at hexa
      rw [hhmb] at hexb
      rw [hhmc] at hexc
      rw [hga, hgb, hgc]
      exact ⟨⟨hexa.2.2.1, hexa.2.2.2⟩, ⟨hexb.2.2.1, hexb.2.2.2⟩,
        ⟨hexc.2.2.1, hexc.2.2.2⟩⟩
  refine ⟨hm0, hn0, ?_, ?_, ?_, htall, htplen, htpred, ?_, ?_, hfam⟩
  · show (polys.map _).length = _
    rw [List.length_map, hple]
  · show (polys.map _).length = _
    rw [List.length_map, hple]
  · show (polys.map _).length = _
    rw [List.length_map, hple]
  · show coeffZ _ tp _ = 1
    have h1 : tp.coefficients.length - 1 = cs.constraints.length := by omega
    rw [← h1, httop]
    show coeffZ t0.coefficient.modulus ⟨[⟨1, t0.coefficient.modulus⟩]⟩ 0 = 1
    rw [coeffZ_single rfl 0, if_pos rfl]
    show (((1 : Nat) : Nat) : ZMod t0.coefficient.modulus) = 1
    exact Nat.cast_one
  · intro w
    show evalSum _ tp w = _
    rw [htev w, evalSum_single_poly]
    rw [show (((1 : Nat) : Nat) : ZMod t0.coefficient.modulus) = 1 from Nat.cast_one,
      one_mul, hepsL, List.map_map]
    exact congrArg List.prod (List.map_congr_left (fun i _ => rfl))

theorem panicRepr {α : Type} (x : PanicM α) : x = ExceptT.mk x.run := rfl

theorem panic_cases {α : Type} (x : PanicM α) :
    (∃ a, x = pok a) ∨ (∃ e, x = perr e) ∨ x = pnone := by
  cases hx : x.run with
  | none =>
    right
    right
    rw [panicRepr x, hx]
    rfl
  | some v =>
    cases v with
    | ok a =>
      left
      refine ⟨a, ?_⟩
      rw [panicRepr x, hx]
      rfl
    | error e =>
      right
      left
      refine ⟨e, ?_⟩
      rw [panicRepr x, hx]
      rfl

theorem pok_bind {α β : Type} (a : α) (f : α → PanicM β) : (pok a >>= f) = f a := rfl

theorem perr_bind {α β : Type} (e : ZKError) (f : α → PanicM β) :
    ((perr e : PanicM α) >>= f) = perr e := rfl

theorem pnone_bind {α β : Type} (f : α → PanicM β) :
    ((pnone : PanicM α) >>= f) = pnone := rfl

theorem ppure {α : Type} (a : α) : (pure a : PanicM α) = pok a := rfl

theorem pok_ne_pnone {α : Type} (a : α) : pok a ≠ pnone := by
  intro h
  have h2 : (some (Except.ok a) : Option (Except ZKError α)) = none :=
    congrArg ExceptT.run h
  exact Option.noConfusion h2

theorem pnone_ne_pok {α : Type} (a : α) : (pnone : PanicM α) ≠ pok a := by
  intro h
  exact pok_ne_pnone a h.symm

theorem perr_ne_pnone {α : Type} (e : ZKError) : (perr e : PanicM α) ≠ pnone := by
  intro h
  have h2 : (some (Except.error e) : Option (Except ZKError α)) = none :=
    congrArg ExceptT.run h
  exact Option.noConfusion h2

theorem perr_ne_pok {α : Type} (e : ZKError) (a : α) : perr e ≠ pok a := by
  intro h
  have h2 : (some (Except.error e) : Option (Except ZKError α)) = some (.ok a) :=
    congrArg ExceptT.run h
  injection h2 with h3
  exact Except.noConfusion h3

theorem pok_inj {α : Type} {a b : α} (h : pok a = pok b) : a = b := by
  have h2 : (some (Except.ok a) : Option (Except ZKError α)) = some (.ok b) :=
    congrArg ExceptT.run h
  injection h2 with h3
  injection h3

theorem perr_inj {α : Type} {e1 e2 : ZKError} (h : (perr e1 : PanicM α) = perr e2) :
    e1 = e2 := by
  have h2 : (some (Except.error e1) : Option (Except ZKError α)) = some (.error e2) :=
    congrArg ExceptT.run h
  injection h2 with h3
  injection h3

theorem pbind_ok {α β : Type} {x : PanicM α} {f : α → PanicM β} {r : β} :
    x >>= f = pok r ↔ ∃ a, x = pok a ∧ f a = pok r := by
  constructor
  · intro h
    rcases panic_cases x with ⟨a, hx⟩ | ⟨e, hx⟩ | hx
    · rw [hx, pok_bind] at h
      exact ⟨a, hx, h⟩
    · rw [hx, perr_bind] at h
      exact absurd h (perr_ne_pok e r)
    · rw [hx, pnone_bind] at h
      exact absurd h (pnone_ne_pok r)
  · rintro ⟨a, hx, hf⟩
    rw [hx, pok_bind]
    exact hf

theorem pbind_none {α β : Type} {x : PanicM α} {f : α → PanicM β} :
    x >>= f = pnone ↔ x = pnone ∨ ∃ a, x = pok a ∧ f a = pnone := by
  constructor
  · intro h
    rcases panic_cases x with ⟨a, hx⟩ | ⟨e, hx⟩ | hx
    · rw [hx, pok_bind] at h
      exact Or.inr ⟨a, hx, h⟩
    · rw [hx, perr_bind] at h
      exact absurd h (perr_ne_pnone e)
    · exact Or.inl hx
  · intro h
    rcases h with h | ⟨a, hx, hf⟩
    · rw [h, pnone_bind]
    · rw [hx, pok_bind]
      exact hf

theorem pbind_ne_none {α β : Type} {x : PanicM α} {f : α → PanicM β}
    (hx : x ≠ pnone) (hf : ∀ a, f a ≠ pnone) : x >>= f ≠ pnone := by
  intro h
  rcases pbind_none.mp h with h | ⟨a, _, hfa⟩
  · exact hx h
  · exact hf a hfa

theorem pbind_eq {α β : Type} {x : PanicM α} {a : α} (h : x = pok a)
    (f : α → PanicM β) : x >>= f = f a := by
  rw [h, pok_bind]

theorem liftZK_ok {α : Type} (a : α) : liftZK (.ok a) = pok a := rfl

theorem liftZK_err {α : Type} (e : ZKError) : (liftZK (.error e) : PanicM α) = perr e := rfl

theorem liftZK_ne_pnone {α : Type} (x : Except ZKError α) : liftZK x ≠ pnone := by
  cases x with
  | ok a =>
    rw [liftZK_ok]
    exact pok_ne_pnone a
  | error e =>
    rw [liftZK_err]
    exact perr_ne_pnone e

theorem liftPanic_some {α : Type} (a : α) : liftPanic (some a) = pok a := rfl

theorem liftPanic_none {α : Type} : (liftPanic none : PanicM α) = pnone := rfl

theorem aggregateFold_ok {qap : QAP} {witness : List FieldElement}
    {selector : QAP → Nat → Option Polynomial} {m : Nat} (hm : m ≠ 0) :
    ∀ (js : List Nat) (sum : Polynomial),
      AllMod m sum →
      (∀ j ∈ js, (witness.getD j feZero).modulus = m) →
      (∀ j ∈ js, ∃ p, selector qap j = some p ∧ AllMod m p) →
      ∃ A, (js.foldlM (fun sum j => do
          let polyJ ← liftPanic (selector qap j)
          let scaled ← liftZK (polyJ.scale (witness.getD j feZero))
          liftZK (sum.add scaled)) sum = pok A) ∧
        AllMod m A ∧
        (∀ k, coeffZ m A k = coeffZ m sum k
          + (js.map (fun j => ((witness.getD j feZero).value : ZMod m)
              * coeffZ m ((selector qap j).getD ⟨[]⟩) k)).sum) := by
  intro js
  induction js with
  | nil =>
    intro sum hall _ _
    refine ⟨sum, ?_, hall, ?_⟩
    · rw [List.foldlM_nil, ppure]
    · intro k
      simp
  | cons j js2 ih =>
    intro sum hall hwm hsel
    obtain ⟨pj, hpj, hpjall⟩ := hsel j (List.mem_cons_self j js2)
    have hwmj := hwm j (List.mem_cons_self j js2)
    obtain ⟨scaled, hscaled, hslen, hswf, hsval⟩ := pscale_ok hpjall hwmj hm
    have hsall : AllMod m scaled := by
      refine ⟨?_, fun x hx => (hswf x hx).1⟩
      intro hc
      have h0 : scaled.coefficients.length = 0 := by rw [hc]; rfl
      rw [hslen] at h0
      exact hpjall.1 (List.length_eq_zero.mp h0)
    obtain ⟨sum2, hsum2⟩ := padd_ok hall hsall hm
    obtain ⟨-, -, halen, hawf, havals⟩ := padd_spec hall.headEq hsum2
    have ha2all : AllMod m sum2 := by
      refine ⟨?_, fun x hx => (hawf x hx).1⟩
      intro hc
      have h0 : sum2.coefficients.length = 0 := by rw [hc]; rfl
      rw [halen, Nat.max_eq_zero_iff] at h0
      exact hall.1 (List.length_eq_zero.mp h0.1)
    obtain ⟨A, hfold, hAall, hAk⟩ := ih sum2 ha2all
      (fun t ht => hwm t (List.mem_cons_of_mem j ht))
      (fun t ht => hsel t (List.mem_cons_of_mem j ht))
    have h1 : liftPanic (selector qap j) = pok pj := by
      rw [hpj, liftPanic_some]
    have h2 : liftZK (pj.scale (witness.getD j feZero)) = pok scaled := by
      rw [hscaled, liftZK_ok]
    have h3 : liftZK (sum.add scaled) = pok sum2 := by
      rw [hsum2, liftZK_ok]
    refine ⟨A, ?_, hAall, ?_⟩
    · rw [List.foldlM_cons]
      have hstep : (do
          let polyJ ← liftPanic (selector qap j)
          let scaled ← liftZK (polyJ.scale (witness.getD j feZero))
          liftZK (sum.add scaled) : PanicM Polynomial) = pok sum2 :=
        (pbind_eq h1 _).trans ((pbind_eq h2 _).trans h3)
      exact (pbind_eq hstep _).trans hfold
    · intro k
      rw [hAk k]
      have hstepk : coeffZ m sum2 k = coeffZ m sum k
          + ((witness.getD j feZero).value : ZMod m)
            * coeffZ m ((selector qap j).getD ⟨[]⟩) k := by
        unfold coeffZ
        rw [havals k, ZMod.natCast_mod, Nat.cast_add, hpj]
        show _ + (valueAt scaled k : ZMod m)
          = _ + ((witness.getD j feZero).value : ZMod m) * (valueAt pj k : ZMod m)
        rw [hsval k]
        ring
      rw [hstepk, List.map_cons, List.sum_cons]
      ring

theorem aggregate_ok {qap : QAP} {witness : List FieldElement}
    {selector : QAP → Nat → Option Polynomial} {m : Nat}
    (hw : ∀ x ∈ witness, x.modulus = m) (hne : witness ≠ []) (hm : m ≠ 0)
    (hsel : ∀ j, j < witness.length → ∃ p, selector qap j = some p ∧ AllMod m p) :
    ∃ A, qap.aggregate_polynomials witness selector = pok A ∧ AllMod m A ∧
      ∀ k, coeffZ m A k = ∑ j ∈ Finset.range witness.length,
        ((witness.getD j feZero).value : ZMod m)
          * coeffZ m ((selector qap j).getD ⟨[]⟩) k := by
  cases witness with
  | nil => exact absurd rfl hne
  | cons w ws =>
    have hwm : w.modulus = m := hw w (List.mem_cons_self w ws)
    have hz : FieldElement.new 0 w.modulus = .ok ⟨0, w.modulus⟩ :=
      FieldElement.new_ok_iff.mpr ⟨by rw [hwm]; exact hm, rfl⟩
    have hp0 : Polynomial.new [(⟨0, w.modulus⟩ : FieldElement)]
        = .ok ⟨[⟨0, w.modulus⟩]⟩ := by
      refine pnew_ok_iff.mpr ⟨by simp, ?_, rfl⟩
      intro x hx
      rw [List.mem_singleton.mp hx]
      rfl
    have hs0all : AllMod m ⟨[(⟨0, w.modulus⟩ : FieldElement)]⟩ := by
      refine ⟨by simp, ?_⟩
      intro c hc
      rw [List.mem_singleton.mp hc]
      exact hwm
    obtain ⟨A, hfold, hAall, hAk⟩ := aggregateFold_ok hm
      (List.range (w :: ws).length) ⟨[⟨0, w.modulus⟩]⟩ hs0all
      (fun t ht => by
        have hlt := List.mem_range.mp ht
        rw [List.getD_eq_get?, List.get?_eq_get hlt]
        exact hw _ (List.get_mem _ _ _))
      (fun t ht => hsel t (List.mem_range.mp ht))
    have hsum0Z : ∀ k, coeffZ m (⟨[(⟨0, w.modulus⟩ : FieldElement)]⟩ : Polynomial) k
        = 0 := by
      intro k
      rw [coeffZ_single rfl k]
      by_cases hk : k = 0
      · rw [if_pos hk]
        exact Nat.cast_zero
      · rw [if_neg hk]
    have h1 : liftPanic ((w :: ws).head?) = pok w := by
      rw [show (w :: ws).head? = some w from rfl, liftPanic_some]
    have h2 : liftZK (FieldElement.new 0 w.modulus) = pok ⟨0, w.modulus⟩ := by
      rw [hz, liftZK_ok]
    have h3 : liftZK (Polynomial.new [(⟨0, w.modulus⟩ : FieldElement)])
        = pok ⟨[⟨0, w.modulus⟩]⟩ := by
      rw [hp0, liftZK_ok]
    refine ⟨A, ?_, hAall, ?_⟩
    · show QAP.aggregate_polynomials qap (w :: ws) selector = pok A
      unfold QAP.aggregate_polynomials
      exact (pbind_eq h1 _).trans ((pbind_eq h2 _).trans
        ((pbind_eq h3 _).trans hfold))
    · intro k
      rw [hAk k, hsum0Z k, zero_add, listMapRangeSum]

theorem aggregateFold_ne_none {qap : QAP} {witness : List FieldElement}
    {selector : QAP → Nat → Option Polynomial} :
    ∀ (js : List Nat) (sum : Polynomial),
      (∀ j ∈ js, selector qap j ≠ none) →
      (js.foldlM (fun sum j => do
          let polyJ ← liftPanic (selector qap j)
          let scaled ← liftZK (polyJ.scale (witness.getD j feZero))
          liftZK (sum.add scaled)) sum) ≠ pnone := by
  intro js
  induction js with
  | nil =>
    intro sum _
    rw [List.foldlM_nil, ppure]
    exact pok_ne_pnone sum
  | cons j js2 ih =>
    intro sum hsel
    rw [List.foldlM_cons]
    apply pbind_ne_none
    · cases hpj : selector qap j with
      | none => exact absurd hpj (hsel j (List.mem_cons_self j js2))
      | some pj =>
        rw [pbind_eq (liftPanic_some pj)]
        apply pbind_ne_none (liftZK_ne_pnone _)
        intro s
        exact liftZK_ne_pnone _
    · intro a
      exact ih a (fun t ht => hsel t (List.mem_cons_of_mem j ht))

theorem aggregate_ne_none {qap : QAP} {witness : List FieldElement}
    {selector : QAP → Nat → Option Polynomial}
    (hne : witness ≠ [])
    (hsel : ∀ j, j < witness.length → selector qap j ≠ none) :
    qap.aggregate_polynomials witness selector ≠ pnone := by
  cases witness with
  | nil => exact absurd rfl hne
  | cons w ws =>
    show QAP.aggregate_polynomials qap (w :: ws) selector ≠ pnone
    unfold QAP.aggregate_polynomials
    have h1 : liftPanic ((w :: ws).head?) = pok w := by
      rw [show (w :: ws).head? = some w from rfl, liftPanic_some]
    rw [pbind_eq h1]
    apply pbind_ne_none (liftZK_ne_pnone _)
    intro z
    apply pbind_ne_none (liftZK_ne_pnone _)
    intro s0
    exact aggregateFold_ne_none _ s0 (fun t ht => hsel t (List.mem_range.mp ht))

theorem evalFrom_ok {witness : List FieldElement} :
    ∀ (cons : List R1CSConstraint) (i : Nat) (b : Bool),
      evaluateConstraintsFrom witness cons i = .ok b →
      b = true ∧ ∀ c ∈ cons, ConstraintHolds witness c := by
  intro cons
  induction cons with
  | nil =>
    intro i b h
    unfold evaluateConstraintsFrom at h
    injection h with h2
    exact ⟨h2.symm, fun c hc => absurd hc (List.not_mem_nil c)⟩
  | cons c rest ih =>
    intro i b h
    unfold evaluateConstraintsFrom at h
    obtain ⟨av, hav, h2⟩ := exbind_ok.mp h
    obtain ⟨bv, hbv, h3⟩ := exbind_ok.mp h2
    obtain ⟨cv, hcv, h4⟩ := exbind_ok.mp h3
    obtain ⟨pv, hpv, h5⟩ := exbind_ok.mp h4
    by_cases hne : pv ≠ cv
    · rw [if_pos hne] at h5
      exact Except.noConfusion h5
    · rw [if_neg hne] at h5
      push_neg at hne
      obtain ⟨hb, hrest⟩ := ih (i + 1) b h5
      refine ⟨hb, ?_⟩
      intro c2 hc2
      rcases List.mem_cons.mp hc2 with hc2 | hc2
      · rw [hc2]
        exact ⟨av, bv, cv, pv, hav, hbv, hcv, hpv, hne⟩
      · exact hrest c2 hc2

theorem evalFrom_err {witness : List FieldElement} {viol : R1CSConstraint}
    {av bv cv pv : FieldElement}
    (hav : viol.a.evaluate witness = .ok av)
    (hbv : viol.b.evaluate witness = .ok bv)
    (hcv : viol.c.evaluate witness = .ok cv)
    (hpv : av.mul bv = .ok pv) (hne : pv ≠ cv) :
    ∀ (pre : List R1CSConstraint) (post : List R1CSConstraint) (i : Nat),
      (∀ c ∈ pre, ConstraintHolds witness c) →
      evaluateConstraintsFrom witness (pre ++ viol :: post) i
        = .error (.CircuitError (constraintErrMsg (i + pre.length) av bv cv)) := by
  intro pre
  induction pre with
  | nil =>
    intro post i _
    rw [List.nil_append]
    unfold evaluateConstraintsFrom
    rw [exbind_eq hav _, exbind_eq hbv _, exbind_eq hcv _, exbind_eq hpv _,
      if_pos hne]
    rfl
  | cons p pre2 ih =>
    intro post i hpre
    obtain ⟨av2, bv2, cv2, pv2, hav2, hbv2, hcv2, hpv2, heq2⟩ :=
      hpre p (List.mem_cons_self p pre2)
    rw [List.cons_append]
    unfold evaluateConstraintsFrom
    rw [exbind_eq hav2 _, exbind_eq hbv2 _, exbind_eq hcv2 _, exbind_eq hpv2 _,
      if_neg (fun hc => hc heq2)]
    have hlen : i + 1 + pre2.length = i + (p :: pre2).length := by
      rw [List.length_cons]
      omega
    rw [← hlen]
    exact ih post (i + 1) (fun c2 hc2 => hpre c2 (List.mem_cons_of_mem p hc2))

theorem lookup_total {lc : LinearCombination} {i : Nat} {m : Nat} (hm : m ≠ 0)
    (hnd : (lc.terms.map Term.index).Nodup) :
    ∃ c, lookupCoefficient lc i m = .ok c ∧
      (c.value : ZMod m) = ((lc.terms.filter (fun t => t.index = i)).map
        (fun t => (t.coefficient.value : ZMod m))).sum := by
  have hz : FieldElement.new 0 m = .ok ⟨0, m⟩ := FieldElement.new_ok_iff.mpr ⟨hm, rfl⟩
  have hlook : lookupCoefficient lc i m
      = .ok (((lc.terms.find? (fun term => term.index = i)).map
          (fun term => term.coefficient)).getD ⟨0, m⟩) := by
    unfold lookupCoefficient
    rw [exbind_eq hz _]
    rfl
  refine ⟨_, hlook, ?_⟩
  cases hf : lc.terms.find? (fun term => term.index = i) with
  | none =>
    have hfil : lc.terms.filter (fun t => t.index = i) = [] := by
      rw [List.filter_eq_nil]
      intro t ht
      exact List.find?_eq_none.mp hf t ht
    rw [hfil]
    show (((0 : Nat) : Nat) : ZMod m) = ([] : List (ZMod m)).sum
    rw [List.sum_nil]
    exact Nat.cast_zero
  | some t =>
    have htmem : t ∈ lc.terms := List.mem_of_find?_eq_some hf
    have htidx : t.index = i := by
      have := List.find?_some hf
      simpa using this
    have hinj := List.inj_on_of_nodup_map hnd
    have hall : ∀ x ∈ lc.terms.filter (fun t2 => t2.index = i), x = t := by
      intro x hx
      have hxm := List.mem_of_mem_filter hx
      have hxi : x.index = i := by
        have := List.of_mem_filter hx
        simpa using this
      exact hinj hxm htmem (by
        show x.index = t.index
        rw [hxi, htidx])
    have htfil : t ∈ lc.terms.filter (fun t2 => t2.index = i) :=
      List.mem_filter.mpr ⟨htmem, by simpa using htidx⟩
    have hndf : (lc.terms.filter (fun t2 => t2.index = i)).Nodup :=
      (List.Nodup.of_map Term.index hnd).filter _
    have hfil : lc.terms.filter (fun t2 => t2.index = i) = [t] := by
      cases hl : lc.terms.filter (fun t2 => t2.index = i) with
      | nil =>
        rw [hl] at htfil
        exact absurd htfil (List.not_mem_nil t)
      | cons x xs =>
        rw [hl] at hall htfil hndf
        have hx : x = t := hall x (List.mem_cons_self x xs)
        cases hxs : xs with
        | nil =>
          rw [hx]
        | cons y ys =>
          rw [hxs] at hall hndf
          have hy : y = t := hall y (by
            exact List.mem_cons_of_mem x (List.mem_cons_self y ys))
          exfalso
          have hxny := (List.nodup_cons.mp hndf).1
          exact hxny (by
            rw [hx, ← hy]
            exact List.mem_cons_self y ys)
    rw [hfil]
    show (t.coefficient.value : ZMod m) = _
    rw [List.map_cons, List.map_nil, List.sum_cons, List.sum_nil, add_zero]

theorem exerr_bind {α β : Type} (e : ZKError) (f : α → Except ZKError β) :
    (Except.error e : Except ZKError α) >>= f = .error e := rfl

theorem divLoop_err {other : Polynomial} {modulus : Nat} (fuel : Nat)
    (rem : Polynomial) (quot : List FieldElement)
    (hcond : other.degree ≤ rem.degree ∧ 0 < rem.coefficients.length ∧
      (rem.coefficients.getD rem.degree feZero).value ≠ 0)
    (hv63 : (other.coefficients.getD other.degree feZero).value < 2 ^ 63)
    (hms63 : (other.coefficients.getD other.degree feZero).modulus < 2 ^ 63)
    (hgcd : Nat.gcd ((other.coefficients.getD other.degree feZero).value)
      ((other.coefficients.getD other.degree feZero).modulus) ≠ 1) :
    divLoop other modulus (fuel + 1) rem quot
      = .error (.InvalidFieldElement msgNoInverse) := by
  unfold divLoop
  rw [if_pos hcond]
  simp only []
  rw [FieldElement.inv_err_of_gcd_ne hv63 hms63 hgcd, exerr_bind]

/-- C6: Every FieldElement produced by a successful add, sub or mul has a
value reduced into [0, modulus); inv guarantees this only when the operand's
value and modulus are below 2^63 (see the counterexample at modulus 2^63: the
source reinterprets both as i64 before running the extended Euclid); exp
guarantees it only when the modulus exceeds 1 (see the counterexample at
modulus 1); and new stores its argument without any reduction. -/
theorem claim6_reduced :
    (∀ a b r : FieldElement, a.add b = .ok r → r.value < r.modulus) ∧
    (∀ a b r : FieldElement, a.sub b = .ok r → r.value < r.modulus) ∧
    (∀ a b r : FieldElement, a.mul b = .ok r → r.value < r.modulus) ∧
    (∀ a r : FieldElement, a.value < 2 ^ 63 → a.modulus < 2 ^ 63 →
      a.inv = .ok r → r.value < r.modulus) ∧
    (∀ (a r : FieldElement) (e : Nat), 1 < a.modulus → a.exp e = .ok r →
      r.value < r.modulus) ∧
    (∀ v m : Nat, m ≠ 0 → FieldElement.new v m = .ok ⟨v, m⟩) := by
  refine ⟨fun a b r h => FieldElement.add_reduced h,
    fun a b r h => FieldElement.sub_reduced h,
    fun a b r h => FieldElement.mul_reduced h,
    fun a r hv hms h => ?_,
    fun a r e h1 h2 => FieldElement.exp_reduced h1 h2,
    fun v m hm => FieldElement.new_ok_iff.mpr ⟨hm, rfl⟩⟩
  obtain ⟨-, -, hrm, hrv, -⟩ := FieldElement.inv_ok hv hms h
  rw [hrm]
  exact hrv

/-- C6 counterexample: at modulus 1, exp with exponent 0 returns the field
element with value 1 and modulus 1, whose value is not below its modulus; and
at modulus 2^63 the i64 reinterpretation inside inv turns the modulus negative,
so inv of value 1 succeeds with the unreduced value 2^63 + 1.  The claim
therefore fails without restricting the modulus. -/
theorem claim6_counterexample :
    (FieldElement.exp ⟨0, 1⟩ 0 = .ok ⟨1, 1⟩ ∧
      ¬((⟨1, 1⟩ : FieldElement).value < (⟨1, 1⟩ : FieldElement).modulus)) ∧
    (FieldElement.inv ⟨1, 2 ^ 63⟩ = .ok ⟨2 ^ 63 + 1, 2 ^ 63⟩ ∧
      ¬((⟨2 ^ 63 + 1, 2 ^ 63⟩ : FieldElement).value
        < (⟨2 ^ 63 + 1, 2 ^ 63⟩ : FieldElement).modulus)) :=
  ⟨⟨rfl, by decide⟩, ⟨rfl, by decide⟩⟩

/-- C6 witness: exp of 5^3 over modulus 7 yields the reduced value 6, inv of 3
over modulus 7 yields the reduced value 5, and new stores the unreduced value 9
at modulus 7. -/
theorem claim6_witness :
    ((⟨6, 7⟩ : FieldElement).value < (⟨6, 7⟩ : FieldElement).modulus) ∧
      ((⟨5, 7⟩ : FieldElement).value < (⟨5, 7⟩ : FieldElement).modulus) ∧
      FieldElement.new 9 7 = .ok ⟨9, 7⟩ :=
  ⟨claim6_reduced.2.2.2.2.1 ⟨5, 7⟩ ⟨6, 7⟩ 3 (by decide) rfl,
    claim6_reduced.2.2.2.1 ⟨3, 7⟩ ⟨5, 7⟩ (by decide) (by decide) rfl,
    claim6_reduced.2.2.2.2.2 9 7 (by decide)⟩

/-- C7: Polynomial::new on the empty coefficient list fails as the
specification says, but the error it returns is a CircuitError, not an error of
kind PolynomialError. -/
theorem claim7_empty_new :
    Polynomial.new [] = .error (.CircuitError msgPolyEmpty) ∧
    (∀ s : String, (Polynomial.new [] = .error (.PolynomialError s)) = False) := by
  refine ⟨rfl, ?_⟩
  intro s
  apply eq_false
  intro h
  have h2 : (Except.error (ZKError.CircuitError msgPolyEmpty)
      : Except ZKError Polynomial) = .error (.PolynomialError s) := h
  injection h2 with h3
  exact ZKError.noConfusion h3

/-- C7 witness: the empty-list failure is in particular not the PolynomialError
carrying the documented message. -/
theorem claim7_witness :
    (Polynomial.new [] = .error (.PolynomialError msgPolyEmpty)) = False :=
  claim7_empty_new.2 msgPolyEmpty

/-- C8: When the divisor's leading coefficient - with value and modulus below
2^63, so that the i64 reinterpretation inside inv is the identity - has no
modular inverse and the division loop actually runs (the dividend reaches the
divisor's degree with a non-zero leading value), div fails - but with the
InvalidFieldElement error propagated from inv, not with a PolynomialError. -/
theorem claim8_div_error {p q : Polynomial}
    (hmeq : (p.coefficients.headD feZero).modulus
      = (q.coefficients.headD feZero).modulus)
    (hmz : (p.coefficients.headD feZero).modulus ≠ 0)
    (hcond : q.degree ≤ p.degree ∧ 0 < p.coefficients.length ∧
      (p.coefficients.getD p.degree feZero).value ≠ 0)
    (hv63 : (q.coefficients.getD q.degree feZero).value < 2 ^ 63)
    (hms63 : (q.coefficients.getD q.degree feZero).modulus < 2 ^ 63)
    (hgcd : Nat.gcd ((q.coefficients.getD q.degree feZero).value)
      ((q.coefficients.getD q.degree feZero).modulus) ≠ 1) :
    p.div q = .error (.InvalidFieldElement msgNoInverse) := by
  unfold Polynomial.div
  simp only []
  rw [if_neg (fun hc => hc hmeq)]
  have hz : FieldElement.new 0 (p.coefficients.headD feZero).modulus
      = .ok ⟨0, (p.coefficients.headD feZero).modulus⟩ :=
    FieldElement.new_ok_iff.mpr ⟨hmz, rfl⟩
  rw [exbind_eq hz _]
  beta_reduce
  rw [divLoop_err p.degree p _ hcond hv63 hms63 hgcd, exerr_bind]

/-- C8 counterexample: dividing [1] by [2] over modulus 4 enters the loop, the
leading coefficient 2 has no inverse modulo 4, and the resulting error is an
InvalidFieldElement, not a PolynomialError of any message. -/
theorem claim8_counterexample :
    (⟨[⟨1, 4⟩]⟩ : Polynomial).div ⟨[⟨2, 4⟩]⟩
      = .error (.InvalidFieldElement msgNoInverse) ∧
    (∀ s : String, ((⟨[⟨1, 4⟩]⟩ : Polynomial).div ⟨[⟨2, 4⟩]⟩
      = .error (.PolynomialError s)) = False) := by
  refine ⟨rfl, ?_⟩
  intro s
  apply eq_false
  intro h
  have h2 : (Except.error (ZKError.InvalidFieldElement msgNoInverse)
      : Except ZKError (Polynomial × Polynomial)) = .error (.PolynomialError s) := h
  injection h2 with h3
  exact ZKError.noConfusion h3

/-- C8 witness: dividing x + 1 by 2x over modulus 4 fails with the propagated
InvalidFieldElement error. -/
theorem claim8_witness :
    (⟨[⟨1, 4⟩, ⟨1, 4⟩]⟩ : Polynomial).div ⟨[⟨0, 4⟩, ⟨2, 4⟩]⟩
      = .error (.InvalidFieldElement msgNoInverse) :=
  claim8_div_error rfl (by decide) (by decide) (by decide) (by decide) (by decide)

/-- C3 witness: interpolating the two points (1, 3), (2, 4) over modulus 5
succeeds, and the result evaluates back to both y-values. -/
theorem claim3_witness :
    ∃ result, QAP.interpolate_points
        [⟨⟨1, 5⟩, ⟨3, 5⟩⟩, ⟨⟨2, 5⟩, ⟨4, 5⟩⟩] = .ok result ∧
      ∀ k, k < ([⟨⟨1, 5⟩, ⟨3, 5⟩⟩, ⟨⟨2, 5⟩, ⟨4, 5⟩⟩] : List Point).length →
        result.evaluate (([⟨⟨1, 5⟩, ⟨3, 5⟩⟩, ⟨⟨2, 5⟩, ⟨4, 5⟩⟩]
            : List Point).getD k ptZero).x
          = .ok (([⟨⟨1, 5⟩, ⟨3, 5⟩⟩, ⟨⟨2, 5⟩, ⟨4, 5⟩⟩]
            : List Point).getD k ptZero).y := by
  refine @claim3_interpolation [⟨⟨1, 5⟩, ⟨3, 5⟩⟩, ⟨⟨2, 5⟩, ⟨4, 5⟩⟩] 5
    (by simp) (by decide) (by decide) (by decide) ?_
  intro k l hk hl hkl
  have hk2 : k < 2 := by simpa using hk
  have hl2 : l < 2 := by simpa using hl
  interval_cases k <;> interval_cases l <;>
    first
      | exact absurd rfl hkl
      | exact isUnit_of_mul_eq_one _ 4 (by decide)
      | exact isUnit_of_mul_eq_one _ 1 (by decide)

/-- C3 counterexample: the single point (1, 3) over the modulus 2^64 - 1 is
non-empty, well formed with reduced values, and trivially has pairwise
invertible x-differences, so the original claim promises that the interpolated
polynomial evaluates to 3 at x = 1.  But inside inv the modulus is
reinterpreted as the i64 value -1 (field.rs:57), every truncated remainder by
it is 0, and the denominator inverse silently comes back 0: interpolation
returns the zero polynomial, which evaluates at x = 1 to 0, not 3. -/
theorem claim3_counterexample :
    QAP.interpolate_points [⟨⟨1, 2 ^ 64 - 1⟩, ⟨3, 2 ^ 64 - 1⟩⟩]
      = .ok ⟨[⟨0, 2 ^ 64 - 1⟩]⟩ ∧
    (⟨[⟨0, 2 ^ 64 - 1⟩]⟩ : Polynomial).evaluate ⟨1, 2 ^ 64 - 1⟩
      = .ok ⟨0, 2 ^ 64 - 1⟩ ∧
    (⟨0, 2 ^ 64 - 1⟩ : FieldElement) ≠ ⟨3, 2 ^ 64 - 1⟩ :=
  ⟨rfl, rfl, by decide⟩

/-- C9: ConstraintSystem::evaluate walks the constraints in insertion order: a
returned Ok is always the value true and certifies that every constraint is
satisfied, and when some prefix of the constraints is satisfied while the next
constraint's product check fails, the result is the CircuitError naming exactly
that constraint's position. -/
theorem claim9_evaluate {cs : ConstraintSystem} {witness : List FieldElement} :
    (∀ b, cs.evaluate witness = .ok b →
      b = true ∧ ∀ c ∈ cs.constraints, ConstraintHolds witness c) ∧
    (∀ (pre post : List R1CSConstraint) (viol : R1CSConstraint)
        (av bv cv pv : FieldElement),
      cs.constraints = pre ++ viol :: post →
      (∀ c ∈ pre, ConstraintHolds witness c) →
      viol.a.evaluate witness = .ok av →
      viol.b.evaluate witness = .ok bv →
      viol.c.evaluate witness = .ok cv →
      av.mul bv = .ok pv → pv ≠ cv →
      cs.evaluate witness
        = .error (.CircuitError (constraintErrMsg pre.length av bv cv))) := by
  constructor
  · intro b h
    exact evalFrom_ok cs.constraints 0 b h
  · intro pre post viol av bv cv pv hcs hpre hav hbv hcv hpv hne
    show evaluateConstraintsFrom witness cs.constraints 0 = _
    rw [hcs]
    have h := evalFrom_err hav hbv hcv hpv hne pre post 0 hpre
    rwa [Nat.zero_add] at h

/-- C9 witness: on cs9 with witness [2], the first constraint 1*2 x 1*2 = 2*2
holds, the second fails, and evaluate reports position 1 with the three
evaluated values. -/
theorem claim9_witness :
    cs9.evaluate [⟨2, 7⟩]
      = .error (.CircuitError (constraintErrMsg 1 ⟨2, 7⟩ ⟨2, 7⟩ ⟨2, 7⟩)) := by
  have h := (@claim9_evaluate cs9 [⟨2, 7⟩]).2
    [⟨⟨[⟨0, ⟨1, 7⟩⟩]⟩, ⟨[⟨0, ⟨1, 7⟩⟩]⟩, ⟨[⟨0, ⟨2, 7⟩⟩]⟩⟩] []
    ⟨⟨[⟨0, ⟨1, 7⟩⟩]⟩, ⟨[⟨0, ⟨1, 7⟩⟩]⟩, ⟨[⟨0, ⟨1, 7⟩⟩]⟩⟩
    ⟨2, 7⟩ ⟨2, 7⟩ ⟨2, 7⟩ ⟨4, 7⟩ rfl
    (by
      intro c hc
      rw [List.mem_singleton.mp hc]
      exact ⟨⟨2, 7⟩, ⟨2, 7⟩, ⟨4, 7⟩, ⟨4, 7⟩, rfl, rfl, rfl, rfl, rfl⟩)
    rfl rfl rfl rfl (by decide)
  exact h

/-- C10: lookupCoefficient takes the first term matching the variable index and
defaults to zero, so when a linear combination has pairwise distinct term
indices the looked-up coefficient equals the combination's total coefficient
for the variable - the sum of every matching term's coefficient. -/
theorem claim10_lookup {lc : LinearCombination} {i m : Nat} (hm : m ≠ 0)
    (hnd : (lc.terms.map Term.index).Nodup) :
    ∃ c, lookupCoefficient lc i m = .ok c ∧
      (c.value : ZMod m) = ((lc.terms.filter (fun t => t.index = i)).map
        (fun t => (t.coefficient.value : ZMod m))).sum :=
  lookup_total hm hnd

/-- C10 witness: on the combination 3*x0 + 4*x1 over modulus 7 the lookup for
variable 1 returns a coefficient summing to the single matching term. -/
theorem claim10_witness :
    ∃ c, lookupCoefficient ⟨[⟨0, ⟨3, 7⟩⟩, ⟨1, ⟨4, 7⟩⟩]⟩ 1 7 = .ok c ∧
      (c.value : ZMod 7)
        = (((⟨[⟨0, ⟨3, 7⟩⟩, ⟨1, ⟨4, 7⟩⟩]⟩ : LinearCombination).terms.filter
            (fun t => t.index = 1)).map
          (fun t => (t.coefficient.value : ZMod 7))).sum :=
  claim10_lookup (by decide) (by decide)

/-- C2: For well-formed polynomials over one modulus below 2^63 (so that the
i64 reinterpretation inside inv is the identity) whose divisor has an
invertible leading coefficient at its true degree, division succeeds and
recomposes: quotient times divisor plus remainder equals the dividend
coefficient by coefficient, and the remainder's true degree is below the
divisor's whenever the remainder is non-zero. -/
theorem claim2_div {p q : Polynomial} {m : Nat} (hp : Good m p) (hq : Good m q)
    (hgcd : Nat.gcd ((q.coefficients.getD q.degree feZero).value) m = 1)
    (hm : m ≠ 0) (hm63 : m < 2 ^ 63) :
    ∃ quo rem mq s, p.div q = .ok (quo, rem) ∧ quo.mul q = .ok mq ∧
      mq.add rem = .ok s ∧ (∀ k, valueAt s k = valueAt p k) ∧
      ((∃ k, valueAt rem k ≠ 0) → rem.degree < q.degree) := by
  obtain ⟨quo, rem, hdiv, hquoGood, hremwf, hremne, hexit⟩ :=
    div_run hp hq hgcd hm hm63
  obtain ⟨-, -, -, -, hid⟩ := div_sound hp.allMod.headEq hdiv
  obtain ⟨mq, hmq⟩ := pmul_ok hquoGood.allMod hq.allMod hm
  obtain ⟨-, -, hmqlen, hmqwf, hmqconv⟩ := pmul_spec hquoGood.allMod.headEq hmq
  have hquopos : 0 < quo.coefficients.length := List.length_pos.mpr hquoGood.1
  have hqpos : 0 < q.coefficients.length := List.length_pos.mpr hq.1
  have hmqAll : AllMod m mq := by
    refine ⟨?_, fun x hx => (hmqwf x hx).1⟩
    intro hc
    have h0 : mq.coefficients.length = 0 := by rw [hc]; rfl
    omega
  have hremAll : AllMod m rem := ⟨hremne, fun x hx => (hremwf x hx).1⟩
  obtain ⟨s, hs⟩ := padd_ok hmqAll hremAll hm
  obtain ⟨-, -, hslen, hswf, hsvals⟩ := padd_spec hmqAll.headEq hs
  have hvlt : ∀ (t : Polynomial),
      (∀ x ∈ t.coefficients, x.modulus = m ∧ x.value < m) →
      ∀ k, valueAt t k < m := by
    intro t hwf k
    unfold valueAt listValueAt
    cases hk : t.coefficients.get? k with
    | none =>
      show (0 : Nat) < m
      exact Nat.pos_of_ne_zero hm
    | some x =>
      show x.value < m
      exact (hwf x (List.get?_mem hk)).2
  refine ⟨quo, rem, mq, s, hdiv, hmq, hs, ?_, ?_⟩
  · intro k
    have hcast : (valueAt s k : ZMod m) = (valueAt p k : ZMod m) := by
      have h1 : (valueAt s k : ZMod m)
          = (valueAt mq k : ZMod m) + (valueAt rem k : ZMod m) := by
        rw [hsvals k, ZMod.natCast_mod, Nat.cast_add]
      have h2 := hid k
      unfold coeffZ at h2
      have h3 : (valueAt mq k : ZMod m) = conv m quo q k := hmqconv k
      rw [h1, h3]
      exact h2.symm
    exact val_eq_of_cast_eq (hvlt s hswf k) (hvlt p hp.2 k) hcast
  · intro hex
    by_contra hge
    apply hexit
    refine ⟨by omega, List.length_pos.mpr hremne, ?_⟩
    have h4 := degree_val_ne_of_exists hex
    rwa [valueAt_eq_getD] at h4

/-- C2 witness: dividing 2x^2+3x+1 by x+1 over modulus 7 recomposes to the
dividend with a remainder below degree 1. -/
theorem claim2_witness :
    ∃ quo rem mq s,
      (⟨[⟨1, 7⟩, ⟨3, 7⟩, ⟨2, 7⟩]⟩ : Polynomial).div ⟨[⟨1, 7⟩, ⟨1, 7⟩]⟩
        = .ok (quo, rem) ∧
      quo.mul ⟨[⟨1, 7⟩, ⟨1, 7⟩]⟩ = .ok mq ∧ mq.add rem = .ok s ∧
      (∀ k, valueAt s k = valueAt (⟨[⟨1, 7⟩, ⟨3, 7⟩, ⟨2, 7⟩]⟩ : Polynomial) k) ∧
      ((∃ k, valueAt rem k ≠ 0) →
        rem.degree < (⟨[⟨1, 7⟩, ⟨1, 7⟩]⟩ : Polynomial).degree) :=
  @claim2_div ⟨[⟨1, 7⟩, ⟨3, 7⟩, ⟨2, 7⟩]⟩ ⟨[⟨1, 7⟩, ⟨1, 7⟩]⟩ 7
    (by decide) (by decide) (by decide) (by decide) (by decide)

/-- C2 counterexample: over the modulus 2^64 - 1 the dividend [1] and divisor
[2^64 - 3] are well formed with reduced values, and the divisor's leading value
is coprime to the modulus, so the original claim promises a successful
division; but inv reinterprets the value and modulus as the i64 values -3 and
-1 (field.rs:56-57), the extended Euclid computes g = -1, and the division
fails reporting that no modular inverse exists. -/
theorem claim2_counterexample :
    Nat.gcd (2 ^ 64 - 3) (2 ^ 64 - 1) = 1 ∧
    (⟨[⟨1, 2 ^ 64 - 1⟩]⟩ : Polynomial).div ⟨[⟨2 ^ 64 - 3, 2 ^ 64 - 1⟩]⟩
      = .error (.InvalidFieldElement msgNoInverse) :=
  ⟨by decide, rfl⟩

/-- C4: For a system accepted by QAP::create whose working modulus exceeds 1,
the target polynomial has one more coefficient than the constraint count m, its
true degree is m, it is monic with leading stored value 1, its evaluation
agrees everywhere with the product of (x - r) for r in 1..m, and it vanishes at
every domain point. -/
theorem claim4_target {cs : ConstraintSystem} {qap : QAP} {t0 : Term} {m : Nat}
    (hterm : (cs.constraints.headD defaultConstraint).a.terms.head? = some t0)
    (hmod : t0.coefficient.modulus = m) (hm1 : 1 < m)
    (h : QAP.create cs = .ok qap) :
    qap.target_polynomial.coefficients.length = cs.constraints.length + 1 ∧
    qap.target_polynomial.degree = cs.constraints.length ∧
    valueAt qap.target_polynomial cs.constraints.length = 1 ∧
    (∀ w : ZMod m, evalSum m qap.target_polynomial w
      = ((List.range cs.constraints.length).map
          (fun i => w - ((i + 1 : Nat) : ZMod m))).prod) ∧
    (∀ j, j < cs.constraints.length →
      evalSum m qap.target_polynomial (((j + 1 : Nat)) : ZMod m) = 0) := by
  obtain ⟨hm0, hn0, -, -, -, htall, htplen, htpred, httop, htev, -⟩ :=
    create_spec hterm hmod h
  have hlt : cs.constraints.length < qap.target_polynomial.coefficients.length := by
    omega
  have htv : valueAt qap.target_polynomial cs.constraints.length = 1 := by
    obtain ⟨x, hx⟩ : ∃ x, qap.target_polynomial.coefficients.get?
        cs.constraints.length = some x :=
      ⟨_, List.get?_eq_get hlt⟩
    have hxred := (htpred x (List.get?_mem hx)).2
    have hcast : (valueAt qap.target_polynomial cs.constraints.length : ZMod m)
        = 1 := httop
    have hv : valueAt qap.target_polynomial cs.constraints.length = x.value := by
      unfold valueAt listValueAt
      rw [hx]
      rfl
    rw [hv] at hcast ⊢
    apply val_eq_of_cast_eq hxred hm1
    rw [Nat.cast_one]
    exact hcast
  have hdeg : qap.target_polynomial.degree = cs.constraints.length := by
    have h2 : valueAt qap.target_polynomial
        (qap.target_polynomial.coefficients.length - 1) ≠ 0 := by
      rw [show qap.target_polynomial.coefficients.length - 1
          = cs.constraints.length from by omega, htv]
      exact one_ne_zero
    rw [degree_eq_top h2]
    omega
  refine ⟨htplen, hdeg, htv, htev, ?_⟩
  intro j hj
  rw [htev]
  apply List.prod_eq_zero
  have hmem := List.mem_map_of_mem
    (fun i => (((j + 1 : Nat)) : ZMod m) - ((i + 1 : Nat) : ZMod m))
    (List.mem_range.mpr hj)
  beta_reduce at hmem
  rw [sub_self] at hmem
  exact hmem

/-- C4 counterexample: over modulus 1 create accepts csMod1, but the target
polynomial is [0, 0]: its true degree is 0, not the constraint count 1, and its
leading value is 0, not 1, so the claim fails without excluding modulus 1. -/
theorem claim4_counterexample :
    QAP.create csMod1 = .ok qapMod1 ∧ csMod1.constraints.length = 1 ∧
      qapMod1.target_polynomial.degree ≠ 1 ∧
      valueAt qapMod1.target_polynomial qapMod1.target_polynomial.degree ≠ 1 :=
  ⟨rfl, rfl, by decide, by decide⟩

/-- C4 witness: for csSmall over modulus 7 the created target is x - 1 stored
as [6, 1]: length 2, degree 1, monic, and it vanishes on the domain. -/
theorem claim4_witness :
    qapSmall.target_polynomial.coefficients.length
      = csSmall.constraints.length + 1 ∧
    qapSmall.target_polynomial.degree = csSmall.constraints.length ∧
    valueAt qapSmall.target_polynomial csSmall.constraints.length = 1 ∧
    (∀ w : ZMod 7, evalSum 7 qapSmall.target_polynomial w
      = ((List.range csSmall.constraints.length).map
          (fun i => w - ((i + 1 : Nat) : ZMod 7))).prod) ∧
    (∀ j, j < csSmall.constraints.length →
      evalSum 7 qapSmall.target_polynomial (((j + 1 : Nat)) : ZMod 7) = 0) :=
  @claim4_target csSmall qapSmall ⟨0, ⟨1, 7⟩⟩ 7 rfl rfl (by decide) rfl

/-- C1: When the three aggregates and the division by the target succeed,
calculate_witness_quotient fails with the PolynomialError exactly when some
remainder coefficient is non-zero, and otherwise returns the quotient h with
p = h * t as an exact coefficient identity over the working modulus. -/
theorem claim1_quotient {qap : QAP} {witness : List FieldElement}
    {A B C ab p quo rem : Polynomial} {m : Nat}
    (haggA : qap.aggregate_polynomials witness
      (fun q j => q.a_polynomials.get? j) = pok A)
    (haggB : qap.aggregate_polynomials witness
      (fun q j => q.b_polynomials.get? j) = pok B)
    (haggC : qap.aggregate_polynomials witness
      (fun q j => q.c_polynomials.get? j) = pok C)
    (hmul : A.mul B = .ok ab)
    (hsub : ab.sub C = .ok p)
    (hdiv : p.div qap.target_polynomial = .ok (quo, rem))
    (hm : (p.coefficients.headD feZero).modulus = m) :
    ((∃ x ∈ rem.coefficients, x.value ≠ 0) →
      qap.calculate_witness_quotient witness
        = perr (.PolynomialError msgNotDivisible)) ∧
    ((∀ x ∈ rem.coefficients, x.value = 0) →
      qap.calculate_witness_quotient witness = pok quo ∧
      ∀ k, coeffZ m p k = conv m quo qap.target_polynomial k) := by
  have h4 : liftZK (A.mul B) = pok ab := by rw [hmul, liftZK_ok]
  have h5 : liftZK (ab.sub C) = pok p := by rw [hsub, liftZK_ok]
  have h6 : liftZK (p.div qap.target_polynomial) = pok (quo, rem) := by
    rw [hdiv, liftZK_ok]
  have hchain : qap.calculate_witness_quotient witness
      = if (quo, rem).2.coefficients.all (fun coeff => coeff.value = 0)
        then pure (quo, rem).1
        else liftZK (Except.error (ZKError.PolynomialError msgNotDivisible)) := by
    unfold QAP.calculate_witness_quotient
    exact (pbind_eq haggA _).trans ((pbind_eq haggB _).trans
      ((pbind_eq haggC _).trans ((pbind_eq h4 _).trans
        ((pbind_eq h5 _).trans (pbind_eq h6 _)))))
  obtain ⟨-, -, -, -, hid⟩ := div_sound hm hdiv
  constructor
  · intro hnz
    have hallf : ((quo, rem).2.coefficients.all (fun coeff => coeff.value = 0))
        = false := by
      show (rem.coefficients.all (fun coeff => coeff.value = 0)) = false
      rw [Bool.eq_false_iff]
      intro hc
      obtain ⟨x, hx, hxv⟩ := hnz
      have h7 := List.all_eq_true.mp hc x hx
      simp at h7
      exact hxv h7
    rw [hchain, hallf, if_neg (by simp), liftZK_err]
  · intro hz
    have hallt : ((quo, rem).2.coefficients.all (fun coeff => coeff.value = 0))
        = true := by
      show (rem.coefficients.all (fun coeff => coeff.value = 0)) = true
      rw [List.all_eq_true]
      intro x hx
      simp only [decide_eq_true_eq]
      exact hz x hx
    have hremz : ∀ k, coeffZ m rem k = 0 := by
      intro k
      unfold coeffZ valueAt listValueAt
      cases hk : rem.coefficients.get? k with
      | none =>
        show (((0 : Nat)) : ZMod m) = 0
        exact Nat.cast_zero
      | some x =>
        show ((x.value : Nat) : ZMod m) = 0
        rw [hz x (List.get?_mem hk)]
        exact Nat.cast_zero
    refine ⟨?_, ?_⟩
    · rw [hchain, hallt, if_pos rfl, ppure]
    · intro k
      have h8 := hid k
      rw [hremz k, add_zero] at h8
      exact h8

/-- C1 witness: for the QAP of csSmall with the valid witness [1], the
remainder is zero and the quotient [0] satisfies the exact identity. -/
theorem claim1_witness :
    QAP.calculate_witness_quotient qapSmall [⟨1, 7⟩] = pok ⟨[⟨0, 7⟩]⟩ ∧
    ∀ k, coeffZ 7 ⟨[⟨0, 7⟩]⟩ k
      = conv 7 ⟨[⟨0, 7⟩]⟩ qapSmall.target_polynomial k :=
  (@claim1_quotient qapSmall [⟨1, 7⟩] ⟨[⟨1, 7⟩]⟩ ⟨[⟨1, 7⟩]⟩ ⟨[⟨1, 7⟩]⟩
    ⟨[⟨1, 7⟩]⟩ ⟨[⟨0, 7⟩]⟩ ⟨[⟨0, 7⟩]⟩ ⟨[⟨0, 7⟩]⟩ 7
    rfl rfl rfl rfl rfl rfl rfl).2 (by decide)

/-- C5: For a QAP accepted by create and a witness whose length equals the
system's num_variables, with at least one variable, uniform modulus and reduced
values, calculate_witness_quotient performs no out-of-bounds access (it never
aborts), and each side's aggregate succeeds and equals the sum over j below
num_variables of witness[j] times that side's polynomial for variable j. -/
theorem claim5_no_oob {cs : ConstraintSystem} {qap : QAP} {t0 : Term} {m : Nat}
    {witness : List FieldElement}
    (hterm : (cs.constraints.headD defaultConstraint).a.terms.head? = some t0)
    (hmod : t0.coefficient.modulus = m)
    (h : QAP.create cs = .ok qap)
    (hlen : witness.length = cs.num_variables)
    (hnv : cs.num_variables ≠ 0)
    (hw : ∀ x ∈ witness, x.modulus = m)
    (hwred : ∀ x ∈ witness, x.value < m) :
    qap.calculate_witness_quotient witness ≠ pnone ∧
    (∃ A, qap.aggregate_polynomials witness
        (fun q j => q.a_polynomials.get? j) = pok A ∧
      ∀ k, coeffZ m A k = ∑ j ∈ Finset.range cs.num_variables,
        ((witness.getD j feZero).value : ZMod m)
          * coeffZ m (qap.a_polynomials.getD j ⟨[]⟩) k) ∧
    (∃ B, qap.aggregate_polynomials witness
        (fun q j => q.b_polynomials.get? j) = pok B ∧
      ∀ k, coeffZ m B k = ∑ j ∈ Finset.range cs.num_variables,
        ((witness.getD j feZero).value : ZMod m)
          * coeffZ m (qap.b_polynomials.getD j ⟨[]⟩) k) ∧
    (∃ C2, qap.aggregate_polynomials witness
        (fun q j => q.c_polynomials.get? j) = pok C2 ∧
      ∀ k, coeffZ m C2 k = ∑ j ∈ Finset.range cs.num_variables,
        ((witness.getD j feZero).value : ZMod m)
          * coeffZ m (qap.c_polynomials.getD j ⟨[]⟩) k) := by
  obtain ⟨hm0, hn0, hal, hbl, hcl, -, -, -, -, -, hfam⟩ := create_spec hterm hmod h
  have hwne : witness ≠ [] := by
    intro hc
    rw [hc] at hlen
    have h0 : 0 = cs.num_variables := hlen
    exact hnv h0.symm
  have hselA : ∀ j, j < witness.length →
      ∃ p2, qap.a_polynomials.get? j = some p2 ∧ AllMod m p2 := by
    intro j hj
    have hj2 : j < cs.num_variables := by omega
    have hjlt : j < qap.a_polynomials.length := by omega
    refine ⟨qap.a_polynomials.getD j ⟨[]⟩, ?_, (hfam j hj2).1.1⟩
    rw [List.getD_eq_get?, List.get?_eq_get hjlt]
    rfl
  have hselB : ∀ j, j < witness.length →
      ∃ p2, qap.b_polynomials.get? j = some p2 ∧ AllMod m p2 := by
    intro j hj
    have hj2 : j < cs.num_variables := by omega
    have hjlt : j < qap.b_polynomials.length := by omega
    refine ⟨qap.b_polynomials.getD j ⟨[]⟩, ?_, (hfam j hj2).2.1.1⟩
    rw [List.getD_eq_get?, List.get?_eq_get hjlt]
    rfl
  have hselC : ∀ j, j < witness.length →
      ∃ p2, qap.c_polynomials.get? j = some p2 ∧ AllMod m p2 := by
    intro j hj
    have hj2 : j < cs.num_variables := by omega
    have hjlt : j < qap.c_polynomials.length := by omega
    refine ⟨qap.c_polynomials.getD j ⟨[]⟩, ?_, (hfam j hj2).2.2.1⟩
    rw [List.getD_eq_get?, List.get?_eq_get hjlt]
    rfl
  obtain ⟨A, hA, hAall, hAk⟩ := @aggregate_ok qap witness
    (fun q j => q.a_polynomials.get? j) m hw hwne hm0 hselA
  obtain ⟨B, hB, hBall, hBk⟩ := @aggregate_ok qap witness
    (fun q j => q.b_polynomials.get? j) m hw hwne hm0 hselB
  obtain ⟨C2, hC, hCall, hCk⟩ := @aggregate_ok qap witness
    (fun q j => q.c_polynomials.get? j) m hw hwne hm0 hselC
  rw [hlen] at hAk hBk hCk
  have hnp : qap.calculate_witness_quotient witness ≠ pnone := by
    unfold QAP.calculate_witness_quotient
    apply pbind_ne_none
    · exact aggregate_ne_none hwne (fun j hj => by
        obtain ⟨p2, hp2, -⟩ := hselA j hj
        rw [hp2]
        exact Option.some_ne_none p2)
    · intro A3
      apply pbind_ne_none
      · exact aggregate_ne_none hwne (fun j hj => by
          obtain ⟨p2, hp2, -⟩ := hselB j hj
          rw [hp2]
          exact Option.some_ne_none p2)
      · intro B3
        apply pbind_ne_none
        · exact aggregate_ne_none hwne (fun j hj => by
            obtain ⟨p2, hp2, -⟩ := hselC j hj
            rw [hp2]
            exact Option.some_ne_none p2)
        · intro C3
          apply pbind_ne_none (liftZK_ne_pnone _)
          intro ab
          apply pbind_ne_none (liftZK_ne_pnone _)
          intro p2
          apply pbind_ne_none (liftZK_ne_pnone _)
          intro qr
          by_cases hcnd : (qr.2.coefficients.all (fun coeff => coeff.value = 0))
            = true
          · rw [if_pos hcnd, ppure]
            exact pok_ne_pnone qr.1
          · rw [if_neg hcnd, liftZK_err]
            exact perr_ne_pnone _
  refine ⟨hnp, ⟨A, hA, ?_⟩, ⟨B, hB, ?_⟩, ⟨C2, hC, ?_⟩⟩
  · intro k
    rw [hAk k]
    apply Finset.sum_congr rfl
    intro j hj
    rw [List.getD_eq_get? qap.a_polynomials j ⟨[]⟩]
  · intro k
    rw [hBk k]
    apply Finset.sum_congr rfl
    intro j hj
    rw [List.getD_eq_get? qap.b_polynomials j ⟨[]⟩]
  · intro k
    rw [hCk k]
    apply Finset.sum_congr rfl
    intro j hj
    rw [List.getD_eq_get? qap.c_polynomials j ⟨[]⟩]

/-- C5 counterexample: the witness [1, 0] is longer than the single variable of
csSmall, and calculate_witness_quotient aborts on the out-of-bounds family
index - the claim fails when the witness is merely at least as long as
num_variables. -/
theorem claim5_counterexample :
    QAP.create csSmall = .ok qapSmall ∧ csSmall.num_variables = 1 ∧
      QAP.calculate_witness_quotient qapSmall [⟨1, 7⟩, ⟨0, 7⟩] = pnone :=
  ⟨rfl, rfl, rfl⟩

/-- C5 witness: with the witness [1] of length exactly num_variables, the
computation never aborts and each aggregate is the weighted sum. -/
theorem claim5_witness :
    QAP.calculate_witness_quotient qapSmall [⟨1, 7⟩] ≠ pnone ∧
    (∃ A, qapSmall.aggregate_polynomials [⟨1, 7⟩]
        (fun q j => q.a_polynomials.get? j) = pok A ∧
      ∀ k, coeffZ 7 A k = ∑ j ∈ Finset.range csSmall.num_variables,
        ((([⟨1, 7⟩] : List FieldElement).getD j feZero).value : ZMod 7)
          * coeffZ 7 (qapSmall.a_polynomials.getD j ⟨[]⟩) k) ∧
    (∃ B, qapSmall.aggregate_polynomials [⟨1, 7⟩]
        (fun q j => q.b_polynomials.get? j) = pok B ∧
      ∀ k, coeffZ 7 B k = ∑ j ∈ Finset.range csSmall.num_variables,
        ((([⟨1, 7⟩] : List FieldElement).getD j feZero).value : ZMod 7)
          * coeffZ 7 (qapSmall.b_polynomials.getD j ⟨[]⟩) k) ∧
    (∃ C2, qapSmall.aggregate_polynomials [⟨1, 7⟩]
        (fun q j => q.c_polynomials.get? j) = pok C2 ∧
      ∀ k, coeffZ 7 C2 k = ∑ j ∈ Finset.range csSmall.num_variables,
        ((([⟨1, 7⟩] : List FieldElement).getD j feZero).value : ZMod 7)
          * coeffZ 7 (qapSmall.c_polynomials.getD j ⟨[]⟩) k) :=
  @claim5_no_oob csSmall qapSmall ⟨0, ⟨1, 7⟩⟩ 7 [⟨1, 7⟩]
    rfl rfl rfl rfl (by decide) (by decide) (by decide)

end zksfs